import Mathlib

/-!
# str.h : counted strings over a caller-supplied allocator

A shallow embedding of `src/str.h` and proofs about it.

Modelling conventions
* Target is LP64: `STR_SIZE_T = size_t` is 64 bit, `int` is 32 bit, a data pointer is
  8 bytes, `sizeof(Str) = 24`.
* `size_t` values are `Nat`.  Every length and capacity that occurs is bounded by the size
  of an object in memory (below `2^47`), so `size_t` sums and products never wrap and the
  `double` product `n * 1.5` is exact; `(STR_SIZE_T)(n * 1.5)` is `n * 3 / 2`.
* Conversions `(int)x` wrap modulo `2^32` (`toInt`), as do `int` subtractions.
* Memory is a list of allocator blocks plus immutable static objects (string literals,
  caller locals).  Every access is checked: a null, dangling or out-of-range access is a
  `Fault`, which is how undefined behaviour of the C code shows up.
* The allocator obeys the contract of the `StrAllocator` interface (as `str_std_allocator`
  does); whether the next call succeeds is read from `Heap.oracle`, and every call is
  recorded in `Heap.log`.
* `Str* s` in/out parameters are passed and returned by value.
-/

deriving instance DecidableEq for Except

namespace StrH

/-! ## Memory model -/

/-- The value of a `STR_BYTE_T` (`char`) after integer promotion. -/
abbrev Byte := Int

/-- Ways in which an execution of the C code can go wrong. -/
inductive Fault where
  | nullDeref
  | outOfBounds
  | useAfterFree
  | badPointer
  | readOnly
  | assertion
  deriving DecidableEq, Repr

/-- The object a byte pointer points into: an allocator block or an immutable object whose
contents are known (a string literal or a caller variable). -/
inductive Base where
  | heap (id : Nat)
  | static (bytes : List Byte)
  deriving DecidableEq, Repr

/-- A non-null `STR_BYTE_T*`: an object and a byte offset into it. -/
structure Loc where
  base : Base
  off : Nat
  deriving DecidableEq, Repr

/-- A `STR_BYTE_T*`; `none` is `NULL`. -/
abbrev Ptr := Option Loc

/-- The struct `Str` of the source. -/
structure Str where
  len : Nat
  cap : Nat
  data : Ptr
  deriving DecidableEq, Repr

/-- The object a `Str*` points to: an allocator block of `Str` slots or a caller array. -/
inductive ABase where
  | heap (id : Nat)
  | static (elems : List Str)
  deriving DecidableEq, Repr

/-- A `Str*` (always used at offset 0 by the source); `none` is `NULL`. -/
abbrev APtr := Option ABase

/-- The struct `StrArray` of the source. -/
structure StrArray where
  len : Nat
  cap : Nat
  data : APtr
  deriving DecidableEq, Repr

/-- A call made through the `StrAllocator` interface, with the byte sizes passed. -/
inductive AllocCall where
  | malloc (size : Nat)
  | realloc (size_old size_new : Nat)
  | free (size : Nat)
  deriving DecidableEq, Repr

/-- The allocator state.  `bytes` and `strs` hold the blocks handed out for byte buffers and
for `Str` arrays (`none` once released); `oracle` lists the outcomes of the coming
`malloc`/`realloc` calls (`false` is failure, an exhausted list is success); `log` records the
calls made, newest first. -/
structure Heap where
  bytes : List (Option (List Byte))
  strs : List (Option (List Str))
  oracle : List Bool
  log : List AllocCall
  deriving DecidableEq, Repr

/-- Content of memory that was allocated but never written. -/
def junk : Byte := 85

/-- Content of a `Str` slot that was allocated but never written. -/
def junkStr : Str := ⟨0, 0, none⟩

/-- The constant `sizeof(STR_BYTE_T*)`. -/
def sizeof_ptr : Nat := 8

/-- The constant `sizeof(STR_BYTE_T)`. -/
def sizeof_byte : Nat := 1

/-- The constant `sizeof(Str)`. -/
def sizeof_Str : Nat := 24

/-- Conversion of an integer value to the 32 bit `int`. -/
def toInt (n : Int) : Int := (n + 2147483648) % 4294967296 - 2147483648

/-- The expression `(STR_SIZE_T)(n * 1.5)`. -/
def growCap (n : Nat) : Nat := n * 3 / 2

namespace Heap

/-- The empty allocator state with the given outcomes for the coming calls. -/
def init (oracle : List Bool) : Heap := ⟨[], [], oracle, []⟩

/-- Whether the next `malloc`/`realloc` call succeeds. -/
def nextOk (h : Heap) : Bool :=
  match h.oracle with
  | false :: _ => false
  | _ => true

/-- The live byte block `id`. -/
def block (h : Heap) (id : Nat) : Except Fault (List Byte) :=
  match h.bytes[id]? with
  | none => .error .badPointer
  | some none => .error .useAfterFree
  | some (some bs) => .ok bs

/-- The bytes addressable from `p` onwards: `p[0]`, `p[1]`, ... up to the end of its object. -/
def mem (h : Heap) : Ptr → Except Fault (List Byte)
  | none => .error .nullDeref
  | some ⟨.heap id, off⟩ =>
    match h.block id with
    | .ok bs => .ok (bs.drop off)
    | .error e => .error e
  | some ⟨.static bs, off⟩ => .ok (bs.drop off)

/-- The read `p[i]`. -/
def load (h : Heap) (p : Ptr) (i : Nat) : Except Fault Byte :=
  match h.mem p with
  | .ok bs =>
    match bs[i]? with
    | some b => .ok b
    | none => .error .outOfBounds
  | .error e => .error e

/-- The write `p[i] = b`. -/
def store (h : Heap) (p : Ptr) (i : Nat) (b : Byte) : Except Fault Heap :=
  match p with
  | none => .error .nullDeref
  | some ⟨.static _, _⟩ => .error .readOnly
  | some ⟨.heap id, off⟩ =>
    match h.block id with
    | .ok bs =>
      if off + i < bs.length then
        .ok { h with bytes := h.bytes.set id (some (bs.set (off + i) b)) }
      else .error .outOfBounds
    | .error e => .error e

/-- The call `allocator->malloc(size, ctx)` for a byte buffer. -/
def malloc (h : Heap) (size : Nat) : Ptr × Heap :=
  match h.oracle with
  | false :: rest => (none, { h with oracle := rest, log := .malloc size :: h.log })
  | _ =>
    (some ⟨.heap h.bytes.length, 0⟩,
      { h with bytes := h.bytes ++ [some (List.replicate size junk)],
               oracle := h.oracle.tail, log := .malloc size :: h.log })

/-- The call `allocator->realloc(p, size_old, size_new, ctx)` on a byte buffer.  On success the
buffer moves to a fresh block that keeps the first `min size_old size_new` bytes (the contract
of the allocator interface) and the old block is released; on failure the old block stays.
With `p == NULL` the call is a `malloc`. -/
def realloc (h : Heap) (p : Ptr) (size_old size_new : Nat) : Except Fault (Ptr × Heap) :=
  match p with
  | none => .ok (h.malloc size_new)
  | some ⟨.static _, _⟩ => .error .badPointer
  | some ⟨.heap id, off⟩ =>
    if off ≠ 0 then .error .badPointer else
    match h.block id with
    | .error e => .error e
    | .ok bs =>
      match h.oracle with
      | false :: rest =>
        .ok (none, { h with oracle := rest, log := .realloc size_old size_new :: h.log })
      | _ =>
        let kept := bs.take (min size_old size_new)
        .ok (some ⟨.heap h.bytes.length, 0⟩,
          { h with bytes := h.bytes.set id none ++
                     [some (kept ++ List.replicate (size_new - kept.length) junk)],
                   oracle := h.oracle.tail, log := .realloc size_old size_new :: h.log })

/-- The call `allocator->malloc(size, ctx)` for an array of `Str`; the block has room for
`size / sizeof(Str)` elements. -/
def mallocStrs (h : Heap) (size : Nat) : APtr × Heap :=
  match h.oracle with
  | false :: rest => (none, { h with oracle := rest, log := .malloc size :: h.log })
  | _ =>
    (some (.heap h.strs.length),
      { h with strs := h.strs ++ [some (List.replicate (size / sizeof_Str) junkStr)],
               oracle := h.oracle.tail, log := .malloc size :: h.log })

/-- The elements addressable from a `Str*`. -/
def elems (h : Heap) : APtr → Except Fault (List Str)
  | none => .error .nullDeref
  | some (.heap id) =>
    match h.strs[id]? with
    | none => .error .badPointer
    | some none => .error .useAfterFree
    | some (some ss) => .ok ss
  | some (.static ss) => .ok ss

/-- The read `p[i]` of a `Str*`. -/
def loadStr (h : Heap) (p : APtr) (i : Nat) : Except Fault Str :=
  match h.elems p with
  | .ok ss =>
    match ss[i]? with
    | some s => .ok s
    | none => .error .outOfBounds
  | .error e => .error e

/-- The write `p[i] = s` through a `Str*`. -/
def storeStr (h : Heap) (p : APtr) (i : Nat) (s : Str) : Except Fault Heap :=
  match p with
  | none => .error .nullDeref
  | some (.static _) => .error .readOnly
  | some (.heap id) =>
    match h.strs[id]? with
    | none => .error .badPointer
    | some none => .error .useAfterFree
    | some (some ss) =>
      if i < ss.length then
        .ok { h with strs := h.strs.set id (some (ss.set i s)) }
      else .error .outOfBounds

/-- Whether `n` bytes can be read from `p`. -/
def readable (h : Heap) (p : Ptr) (n : Nat) : Bool :=
  match h.mem p with
  | .ok bs => decide (n ≤ bs.length)
  | .error _ => false

/-- The `n` bytes at `p`, when they can be read. -/
def bytesAt (h : Heap) (p : Ptr) (n : Nat) : Option (List Byte) :=
  match h.mem p with
  | .ok bs => if n ≤ bs.length then some (bs.take n) else none
  | .error _ => none

end Heap

/-- The pointer `p + n`. -/
def Ptr.add (p : Ptr) (n : Nat) : Ptr :=
  match p with
  | none => none
  | some l => some ⟨l.base, l.off + n⟩

/-- The content of a handle: its `len` bytes, when they can be read. -/
def Str.bytes (h : Heap) (s : Str) : Option (List Byte) := h.bytesAt s.data s.len

/-- A well-formed view: capacity 0 and `len` readable bytes. -/
def Str.isView (h : Heap) (s : Str) : Bool :=
  s.cap == 0 && h.readable s.data s.len

/-- A well-formed owned handle: `cap > len`, and `data` is the start of a live allocator
block of at least `cap` bytes. -/
def Str.isOwned (h : Heap) (s : Str) : Bool :=
  match s.data with
  | some ⟨.heap id, 0⟩ =>
    match h.block id with
    | .ok bs => decide (s.len < s.cap) && decide (s.cap ≤ bs.length)
    | .error _ => false
  | _ => false

/-! ## The functions of `str.h` -/

/-- The loop `for (i = lo; i < lo + k; i++) dst[i] = src[i - sub];` with `k` iterations left
at index `i`. -/
def copy_loop (dst src : Ptr) (sub : Nat) : Nat → Nat → Heap → Except Fault Heap
  | 0, _, h => .ok h
  | k + 1, i, h =>
    match h.load src (i - sub) with
    | .error e => .error e
    | .ok b =>
      match h.store dst i b with
      | .error e => .error e
      | .ok h' => copy_loop dst src sub k (i + 1) h'

/-- The scan `while (s[len] != 0) len++;` over the bytes addressable from `s`. -/
def cstr_scan : List Byte → Nat → Except Fault Nat
  | [], _ => .error .outOfBounds
  | c :: rest, len => if c ≠ 0 then cstr_scan rest (len + 1) else .ok len

def str_with_len (s : Ptr) (len : Nat) : Str :=
  { data := s, len := len, cap := 0 }

/-- The string literal `""`. -/
def lit_empty : Ptr := some ⟨.static [0], 0⟩

def str_zero : Str := str_with_len lit_empty 0

def str (h : Heap) (s : Ptr) : Except Fault Str :=
  match h.mem s with
  | .error e => .error e
  | .ok bs =>
    match cstr_scan bs 0 with
    | .error e => .error e
    | .ok len => .ok (str_with_len s len)

def str_dynamic_with_len_cap (h : Heap) (s : Ptr) (len cap : Nat) :
    Except Fault (Heap × Str) :=
  if ¬ (len < cap) then .error .assertion else
  let (new_data, h1) := h.malloc (cap * sizeof_byte)
  match copy_loop new_data s 0 len 0 h1 with
  | .error e => .error e
  | .ok h2 =>
    match h2.store new_data len 0 with
    | .error e => .error e
    | .ok h3 => .ok (h3, { data := new_data, len := len, cap := cap })

def str_dynamic_with_len (h : Heap) (s : Ptr) (len : Nat) : Except Fault (Heap × Str) :=
  let cap := if growCap len > len then growCap len else len + 1
  str_dynamic_with_len_cap h s len cap

def str_dynamic (h : Heap) (s : Ptr) : Except Fault (Heap × Str) :=
  match h.mem s with
  | .error e => .error e
  | .ok bs =>
    match cstr_scan bs 0 with
    | .error e => .error e
    | .ok len => str_dynamic_with_len h s len

def str_is_dynamic (s : Str) : Bool := s.cap > 0

/-- The loop of `str_compare` with `k` iterations left at index `i`, followed by the final
`return`. -/
def str_compare_loop (h : Heap) (a b : Str) : Nat → Nat → Except Fault Int
  | 0, _ => .ok (toInt (toInt a.len - toInt b.len))
  | k + 1, i =>
    match h.load a.data i with
    | .error e => .error e
    | .ok x =>
      match h.load b.data i with
      | .error e => .error e
      | .ok y => if x ≠ y then .ok (x - y) else str_compare_loop h a b k (i + 1)

def str_compare (h : Heap) (a b : Str) : Except Fault Int :=
  let min_len := if a.len < b.len then a.len else b.len
  str_compare_loop h a b min_len 0

def str_is_equal (h : Heap) (a b : Str) : Except Fault Bool :=
  match str_compare h a b with
  | .error e => .error e
  | .ok r => .ok (r == 0)

def str_is_zero (h : Heap) (s : Str) : Except Fault Bool :=
  match str_compare h s str_zero with
  | .error e => .error e
  | .ok r => .ok (r == 0)

def str_substr (s : Str) (begin len : Nat) : Except Fault Str :=
  if ¬ (s.len ≥ begin + len) then .error .assertion
  else .ok (str_with_len (s.data.add begin) len)

def str_append (h : Heap) (s a : Str) : Except Fault (Heap × Str) := do
  let old_len := s.len
  let new_len := s.len + a.len
  let new_cap := if s.cap > new_len then s.cap else growCap new_len
  let _ ← str_is_zero h a
  let (new_data, h1) ←
    if s.cap = 0 then do
      let (new_data, h1) := h.malloc (sizeof_ptr * new_cap)
      let h2 ← copy_loop new_data s.data 0 s.len 0 h1
      pure (new_data, h2)
    else if s.cap ≠ new_cap then
      h.realloc s.data (sizeof_byte * s.cap) (sizeof_byte * new_cap)
    else pure (s.data, h)
  let h2 ← copy_loop new_data a.data old_len (new_len - old_len) old_len h1
  let h3 ← h2.store new_data new_len 0
  pure (h3, { data := new_data, len := new_len, cap := new_cap })

def str_append_cstr (h : Heap) (s : Str) (a : Ptr) : Except Fault (Heap × Str) := do
  let a ← str h a
  str_append h s a

def str_reserve_mem (h : Heap) (s : Str) (new_cap : Nat) : Except Fault (Heap × Str) := do
  if ¬ (new_cap ≥ s.len) then throw Fault.assertion
  if s.cap > 0 then
    if ¬ (new_cap ≥ s.cap) then throw Fault.assertion
    let (p, h1) ← h.realloc s.data (sizeof_byte * s.cap) (sizeof_byte * new_cap)
    pure (h1, { s with data := p, cap := new_cap })
  else
    let (new_data, h1) := h.malloc (new_cap * sizeof_byte)
    let h2 ← copy_loop new_data s.data 0 s.len 0 h1
    let h3 ← if s.len < s.cap then h2.store new_data s.len 0 else pure h2
    pure (h3, { s with cap := new_cap, data := new_data })

def str__byte_isspace (c : Byte) : Bool :=
  c == 32 || c == 13 || c == 10 || c == 9 || c == 12 || c == 11

/-- The loop of `str_trim_space_front` with `k` iterations left at index `i`; the result is
the value of `i` when the loop is left. -/
def str_trim_space_front_loop (h : Heap) (s : Str) : Nat → Nat → Except Fault Nat
  | 0, i => .ok i
  | k + 1, i => do
    let c ← h.load s.data i
    if ¬ str__byte_isspace c then pure i else str_trim_space_front_loop h s k (i + 1)

def str_trim_space_front (h : Heap) (s : Str) : Except Fault Str := do
  let i ← str_trim_space_front_loop h s s.len 0
  pure (str_with_len (s.data.add i) (s.len - i))

/-- The loop of `str_trim_space_back` with `k` iterations left at index `i`; the result is
the value of `i` when the loop is left. -/
def str_trim_space_back_loop (h : Heap) (s : Str) : Nat → Nat → Except Fault Nat
  | 0, i => .ok i
  | k + 1, i => do
    let c ← h.load s.data (s.len - 1 - i)
    if ¬ str__byte_isspace c then pure i else str_trim_space_back_loop h s k (i + 1)

def str_trim_space_back (h : Heap) (s : Str) : Except Fault Str := do
  let i ← str_trim_space_back_loop h s s.len 0
  pure (str_with_len s.data (s.len - i))

def str_trim_space (h : Heap) (s : Str) : Except Fault Str := do
  let t ← str_trim_space_back h s
  str_trim_space_front h t

def str_trim_str_front (h : Heap) (s pfx : Str) : Except Fault Str := do
  if s.len < pfx.len then
    pure s
  else
    let head ← str_substr s 0 pfx.len
    if (← str_is_equal h head pfx) then
      str_substr s pfx.len (s.len - pfx.len)
    else
      pure s

def str_trim_cstr_front (h : Heap) (s : Str) (pfx : Ptr) : Except Fault Str := do
  let p ← str h pfx
  str_trim_str_front h s p

def str_trim_str_back (h : Heap) (s suffix : Str) : Except Fault Str := do
  if s.len < suffix.len then
    pure s
  else
    let tail ← str_substr s (s.len - suffix.len) suffix.len
    if (← str_is_equal h tail suffix) then
      str_substr s 0 (s.len - suffix.len)
    else
      pure s

def str_trim_cstr_back (h : Heap) (s : Str) (suffix : Ptr) : Except Fault Str := do
  let p ← str h suffix
  str_trim_str_back h s p

def str_is_equal_cstr (h : Heap) (a : Str) (b : Ptr) : Except Fault Bool := do
  let p ← str h b
  str_is_equal h a p

/-- The loop of `str_find_first_byte` with `k` iterations left at index `i`, followed by the
final `return s.len`. -/
def str_find_first_byte_loop (h : Heap) (s : Str) (c : Byte) : Nat → Nat → Except Fault Nat
  | 0, _ => .ok s.len
  | k + 1, i => do
    let x ← h.load s.data i
    if x = c then pure i else str_find_first_byte_loop h s c k (i + 1)

def str_find_first_byte (h : Heap) (s : Str) (c : Byte) : Except Fault Nat :=
  str_find_first_byte_loop h s c s.len 0

/-- The loop `for (i = s.len - 1; i > 0; i--)` of `str_find_last_byte` with `i` the current
index, followed by the test of `s.data[0]`. -/
def str_find_last_byte_loop (h : Heap) (s : Str) (c : Byte) : Nat → Except Fault Nat
  | 0 => do
    let x ← h.load s.data 0
    if x = c then pure 0 else pure s.len
  | i + 1 => do
    let x ← h.load s.data (i + 1)
    if x = c then pure (i + 1) else str_find_last_byte_loop h s c i

def str_find_last_byte (h : Heap) (s : Str) (c : Byte) : Except Fault Nat :=
  if s.len = 0 then .ok s.len else str_find_last_byte_loop h s c (s.len - 1)

/-- The first loop of `str_split_by_str` with `k` iterations left at index `i`; the result is
the final `num_delim`. -/
def str_split_count_loop (h : Heap) (s delim : Str) : Nat → Nat → Nat → Except Fault Nat
  | 0, _, num_delim => .ok num_delim
  | k + 1, i, num_delim =>
    if i + delim.len > s.len then .ok num_delim else do
      let part ← str_substr s i delim.len
      if (← str_is_equal h part delim) then
        str_split_count_loop h s delim k (i + 1) (num_delim + 1)
      else
        str_split_count_loop h s delim k (i + 1) num_delim

/-- The second loop of `str_split_by_str` with `k` iterations left at index `i`; the result
is the memory, `begin_i` and `parts.len` when the loop is left. -/
def str_split_emit_loop (s delim : Str) (data : APtr) :
    Nat → Nat → Nat → Nat → Heap → Except Fault (Heap × Nat × Nat)
  | 0, _, begin_i, len, h => .ok (h, begin_i, len)
  | k + 1, i, begin_i, len, h =>
    if i + delim.len > s.len then .ok (h, begin_i, len) else do
      let part ← str_substr s i delim.len
      if (← str_is_equal h part delim) then
        let seg ← str_substr s begin_i (i - begin_i)
        let h1 ← h.storeStr data len seg
        str_split_emit_loop s delim data k (i + 1) (i + 1) (len + 1) h1
      else
        str_split_emit_loop s delim data k (i + 1) begin_i len h

def str_split_by_str (h : Heap) (s delim : Str) : Except Fault (Heap × StrArray) := do
  let num_delim ← str_split_count_loop h s delim s.len 0 0
  let cap := num_delim + 1
  let (data, h1) := h.mallocStrs (sizeof_Str * cap)
  let (h2, begin_i, len) ← str_split_emit_loop s delim data s.len 0 0 0 h1
  let seg ← str_substr s begin_i (s.len - begin_i)
  let h3 ← h2.storeStr data len seg
  pure (h3, { len := len + 1, cap := cap, data := data })

def str_split_by_byte (h : Heap) (s : Str) (delim : Byte) : Except Fault (Heap × StrArray) :=
  str_split_by_str h s (str_with_len (some ⟨.static [delim], 0⟩) 1)

/-- The string literal `"/"`. -/
def lit_slash : Ptr := some ⟨.static [47, 0], 0⟩

def str_filepath_stem (h : Heap) (path : Str) : Except Fault Str := do
  let path ← str_trim_cstr_back h path lit_slash
  if (← str_find_first_byte h path 47) ≠ 0 then
    pure path
  else
    let i ← str_find_last_byte h path 47
    if i = path.len then
      str_trim_cstr_front h path lit_slash
    else
      let rest ← str_substr path i (path.len - i)
      str_trim_cstr_front h rest lit_slash

def str_filepath_parent (h : Heap) (path : Str) : Except Fault Str := do
  let stem ← str_filepath_stem h path
  let path ←
    if ¬ (← str_is_equal_cstr h path lit_slash) then str_trim_cstr_back h path lit_slash
    else pure path
  str_trim_str_back h path stem

/-- The `Str` values held by an array: its first `len` elements, when they can be read. -/
def StrArray.elems (h : Heap) (arr : StrArray) : Option (List Str) :=
  match h.elems arr.data with
  | .ok ss => if arr.len ≤ ss.length then some (ss.take arr.len) else none
  | .error _ => none

/-- The loop of `str_find_first_str` with `k` iterations left at index `i`, followed by the
final `return s.len`. -/
def str_find_first_str_loop (h : Heap) (s a : Str) : Nat → Nat → Except Fault Nat
  | 0, _ => .ok s.len
  | k + 1, i => do
    let x ← h.load s.data i
    let y ← h.load a.data 0
    if x ≠ y then
      str_find_first_str_loop h s a k (i + 1)
    else if i + a.len > s.len then
      pure s.len
    else
      let part ← str_substr s i a.len
      if (← str_is_equal h a part) then pure i
      else str_find_first_str_loop h s a k (i + 1)

def str_find_first_str (h : Heap) (s a : Str) : Except Fault Nat := do
  if s.len < a.len then
    pure s.len
  else
    let hit ← if a.len = s.len then str_is_equal h s a else pure false
    if hit then pure 0 else str_find_first_str_loop h s a s.len 0

/-- The loop `for (i = s.len - a.len + 1; i-- > 0;)` of `str_find_last_str`: the argument is
the value of `i` before the test, the body runs at that value minus one; followed by the
final `return s.len`. -/
def str_find_last_str_loop (h : Heap) (s a : Str) : Nat → Except Fault Nat
  | 0 => .ok s.len
  | i + 1 => do
    let x ← h.load s.data i
    let y ← h.load a.data 0
    if x ≠ y then
      str_find_last_str_loop h s a i
    else
      let part ← str_substr s i a.len
      if (← str_is_equal h a part) then pure i
      else str_find_last_str_loop h s a i

def str_find_last_str (h : Heap) (s a : Str) : Except Fault Nat :=
  if s.len < a.len then .ok s.len
  else str_find_last_str_loop h s a (s.len - a.len + 1)

def str_array_zero : StrArray := { len := 0, cap := 0, data := none }

/-- The loop `for (i = 0; i < len; i++) new_data[i] = data[i];` of `str_array_with_len_cap`
with `k` iterations left at index `i`. -/
def str_array_copy_loop (new_data data : APtr) : Nat → Nat → Heap → Except Fault Heap
  | 0, _, h => .ok h
  | k + 1, i, h => do
    let x ← h.loadStr data i
    let h1 ← h.storeStr new_data i x
    str_array_copy_loop new_data data k (i + 1) h1

/-- The part of `str_array_with_len_cap` after the allocation: the copy loop and the filling
of the result. -/
def str_array_with_len_cap_fill (h : Heap) (data new_data : APtr) (len new_cap : Nat) :
    Except Fault (Heap × StrArray) := do
  let h1 ← str_array_copy_loop new_data data len 0 h
  pure (h1, { data := new_data, cap := new_cap, len := len })

def str_array_with_len_cap (h : Heap) (data : APtr) (len cap : Nat) :
    Except Fault (Heap × StrArray) :=
  let arr := str_array_zero
  let new_cap := sizeof_Str * cap
  if data = none then .error .assertion
  else if len > 0 then
    let (new_data, h1) := h.mallocStrs new_cap
    if new_data ≠ none then .ok (h1, arr)
    else str_array_with_len_cap_fill h1 data new_data len new_cap
  else str_array_with_len_cap_fill h data none len new_cap

def str_array_with_len (h : Heap) (data : APtr) (len : Nat) : Except Fault (Heap × StrArray) :=
  str_array_with_len_cap h data len len

/-- The body of the loop of `str_filepath_join` at index `i`: the allocator state and the
value of `result` when the iteration ends (by `continue` or at the end of the body). -/
def str_filepath_join_body (elems : StrArray) (i : Nat) (h : Heap) (result : Str) :
    Except Fault (Heap × Str) :=
  if i = 0 then do
    let e ← h.loadStr elems.data i
    str_append h result e
  else do
    let e ← h.loadStr elems.data i
    if (← str_is_zero h e) then
      pure (h, result)
    else
      let (h1, r1) ← str_append_cstr h result lit_slash
      let e1 ← h1.loadStr elems.data i
      let t ← str_trim_cstr_back h1 e1 lit_slash
      let t1 ← str_trim_cstr_front h1 t lit_slash
      str_append h1 r1 t1

/-- The loop of `str_filepath_join` with `k` iterations left at index `i`. -/
def str_filepath_join_loop (elems : StrArray) :
    Nat → Nat → Heap → Str → Except Fault (Heap × Str)
  | 0, _, h, result => .ok (h, result)
  | k + 1, i, h, result =>
    match str_filepath_join_body elems i h result with
    | .error e => .error e
    | .ok (h1, r1) => str_filepath_join_loop elems k (i + 1) h1 r1

def str_filepath_join (h : Heap) (elems : StrArray) : Except Fault (Heap × Str) :=
  let result := str_zero
  if ¬ (elems.len > 0) then .error .assertion
  else str_filepath_join_loop elems elems.len 0 h result

/-! ## Specification functions -/

/-- Byte-wise comparison of two sequences: the difference of the first differing pair of
bytes, or `fin` when one sequence runs out first. -/
def cmp_bytes : List Byte → List Byte → Int → Int
  | x :: xs, y :: ys, fin => if x ≠ y then x - y else cmp_bytes xs ys fin
  | _, _, fin => fin

/-- The `(begin, length)` ranges emitted inside the second loop of a split by the byte `d`,
scanning the remaining bytes from index `i` with the current segment starting at `b`. -/
def split_emitted (d : Byte) : List Byte → Nat → Nat → List (Nat × Nat)
  | [], _, _ => []
  | x :: rest, i, b =>
    if x = d then (b, i - b) :: split_emitted d rest (i + 1) (i + 1)
    else split_emitted d rest (i + 1) b

/-- The value of `begin_i` after the second loop of a split by the byte `d`. -/
def split_begin (d : Byte) : List Byte → Nat → Nat → Nat
  | [], _, b => b
  | x :: rest, i, b =>
    if x = d then split_begin d rest (i + 1) (i + 1) else split_begin d rest (i + 1) b

/-- Splitting a byte sequence at every occurrence of `d`; `cur` is the segment under way. -/
def split_spec (d : Byte) : List Byte → List Byte → List (List Byte)
  | [], cur => [cur]
  | x :: rest, cur =>
    if x = d then cur :: split_spec d rest [] else split_spec d rest (cur ++ [x])

/-- Lexicographic comparison of two byte sequences: the difference of the first differing
pair of bytes, or the difference of the lengths when one sequence is a leading part of the
other. -/
def lex_cmp : List Byte → List Byte → Int
  | [], ys => -(ys.length : Int)
  | x :: xs, [] => ((x :: xs).length : Int)
  | x :: xs, y :: ys => if x ≠ y then x - y else lex_cmp xs ys

/-- A path without its last byte when that byte is `'/'`. -/
def drop_slash (bs : List Byte) : List Byte :=
  if bs.getLast? = some 47 then bs.dropLast else bs

/-- A path segment without one trailing `'/'` and then without one leading `'/'`. -/
def strip_slash (bs : List Byte) : List Byte :=
  if (drop_slash bs).head? = some 47 then (drop_slash bs).tail else drop_slash bs

/-- What a later segment adds to a joined path: nothing when it is empty, otherwise a `'/'`
and the segment without one trailing and one leading `'/'`. -/
def join_piece (bs : List Byte) : List Byte :=
  if bs = [] then [] else 47 :: strip_slash bs

/-- The joined path of a sequence of segments: the first segment as it is, then the piece of
every later segment. -/
def join_spec : List (List Byte) → List Byte
  | [] => []
  | first :: rest => first ++ (rest.map join_piece).flatten

end StrH

/-! ## Lemmas on lists -/

namespace StrH

theorem take_succ_set {α : Type} (db : List α) (i : Nat) (x : α) (hi : i < db.length) :
    (db.set i x).take (i + 1) = db.take i ++ [x] := by
  rw [List.take_succ]
  have hpre : List.take i (db.set i x) = List.take i db := by
    apply List.ext_getElem?
    intro j
    simp only [List.getElem?_take]
    split
    · rw [List.getElem?_set_ne (by omega)]
    · rfl
  simp [List.getElem?_set, hi, hpre]

theorem take_drop_succ {α : Type} (m : List α) (n k : Nat) (hn : n < m.length) :
    (m.drop n).take (k + 1) = m[n] :: (m.drop (n + 1)).take k := by
  rw [List.drop_eq_getElem_cons hn, List.take_succ_cons]

theorem set_same {α : Type} (l : List α) (d : Nat) (x : α) (hx : l[d]? = some x) :
    l.set d x = l := by
  apply List.ext_getElem?
  intro j
  by_cases hj : d = j
  · subst hj
    have hlt : d < l.length := (List.getElem?_eq_some_iff.mp hx).1
    simp [List.getElem?_set, hx, hlt]
  · simp [List.getElem?_set, hj]

/-! ## Lemmas on the memory model -/

theorem block_ok_lt {h : Heap} {d : Nat} {db : List Byte} (hb : h.block d = .ok db) :
    d < h.bytes.length ∧ h.bytes[d]? = some (some db) := by
  unfold Heap.block at hb
  split at hb <;> simp_all
  rename_i heq
  exact (List.getElem?_eq_some_iff.mp heq).1

theorem block_set_self {h : Heap} {d : Nat} {db : List Byte} (hb : h.block d = .ok db)
    (db' : List Byte) :
    Heap.block { h with bytes := h.bytes.set d (some db') } d = .ok db' := by
  have hlt := (block_ok_lt hb).1
  simp [Heap.block, List.getElem?_set, hlt]

theorem block_set_other {h : Heap} {d id : Nat} (hne : id ≠ d) (x : Option (List Byte)) :
    Heap.block { h with bytes := h.bytes.set d x } id = h.block id := by
  simp [Heap.block, List.getElem?_set, Ne.symm hne]

theorem mem_ok_of_readable {h : Heap} {p : Ptr} {n : Nat} (hr : h.readable p n = true) :
    ∃ m, h.mem p = .ok m ∧ n ≤ m.length := by
  unfold Heap.readable at hr
  split at hr
  · rename_i bs heq
    exact ⟨bs, heq, by simpa using hr⟩
  · simp at hr

theorem load_of_mem {h : Heap} {p : Ptr} {m : List Byte} (hm : h.mem p = .ok m) {i : Nat}
    (hi : i < m.length) : h.load p i = .ok (m[i]) := by
  simp [Heap.load, hm, List.getElem?_eq_getElem hi]

theorem store_heap_eq {h : Heap} {d : Nat} {db : List Byte} (hb : h.block d = .ok db)
    {i : Nat} (hi : i < db.length) (b : Byte) :
    h.store (some ⟨.heap d, 0⟩) i b =
      .ok { h with bytes := h.bytes.set d (some (db.set i b)) } := by
  simp [Heap.store, hb, hi]

theorem mem_set_len {h : Heap} {d : Nat} {db e : List Byte} (hb : h.block d = .ok db)
    (hlen : e.length = db.length) {p : Ptr} {m : List Byte} (hm : h.mem p = .ok m) :
    ∃ m', Heap.mem { h with bytes := h.bytes.set d (some e) } p = .ok m' ∧
      m'.length = m.length := by
  match p, hm with
  | some ⟨.static bs, off⟩, hm => exact ⟨m, by simpa [Heap.mem] using hm, rfl⟩
  | some ⟨.heap id, off⟩, hm =>
    by_cases hid : id = d
    · subst hid
      simp only [Heap.mem, hb] at hm
      injection hm with hm
      refine ⟨e.drop off, by simp [Heap.mem, block_set_self hb], ?_⟩
      simp [← hm, hlen]
    · refine ⟨m, ?_, rfl⟩
      simpa [Heap.mem, block_set_other hid] using hm

theorem mem_set_other {h : Heap} {d : Nat} (x : Option (List Byte)) {p : Ptr}
    (hne : p.map Loc.base ≠ some (.heap d)) :
    Heap.mem { h with bytes := h.bytes.set d x } p = h.mem p := by
  match p, hne with
  | none, _ => rfl
  | some ⟨.static bs, off⟩, _ => rfl
  | some ⟨.heap id, off⟩, hne =>
    have hid : id ≠ d := by
      intro e
      apply hne
      simp [e]
    simp [Heap.mem, block_set_other hid]

/-- The copy loop into a live block: it succeeds when source and destination are large
enough, rewrites exactly the `k` bytes from index `i` on, and these are the source bytes
when the source lies in another object. -/
theorem copy_loop_spec (d : Nat) (src : Ptr) (sub : Nat) :
    ∀ (k i : Nat) (h : Heap) (db m : List Byte), h.block d = .ok db → i + k ≤ db.length →
      h.mem src = .ok m → (i - sub) + k ≤ m.length →
      ∃ w : List Byte, w.length = k ∧
        copy_loop (some ⟨.heap d, 0⟩) src sub k i h =
          .ok { h with bytes := h.bytes.set d (some (db.take i ++ w ++ db.drop (i + k))) } ∧
        (src.map Loc.base ≠ some (.heap d) → sub ≤ i → w = (m.drop (i - sub)).take k) := by
  intro k
  induction k with
  | zero =>
    intro i h db m hb _ _ _
    refine ⟨[], rfl, ?_, fun _ _ => by simp⟩
    simp [copy_loop, set_same _ _ _ (block_ok_lt hb).2]
  | succ k ih =>
    intro i h db m hb hik hm hsk
    have hi : i < db.length := by omega
    have hs : i - sub < m.length := by omega
    have hl := load_of_mem hm hs
    have hst := store_heap_eq hb hi (m[i - sub])
    have hb1 := block_set_self hb (db.set i (m[i - sub]))
    obtain ⟨m1, hm1, hm1len⟩ := mem_set_len (e := db.set i (m[i - sub])) hb (by simp) hm
    obtain ⟨w, hw, hrun, hcont⟩ := ih (i + 1) _ _ m1 hb1 (by simp; omega) hm1 (by omega)
    refine ⟨m[i - sub] :: w, by simp [hw], ?_, ?_⟩
    · simp only [copy_loop, hl, hst, hrun]
      congr 2
      simp only [List.set_set]
      congr 2
      rw [take_succ_set _ _ _ hi, List.drop_set_of_lt _ _ (by omega)]
      simp [Nat.add_assoc, Nat.add_comm 1 k]
    · intro hne hle
      have hw' := hcont hne (by omega)
      have hm1' : m1 = m := by
        rw [mem_set_other _ hne, hm] at hm1
        injection hm1 with e
        exact e.symm
      rw [take_drop_succ _ _ _ hs, hw', hm1']
      have : i + 1 - sub = i - sub + 1 := by omega
      rw [this]

/-! ## Appending inside the spare capacity -/

theorem take_set_of_le {α : Type} (l : List α) (m n : Nat) (x : α) (hmn : m ≤ n) :
    (l.set n x).take m = l.take m := by
  apply List.ext_getElem?
  intro j
  simp only [List.getElem?_take]
  split
  · rw [List.getElem?_set_ne (by omega)]
  · rfl

theorem take_prefix_frame {α : Type} (db w r : List α) (n : Nat) (hn : n ≤ db.length) :
    (db.take n ++ w ++ r).take n = db.take n := by
  rw [List.append_assoc, List.take_append_of_le_length (by simp [hn])]
  simp [List.take_take]

theorem take_written {α : Type} (db w r : List α) (n : Nat) (hn : n ≤ db.length) :
    (db.take n ++ w ++ r).take (n + w.length) = db.take n ++ w := by
  have hlen : (db.take n ++ w).length = n + w.length := by simp [hn]
  rw [← hlen, List.take_left']
  rfl

theorem isOwned_unpack {h : Heap} {s : Str} (ho : s.isOwned h = true) :
    ∃ d db, s.data = some ⟨.heap d, 0⟩ ∧ h.block d = .ok db ∧ s.len < s.cap ∧
      s.cap ≤ db.length := by
  unfold Str.isOwned at ho
  split at ho
  · rename_i id heq
    split at ho
    · rename_i bs hb
      simp at ho
      exact ⟨id, bs, heq, hb, ho.1, ho.2⟩
    · simp at ho
  · simp at ho

theorem str_is_zero_ok (h : Heap) (a : Str) : ∃ r, str_is_zero h a = .ok r := by
  simp [str_is_zero, str_compare, str_zero, str_with_len, str_compare_loop]

/-- Appending within the spare capacity of an owned handle: the write stays inside the block
of `s`, which keeps its size and its first `s.len` bytes. -/
theorem str_append_inplace {h : Heap} {s a : Str} (ho : s.isOwned h = true)
    (hr : h.readable a.data a.len = true) (hc : s.len + a.len < s.cap) :
    ∃ d db db' m, s.data = some ⟨.heap d, 0⟩ ∧ h.block d = .ok db ∧ h.mem a.data = .ok m ∧
      db'.length = db.length ∧ db'.take s.len = db.take s.len ∧
      str_append h s a =
        .ok ({ h with bytes := h.bytes.set d (some db') }, { s with len := s.len + a.len }) ∧
      (a.data.map Loc.base ≠ some (.heap d) →
        db'.take (s.len + a.len) = db.take s.len ++ m.take a.len) := by
  obtain ⟨d, db, hd, hb, hlt, hle⟩ := isOwned_unpack ho
  obtain ⟨m, hm, hml⟩ := mem_ok_of_readable hr
  obtain ⟨z, hz⟩ := str_is_zero_ok h a
  obtain ⟨w, hw, hrun, hcont⟩ :=
    copy_loop_spec d a.data s.len a.len s.len h db m hb (by omega) hm (by omega)
  have hb1 := block_set_self hb (db.take s.len ++ w ++ db.drop (s.len + a.len))
  have hst := store_heap_eq hb1 (i := s.len + a.len) (by simp [hw]; omega) 0
  refine ⟨d, db, ((db.take s.len ++ w ++ db.drop (s.len + a.len)).set (s.len + a.len) 0), m,
    hd, hb, hm, ?_, ?_, ?_, ?_⟩
  · simp [hw]; omega
  · rw [take_set_of_le _ _ _ _ (by omega), take_prefix_frame _ _ _ _ (by omega)]
  · have hne : s.cap ≠ 0 := by omega
    have hgt : s.cap > s.len + a.len := hc
    simp only [str_append, hz, bind, Except.bind, hne, hgt, if_true, if_false, pure, Except.pure,
      ne_eq, not_true_eq_false, hd, Nat.add_sub_cancel_left, hrun, hst, List.set_set]
  · intro hne
    have hw' := hcont hne (Nat.le_refl _)
    rw [take_set_of_le _ _ _ _ (Nat.le_refl _)]
    have h1 := take_written db w (db.drop (s.len + a.len)) s.len (by omega)
    rw [hw] at h1
    rw [h1, hw']
    simp

/-! ## Allocation, reallocation and writes into a fresh block -/

theorem malloc_ok {h : Heap} (hn : h.nextOk = true) (n : Nat) :
    h.malloc n = (some ⟨.heap h.bytes.length, 0⟩,
      ⟨h.bytes ++ [some (List.replicate n junk)], h.strs, h.oracle.tail, .malloc n :: h.log⟩) := by
  cases ho : h.oracle with
  | nil => simp [Heap.malloc, ho]
  | cons b rest =>
    cases b
    · simp [Heap.nextOk, ho] at hn
    · simp [Heap.malloc, ho]

theorem malloc_fail {h : Heap} (hn : h.nextOk = false) (n : Nat) :
    h.malloc n = (none, ⟨h.bytes, h.strs, h.oracle.tail, .malloc n :: h.log⟩) := by
  cases ho : h.oracle with
  | nil => simp [Heap.nextOk, ho] at hn
  | cons b rest =>
    cases b
    · simp [Heap.malloc, ho]
    · simp [Heap.nextOk, ho] at hn

theorem block_append_old {h h1 : Heap} {xs : List (Option (List Byte))}
    (hb : h1.bytes = h.bytes ++ xs) {d : Nat} {db : List Byte} (hd : h.block d = .ok db) :
    h1.block d = .ok db := by
  obtain ⟨hlt, hget⟩ := block_ok_lt hd
  simp [Heap.block, hb, List.getElem?_append_left hlt, hget]

theorem block_append_new {h h1 : Heap} {blk : List Byte}
    (hb : h1.bytes = h.bytes ++ [some blk]) : h1.block h.bytes.length = .ok blk := by
  simp [Heap.block, hb]

theorem mem_heap_ok {h : Heap} {id off : Nat} {m : List Byte}
    (hm : h.mem (some ⟨.heap id, off⟩) = .ok m) :
    ∃ bs, h.block id = .ok bs ∧ m = bs.drop off := by
  cases hbl : h.block id with
  | error e => simp [Heap.mem, hbl] at hm
  | ok bs =>
    simp only [Heap.mem, hbl] at hm
    injection hm with hm
    exact ⟨bs, rfl, hm.symm⟩

theorem mem_append_old {h h1 : Heap} {xs : List (Option (List Byte))}
    (hb : h1.bytes = h.bytes ++ xs) {p : Ptr} {m : List Byte} (hm : h.mem p = .ok m) :
    h1.mem p = .ok m := by
  match p, hm with
  | some ⟨.static bs, off⟩, hm => simpa [Heap.mem] using hm
  | some ⟨.heap id, off⟩, hm =>
    obtain ⟨bs, hbl, rfl⟩ := mem_heap_ok hm
    simp [Heap.mem, block_append_old hb hbl]

theorem base_ne_fresh {h : Heap} {p : Ptr} {m : List Byte} (hm : h.mem p = .ok m) :
    p.map Loc.base ≠ some (.heap h.bytes.length) := by
  match p, hm with
  | some ⟨.static bs, off⟩, _ => simp
  | some ⟨.heap id, off⟩, hm =>
    obtain ⟨bs, hbl, _⟩ := mem_heap_ok hm
    have := (block_ok_lt hbl).1
    simp
    omega

/-- Copying `n` source bytes to the start of a live block, the source lying elsewhere. -/
theorem copy_prefix {h : Heap} {d : Nat} {blk m : List Byte} {src : Ptr} {n : Nat}
    (hb : h.block d = .ok blk) (hm : h.mem src = .ok m)
    (hne : src.map Loc.base ≠ some (.heap d)) (hn : n ≤ m.length) (hd : n ≤ blk.length) :
    ∃ blk', copy_loop (some ⟨.heap d, 0⟩) src 0 n 0 h =
        .ok { h with bytes := h.bytes.set d (some blk') } ∧
      blk'.length = blk.length ∧ blk'.take n = m.take n := by
  obtain ⟨w, hw, hrun, hcont⟩ :=
    copy_loop_spec d src 0 n 0 h blk m hb (by omega) hm (by omega)
  have hw' := hcont hne (Nat.le_refl _)
  refine ⟨_, hrun, ?_, ?_⟩
  · simp [hw]
    omega
  · have h1 := take_written blk w (blk.drop (0 + n)) 0 (by omega)
    rw [hw] at h1
    simp only [List.take_zero, List.nil_append, Nat.zero_add] at h1 ⊢
    rw [h1, hw']
    simp

/-- Copying the bytes of `a` behind the first `o` bytes of a live block and ending them
with a NUL byte, `a` lying elsewhere. -/
theorem write_tail {h : Heap} {d : Nat} {blk m : List Byte} {src : Ptr} {o n : Nat}
    (hb : h.block d = .ok blk) (hm : h.mem src = .ok m)
    (hne : src.map Loc.base ≠ some (.heap d)) (hn : n ≤ m.length)
    (hd : o + n < blk.length) :
    ∃ h2 blk', copy_loop (some ⟨.heap d, 0⟩) src o n o h = .ok h2 ∧
      h2.store (some ⟨.heap d, 0⟩) (o + n) 0 =
        .ok { h with bytes := h.bytes.set d (some blk') } ∧
      blk'.length = blk.length ∧ blk'.take (o + n) = blk.take o ++ m.take n ∧
      blk'[o + n]? = some 0 := by
  obtain ⟨w, hw, hrun, hcont⟩ :=
    copy_loop_spec d src o n o h blk m hb (by omega) hm (by omega)
  have hw' := hcont hne (Nat.le_refl _)
  have hb1 := block_set_self hb (blk.take o ++ w ++ blk.drop (o + n))
  have hst := store_heap_eq hb1 (i := o + n) (by simp [hw]; omega) 0
  refine ⟨_, (blk.take o ++ w ++ blk.drop (o + n)).set (o + n) 0, hrun, ?_, ?_, ?_, ?_⟩
  · rw [hst]
    simp only [List.set_set]
  · simp [hw]; omega
  · rw [take_set_of_le _ _ _ _ (Nat.le_refl _)]
    have h1 := take_written blk w (blk.drop (o + n)) o (by omega)
    rw [hw] at h1
    rw [h1, hw']
    simp
  · have hlen : (blk.take o ++ w ++ blk.drop (o + n)).length = blk.length := by
      simp [hw]
      omega
    rw [List.getElem?_set_self (by omega)]

theorem set_append_last {α : Type} (l : List α) (x y : α) :
    (l ++ [x]).set l.length y = l ++ [y] := by
  rw [List.set_append_right _ _ (Nat.le_refl _)]
  simp

theorem realloc_ok {h : Heap} {d : Nat} {db : List Byte} (hb : h.block d = .ok db)
    (hn : h.nextOk = true) (so sn : Nat) :
    h.realloc (some ⟨.heap d, 0⟩) so sn = .ok (some ⟨.heap h.bytes.length, 0⟩,
      ⟨h.bytes.set d none ++
          [some (db.take (min so sn) ++
            List.replicate (sn - (db.take (min so sn)).length) junk)],
        h.strs, h.oracle.tail, .realloc so sn :: h.log⟩) := by
  cases ho : h.oracle with
  | nil => simp [Heap.realloc, hb, ho]
  | cons b rest =>
    cases b
    · simp [Heap.nextOk, ho] at hn
    · simp [Heap.realloc, hb, ho]

theorem mem_realloc_old {h h1 : Heap} {d : Nat} {xs : List (Option (List Byte))}
    (hb : h1.bytes = h.bytes.set d none ++ xs) {p : Ptr} {m : List Byte}
    (hm : h.mem p = .ok m) (hne : p.map Loc.base ≠ some (.heap d)) :
    h1.mem p = .ok m := by
  have h0 : Heap.mem { h with bytes := h.bytes.set d none } p = .ok m := by
    rw [mem_set_other _ hne, hm]
  exact mem_append_old (h := { h with bytes := h.bytes.set d none }) hb h0

/-- The constructor `str_dynamic_with_len_cap` under a succeeding allocation. -/
theorem str_dynamic_with_len_cap_ok {h : Heap} {s : Ptr} {len cap : Nat}
    (hr : h.readable s len = true) (hc : len < cap) (hn : h.nextOk = true) :
    ∃ blk m, h.mem s = .ok m ∧ blk.length = cap ∧ blk.take len = m.take len ∧
      blk[len]? = some 0 ∧
      str_dynamic_with_len_cap h s len cap =
        .ok (⟨h.bytes ++ [some blk], h.strs, h.oracle.tail,
              .malloc (cap * sizeof_byte) :: h.log⟩,
             ⟨len, cap, some ⟨.heap h.bytes.length, 0⟩⟩) := by
  obtain ⟨m, hm, hml⟩ := mem_ok_of_readable hr
  obtain ⟨h1, hh1⟩ : ∃ h1 : Heap, h1 = ⟨h.bytes ++ [some (List.replicate (cap * sizeof_byte) junk)],
    h.strs, h.oracle.tail, .malloc (cap * sizeof_byte) :: h.log⟩ := ⟨_, rfl⟩
  have hbytes : h1.bytes = h.bytes ++ [some (List.replicate (cap * sizeof_byte) junk)] := by
    rw [hh1]
  have hb1 := block_append_new hbytes
  have hm1 : h1.mem s = .ok m := mem_append_old hbytes hm
  obtain ⟨h2, blk, hrun, hst, hlen, htake, hnul⟩ :=
    write_tail (o := 0) (n := len) hb1 hm1 (base_ne_fresh hm) hml
      (by simp [sizeof_byte]; omega)
  refine ⟨blk, m, hm, ?_, ?_, ?_, ?_⟩
  · simp [hlen, sizeof_byte]
  · simpa using htake
  · simpa using hnul
  · simp only [Nat.zero_add] at hrun hst
    simp only [str_dynamic_with_len_cap, hc, not_true_eq_false, if_false, malloc_ok hn,
      ← hh1, hrun, hst]
    simp [hh1, set_append_last]

theorem growCap_ge (n : Nat) : n ≤ growCap n := by
  unfold growCap
  omega

theorem growCap_gt {n : Nat} (hn : 2 ≤ n) : n < growCap n := by
  unfold growCap
  omega

theorem dynamic_cap_eq_max (len : Nat) :
    (if growCap len > len then growCap len else len + 1) = max (len + 1) (growCap len) := by
  unfold growCap
  split <;> omega

/-- Appending to a view under a succeeding allocation, the result being non-empty. -/
theorem str_append_view_ok {h : Heap} {s a : Str} (hv : s.cap = 0)
    (hs : h.readable s.data s.len = true) (hr : h.readable a.data a.len = true)
    (hn : h.nextOk = true) (hpos : 1 ≤ s.len + a.len) :
    ∃ blk ms ma, h.mem s.data = .ok ms ∧ h.mem a.data = .ok ma ∧
      blk.length = sizeof_ptr * growCap (s.len + a.len) ∧
      blk.take (s.len + a.len) = ms.take s.len ++ ma.take a.len ∧
      str_append h s a =
        .ok (⟨h.bytes ++ [some blk], h.strs, h.oracle.tail,
              .malloc (sizeof_ptr * growCap (s.len + a.len)) :: h.log⟩,
             ⟨s.len + a.len, growCap (s.len + a.len), some ⟨.heap h.bytes.length, 0⟩⟩) := by
  obtain ⟨ms, hms, hmsl⟩ := mem_ok_of_readable hs
  obtain ⟨ma, hma, hmal⟩ := mem_ok_of_readable hr
  obtain ⟨z, hz⟩ := str_is_zero_ok h a
  have hg := growCap_ge (s.len + a.len)
  obtain ⟨h1, hh1⟩ : ∃ h1 : Heap, h1 =
    ⟨h.bytes ++ [some (List.replicate (sizeof_ptr * growCap (s.len + a.len)) junk)],
      h.strs, h.oracle.tail, .malloc (sizeof_ptr * growCap (s.len + a.len)) :: h.log⟩ := ⟨_, rfl⟩
  have hbytes : h1.bytes =
      h.bytes ++ [some (List.replicate (sizeof_ptr * growCap (s.len + a.len)) junk)] := by
    rw [hh1]
  have hb1 := block_append_new hbytes
  obtain ⟨blk1, hrun1, hlen1, htake1⟩ :=
    copy_prefix (n := s.len) hb1 (mem_append_old hbytes hms) (base_ne_fresh hms) hmsl
      (by simp [sizeof_ptr]; omega)
  have hb2 := block_set_self hb1 blk1
  have hma2 : Heap.mem { h1 with bytes := h1.bytes.set h.bytes.length (some blk1) } a.data
      = .ok ma := by
    rw [mem_set_other _ (base_ne_fresh hma)]
    exact mem_append_old hbytes hma
  obtain ⟨h3, blk, hrun2, hst, hlen2, htake2, _⟩ :=
    write_tail (o := s.len) (n := a.len) hb2 hma2 (base_ne_fresh hma) hmal
      (by simp [hlen1, sizeof_ptr]; omega)
  refine ⟨blk, ms, ma, hms, hma, ?_, ?_, ?_⟩
  · simp [hlen2, hlen1]
  · rw [htake2, ← htake1]
  · have hcap : ¬ (0 > s.len + a.len) := by omega
    simp only [str_append, hz, bind, Except.bind, hv, hcap, if_true, if_false, pure,
      Except.pure, malloc_ok hn, ← hh1, hrun1, Nat.add_sub_cancel_left, hrun2, hst]
    simp [hh1, set_append_last]

theorem realloc_block_len (db : List Byte) (so sn : Nat) :
    (db.take (min so sn) ++ List.replicate (sn - (db.take (min so sn)).length) junk).length
      = sn := by
  simp

theorem realloc_block_take (db : List Byte) (so sn n : Nat) (hso : n ≤ so) (hsn : n ≤ sn)
    (hdb : n ≤ db.length) :
    (db.take (min so sn) ++ List.replicate (sn - (db.take (min so sn)).length) junk).take n
      = db.take n := by
  rw [List.take_append_of_le_length (by simp; omega), List.take_take]
  congr 1
  omega

/-- Appending to an owned handle whose capacity does not cover the new length, under a
succeeding reallocation, the bytes of `a` lying outside the buffer of `s`. -/
theorem str_append_grow_ok {h : Heap} {s a : Str} (ho : s.isOwned h = true)
    (hr : h.readable a.data a.len = true)
    (hdis : a.data.map Loc.base ≠ s.data.map Loc.base)
    (hn : h.nextOk = true) (hc : s.cap ≤ s.len + a.len) (h2 : 2 ≤ s.len + a.len) :
    ∃ d db blk ma, s.data = some ⟨.heap d, 0⟩ ∧ h.block d = .ok db ∧ h.mem a.data = .ok ma ∧
      blk.length = growCap (s.len + a.len) ∧
      blk.take (s.len + a.len) = db.take s.len ++ ma.take a.len ∧
      str_append h s a =
        .ok (⟨h.bytes.set d none ++ [some blk], h.strs, h.oracle.tail,
              .realloc (sizeof_byte * s.cap) (sizeof_byte * growCap (s.len + a.len)) :: h.log⟩,
             ⟨s.len + a.len, growCap (s.len + a.len), some ⟨.heap h.bytes.length, 0⟩⟩) := by
  obtain ⟨d, db, hd, hb, hlt, hle⟩ := isOwned_unpack ho
  obtain ⟨ma, hma, hmal⟩ := mem_ok_of_readable hr
  obtain ⟨z, hz⟩ := str_is_zero_ok h a
  have hg := growCap_gt h2
  have hne : a.data.map Loc.base ≠ some (.heap d) := by
    rw [hd] at hdis
    simpa using hdis
  obtain ⟨blk0, hblk0⟩ : ∃ blk0 : List Byte, blk0 =
    db.take (min (sizeof_byte * s.cap) (sizeof_byte * growCap (s.len + a.len))) ++
      List.replicate (sizeof_byte * growCap (s.len + a.len) -
        (db.take (min (sizeof_byte * s.cap)
          (sizeof_byte * growCap (s.len + a.len)))).length) junk := ⟨_, rfl⟩
  have hblk0len : blk0.length = growCap (s.len + a.len) := by
    rw [hblk0, realloc_block_len]
    simp [sizeof_byte]
  have hblk0take : blk0.take s.len = db.take s.len := by
    rw [hblk0]
    have e1 : sizeof_byte = 1 := rfl
    apply realloc_block_take <;> (try rw [e1]) <;> omega
  obtain ⟨h1, hh1⟩ : ∃ h1 : Heap, h1 =
    ⟨h.bytes.set d none ++ [some blk0], h.strs, h.oracle.tail,
      .realloc (sizeof_byte * s.cap) (sizeof_byte * growCap (s.len + a.len)) :: h.log⟩ :=
    ⟨_, rfl⟩
  have hbytes : h1.bytes = h.bytes.set d none ++ [some blk0] := by rw [hh1]
  have hb1 : h1.block h.bytes.length = .ok blk0 := by
    have := block_append_new (h := { h with bytes := h.bytes.set d none }) hbytes
    simpa using this
  have hma1 : h1.mem a.data = .ok ma := mem_realloc_old hbytes hma hne
  obtain ⟨h3, blk, hrun2, hst, hlen2, htake2, _⟩ :=
    write_tail (o := s.len) (n := a.len) hb1 hma1 (base_ne_fresh hma) hmal
      (by rw [hblk0len]; exact hg)
  refine ⟨d, db, blk, ma, hd, hb, hma, ?_, ?_, ?_⟩
  · rw [hlen2, hblk0len]
  · rw [htake2, hblk0take]
  · have hcap : ¬ (s.cap > s.len + a.len) := by omega
    have hne0 : s.cap ≠ 0 := by omega
    have hne1 : s.cap ≠ growCap (s.len + a.len) := by omega
    simp only [str_append, hz, bind, Except.bind, hcap, hne0, hne1, if_true, if_false, pure,
      Except.pure, ne_eq, not_false_eq_true, hd, realloc_ok hb hn, ← hblk0, ← hh1,
      Nat.add_sub_cancel_left, hrun2, hst]
    have hset : (h.bytes.set d none ++ [some blk0]).set h.bytes.length (some blk)
        = h.bytes.set d none ++ [some blk] := by
      have := set_append_last (h.bytes.set d none) (some blk0) (some blk)
      rw [List.length_set] at this
      exact this
    simp [hh1, hset]

/-- The function `str_reserve_mem` on a view under a succeeding allocation. -/
theorem str_reserve_mem_view_ok {h : Heap} {s : Str} {new_cap : Nat} (hv : s.cap = 0)
    (hs : h.readable s.data s.len = true) (hn : h.nextOk = true) (hc : s.len ≤ new_cap) :
    ∃ blk ms, h.mem s.data = .ok ms ∧ blk.length = new_cap ∧
      blk.take s.len = ms.take s.len ∧
      str_reserve_mem h s new_cap =
        .ok (⟨h.bytes ++ [some blk], h.strs, h.oracle.tail,
              .malloc (new_cap * sizeof_byte) :: h.log⟩,
             ⟨s.len, new_cap, some ⟨.heap h.bytes.length, 0⟩⟩) := by
  obtain ⟨ms, hms, hmsl⟩ := mem_ok_of_readable hs
  obtain ⟨h1, hh1⟩ : ∃ h1 : Heap, h1 =
    ⟨h.bytes ++ [some (List.replicate (new_cap * sizeof_byte) junk)],
      h.strs, h.oracle.tail, .malloc (new_cap * sizeof_byte) :: h.log⟩ := ⟨_, rfl⟩
  have hbytes : h1.bytes =
      h.bytes ++ [some (List.replicate (new_cap * sizeof_byte) junk)] := by
    rw [hh1]
  have hb1 := block_append_new hbytes
  obtain ⟨blk1, hrun1, hlen1, htake1⟩ :=
    copy_prefix (n := s.len) hb1 (mem_append_old hbytes hms) (base_ne_fresh hms) hmsl
      (by simp [sizeof_byte]; omega)
  refine ⟨blk1, ms, hms, ?_, htake1, ?_⟩
  · simp [hlen1, sizeof_byte]
  · have h0 : ¬ (s.len < 0) := by omega
    simp only [str_reserve_mem, bind, Except.bind, hv, ge_iff_le, hc, not_true_eq_false,
      if_false, pure, Except.pure, gt_iff_lt, Nat.lt_irrefl, malloc_ok hn, ← hh1, hrun1, h0]
    simp [hh1, set_append_last]

/-- The function `str_reserve_mem` on an owned handle under a succeeding reallocation. -/
theorem str_reserve_mem_owned_ok {h : Heap} {s : Str} {new_cap : Nat}
    (ho : s.isOwned h = true) (hn : h.nextOk = true) (hc : s.cap ≤ new_cap) :
    ∃ d db blk, s.data = some ⟨.heap d, 0⟩ ∧ h.block d = .ok db ∧ blk.length = new_cap ∧
      blk.take s.len = db.take s.len ∧
      str_reserve_mem h s new_cap =
        .ok (⟨h.bytes.set d none ++ [some blk], h.strs, h.oracle.tail,
              .realloc (sizeof_byte * s.cap) (sizeof_byte * new_cap) :: h.log⟩,
             ⟨s.len, new_cap, some ⟨.heap h.bytes.length, 0⟩⟩) := by
  obtain ⟨d, db, hd, hb, hlt, hle⟩ := isOwned_unpack ho
  refine ⟨d, db, db.take (min (sizeof_byte * s.cap) (sizeof_byte * new_cap)) ++
      List.replicate (sizeof_byte * new_cap -
        (db.take (min (sizeof_byte * s.cap) (sizeof_byte * new_cap))).length) junk,
    hd, hb, ?_, ?_, ?_⟩
  rotate_left 2
  · have h1 : s.len ≤ new_cap := by omega
    have h2 : 0 < s.cap := by omega
    simp only [str_reserve_mem, bind, Except.bind, ge_iff_le, h1, hc, not_true_eq_false,
      if_false, if_true, pure, Except.pure, gt_iff_lt, h2, hd, realloc_ok hb hn]
  · rw [realloc_block_len]
    simp [sizeof_byte]
  · have e1 : sizeof_byte = 1 := rfl
    apply realloc_block_take <;> (try rw [e1]) <;> omega

/-! ## Well-formed handles and growth of the buffer -/

theorem bytes_of_mem {h : Heap} {s : Str} {m : List Byte} (hm : h.mem s.data = .ok m)
    (hl : s.len ≤ m.length) : s.bytes h = some (m.take s.len) := by
  simp [Str.bytes, Heap.bytesAt, hm, hl]

theorem mem_fresh {g : Heap} {X : List (Option (List Byte))} {blk : List Byte}
    (hb : g.bytes = X ++ [some blk]) : g.mem (some ⟨.heap X.length, 0⟩) = .ok blk := by
  simp [Heap.mem, Heap.block, hb]

theorem isOwned_fresh {g : Heap} {X : List (Option (List Byte))} {blk : List Byte}
    (hb : g.bytes = X ++ [some blk]) {len cap : Nat} (hlt : len < cap)
    (hle : cap ≤ blk.length) :
    Str.isOwned g ⟨len, cap, some ⟨.heap X.length, 0⟩⟩ = true := by
  simp [Str.isOwned, Heap.block, hb, hlt, hle]

theorem isOwned_mem {h : Heap} {s : Str} (ho : s.isOwned h = true) :
    ∃ m, h.mem s.data = .ok m ∧ s.cap ≤ m.length ∧ s.len < s.cap := by
  obtain ⟨d, db, hd, hb, hlt, hle⟩ := isOwned_unpack ho
  exact ⟨db, by simp [hd, Heap.mem, hb], hle, hlt⟩

theorem wf_readable {h : Heap} {s : Str} (hw : s.isView h = true ∨ s.isOwned h = true) :
    h.readable s.data s.len = true := by
  rcases hw with hv | ho
  · simp [Str.isView] at hv
    exact hv.2
  · obtain ⟨m, hm, hle, hlt⟩ := isOwned_mem ho
    simp [Heap.readable, hm]
    omega

theorem wf_cases {h : Heap} {s : Str} (hw : s.isView h = true ∨ s.isOwned h = true) :
    (s.cap = 0 ∧ h.readable s.data s.len = true) ∨ (0 < s.cap ∧ s.isOwned h = true) := by
  rcases hw with hv | ho
  · simp [Str.isView] at hv
    exact Or.inl hv
  · obtain ⟨m, hm, hle, hlt⟩ := isOwned_mem ho
    exact Or.inr ⟨by omega, ho⟩

/-- C3. Appending `a` to an owned handle `s` with `s.cap > s.len + a.len` succeeds, makes no
allocator call (log and pending outcomes are untouched), returns `s` with only `len` changed
(same `cap`, same `data`), and changes no byte outside the buffer of `s` nor any of its first
`s.len` bytes. -/
theorem str_append_within_capacity (h : Heap) (s a : Str) (ho : s.isOwned h = true)
    (hr : h.readable a.data a.len = true) (hc : s.len + a.len < s.cap) :
    ∃ h', str_append h s a = .ok (h', { s with len := s.len + a.len }) ∧
      h'.log = h.log ∧ h'.oracle = h.oracle ∧ h'.strs = h.strs ∧
      h'.bytes.length = h.bytes.length ∧
      (∀ p : Ptr, p.map Loc.base ≠ s.data.map Loc.base → h'.mem p = h.mem p) ∧
      (∀ i, i < s.len → h'.load s.data i = h.load s.data i) ∧
      (∀ m, h.mem s.data = .ok m → ∃ m', h'.mem s.data = .ok m' ∧ m'.length = m.length) := by
  obtain ⟨d, db, db', m, hd, hb, hm, hlen, htake, hrun, _⟩ := str_append_inplace ho hr hc
  refine ⟨_, hrun, rfl, rfl, rfl, by simp, ?_, ?_, ?_⟩
  · intro p hp
    rw [hd] at hp
    exact mem_set_other _ (by simpa using hp)
  · intro i hi
    have e1 : db'[i]? = db[i]? := by
      have := congrArg (fun l => l[i]?) htake
      simpa [List.getElem?_take, hi] using this
    simp [hd, Heap.load, Heap.mem, block_set_self hb, hb, e1]
  · intro m0 hm0
    rw [hd] at hm0 ⊢
    simp only [Heap.mem, hb] at hm0
    injection hm0 with hm0
    exact ⟨db', by simp [Heap.mem, block_set_self hb], by simp [← hm0, hlen]⟩

/-- Witness for `str_append_within_capacity`: appending "xy" to the owned "abcdef" of
capacity 9. -/
theorem str_append_within_capacity_witness :
    Str.isOwned ⟨[some [97, 98, 99, 100, 101, 102, 0, 85, 85]], [], [], [.malloc 9]⟩
        ⟨6, 9, some ⟨.heap 0, 0⟩⟩ = true ∧
    (∃ h', str_append ⟨[some [97, 98, 99, 100, 101, 102, 0, 85, 85]], [], [], [.malloc 9]⟩
        ⟨6, 9, some ⟨.heap 0, 0⟩⟩ ⟨2, 0, some ⟨.static [120, 121, 0], 0⟩⟩ =
          .ok (h', ⟨8, 9, some ⟨.heap 0, 0⟩⟩) ∧ h'.log = [.malloc 9]) :=
  ⟨by decide,
    let ⟨h', h1, h2, _⟩ := str_append_within_capacity
      ⟨[some [97, 98, 99, 100, 101, 102, 0, 85, 85]], [], [], [.malloc 9]⟩
      ⟨6, 9, some ⟨.heap 0, 0⟩⟩ ⟨2, 0, some ⟨.static [120, 121, 0], 0⟩⟩
      (by decide) (by decide) (by decide)
    ⟨h', h1, h2⟩⟩

/-- The constructor `str_dynamic_with_len` under a succeeding allocation: the result is a
well-formed owned handle on a fresh block holding the source bytes, with capacity
`max (len + 1) (len * 3 / 2)`. -/
theorem str_dynamic_with_len_ok {h : Heap} {p : Ptr} {len : Nat}
    (hr : h.readable p len = true) (hn : h.nextOk = true) :
    ∃ h' s' src, str_dynamic_with_len h p len = .ok (h', s') ∧
      h.bytesAt p len = some src ∧ src.length = len ∧
      s'.isOwned h' = true ∧ s'.len = len ∧ s'.bytes h' = some src ∧
      s'.cap = max (len + 1) (len * 3 / 2) ∧ len < s'.cap := by
  have hcap : len < max (len + 1) (growCap len) := by omega
  obtain ⟨blk, m, hm, hlen, htake, _, hrun⟩ := str_dynamic_with_len_cap_ok hr hcap hn
  obtain ⟨m', hm', hml⟩ := mem_ok_of_readable hr
  rw [hm] at hm'
  injection hm' with e
  subst e
  refine ⟨⟨h.bytes ++ [some blk], h.strs, h.oracle.tail,
      .malloc (max (len + 1) (growCap len) * sizeof_byte) :: h.log⟩,
    ⟨len, max (len + 1) (growCap len), some ⟨.heap h.bytes.length, 0⟩⟩, m.take len,
    ?_, ?_, ?_, ?_, rfl, ?_, rfl, hcap⟩
  · simp only [str_dynamic_with_len, dynamic_cap_eq_max]
    exact hrun
  · simp [Heap.bytesAt, hm, hml]
  · simp [hml]
  · exact isOwned_fresh rfl hcap (by omega)
  · rw [bytes_of_mem (mem_fresh rfl) (by simp [hlen])]
    simp [htake]

/-- C4. For every readable byte sequence of length `len` and a succeeding allocation,
`str_dynamic_with_len` returns a well-formed owned handle that holds exactly those `len`
bytes, whose capacity equals `max (len + 1) (len * 3 / 2)` and is strictly greater than
`len`. -/
theorem str_dynamic_with_len_capacity (h : Heap) (p : Ptr) (len : Nat)
    (hr : h.readable p len = true) (hn : h.nextOk = true) :
    ∃ h' s' src, str_dynamic_with_len h p len = .ok (h', s') ∧
      h.bytesAt p len = some src ∧ src.length = len ∧
      s'.isOwned h' = true ∧ s'.len = len ∧ s'.bytes h' = some src ∧
      s'.cap = max (len + 1) (len * 3 / 2) ∧ len < s'.cap :=
  str_dynamic_with_len_ok hr hn

/-- Witness for `str_dynamic_with_len_capacity`: the owned copy of "abc". -/
theorem str_dynamic_with_len_capacity_witness :
    Heap.readable (Heap.init []) (some ⟨.static [97, 98, 99, 0], 0⟩) 3 = true ∧
    (Heap.init []).nextOk = true ∧
    ∃ h' s', str_dynamic_with_len (Heap.init []) (some ⟨.static [97, 98, 99, 0], 0⟩) 3
        = .ok (h', s') ∧ s'.cap = 4 ∧ s'.bytes h' = some [97, 98, 99] :=
  ⟨by decide, by decide,
    let ⟨h', s', src, h1, h2, _, _, _, h6, h7, _⟩ := str_dynamic_with_len_capacity
      (Heap.init []) (some ⟨.static [97, 98, 99, 0], 0⟩) 3 (by decide) (by decide)
    ⟨h', s', h1, by simpa using h7, by
      have e : src = [97, 98, 99] := by
        have : Heap.bytesAt (Heap.init []) (some ⟨.static [97, 98, 99, 0], 0⟩) 3
            = some [97, 98, 99] := by decide
        rw [this] at h2
        injection h2 with e
        exact e.symm
      rw [h6, e]⟩⟩

/-- The function `str_append` on a well-formed handle under a succeeding allocator, when the
new length is at least 2 or fits the present capacity: the result is a well-formed owned
handle of length `s.len + a.len` and, `a` lying outside the buffer of an owned `s`, its bytes
are those of `s` followed by those of `a`. -/
theorem str_append_ok {h : Heap} {s a : Str}
    (hw : s.isView h = true ∨ s.isOwned h = true) (hr : h.readable a.data a.len = true)
    (hdis : 0 < s.cap → s.cap ≤ s.len + a.len →
      a.data.map Loc.base ≠ s.data.map Loc.base)
    (hn : h.nextOk = true) (hsz : 2 ≤ s.len + a.len ∨ s.len + a.len < s.cap) :
    ∃ h' s', str_append h s a = .ok (h', s') ∧ s'.len = s.len + a.len ∧
      s'.len < s'.cap ∧ s'.isOwned h' = true ∧
      ((s.cap = 0 ∨ a.data.map Loc.base ≠ s.data.map Loc.base) →
        ∃ bs ba, s.bytes h = some bs ∧ a.bytes h = some ba ∧
          s'.bytes h' = some (bs ++ ba)) := by
  obtain ⟨ma0, hma0, hmal0⟩ := mem_ok_of_readable hr
  rcases wf_cases hw with ⟨hv, hs⟩ | ⟨hpos, ho⟩
  · -- view: fresh block
    have h2 : 2 ≤ s.len + a.len := by omega
    obtain ⟨blk, ms, ma, hms, hma, hlen, htake, hrun⟩ :=
      str_append_view_ok hv hs hr hn (by omega)
    obtain ⟨_, hms', hmsl⟩ := mem_ok_of_readable hs
    rw [hms] at hms'
    injection hms' with e
    subst e
    rw [hma0] at hma
    injection hma with e
    subst e
    have hg := growCap_gt h2
    refine ⟨_, _, hrun, rfl, hg, ?_, ?_⟩
    · exact isOwned_fresh rfl hg (by rw [hlen]; simp [sizeof_ptr]; omega)
    · intro _
      refine ⟨_, _, bytes_of_mem hms hmsl, bytes_of_mem hma0 hmal0, ?_⟩
      rw [bytes_of_mem (mem_fresh rfl) (by rw [hlen]; simp [sizeof_ptr]; omega)]
      simp [htake]
  · obtain ⟨ms, hms, hmsc, hlt⟩ := isOwned_mem ho
    by_cases hc : s.len + a.len < s.cap
    · -- owned, in place
      obtain ⟨d, db, db', m, hd, hb, hm, hlen, htake, hrun, hcont⟩ :=
        str_append_inplace ho hr hc
      have hdb : ms = db := by
        rw [hd] at hms
        simp only [Heap.mem, hb] at hms
        injection hms with e
        simpa using e.symm
      subst hdb
      rw [hma0] at hm
      injection hm with e
      subst e
      have hmem' : Heap.mem { h with bytes := h.bytes.set d (some db') } (some ⟨.heap d, 0⟩)
          = .ok db' := by
        simp [Heap.mem, block_set_self hb]
      refine ⟨_, _, hrun, rfl, hc, ?_, ?_⟩
      · simp [Str.isOwned, hd, block_set_self hb, hc, hlen, hmsc]
      · intro hor
        have hne : a.data.map Loc.base ≠ some (.heap d) := by
          rcases hor with h0 | h1
          · omega
          · rw [hd] at h1
            simpa using h1
        refine ⟨_, _, bytes_of_mem hms (by omega), bytes_of_mem hma0 hmal0, ?_⟩
        have hb' : Str.bytes { h with bytes := h.bytes.set d (some db') }
            { s with len := s.len + a.len } = some (db'.take (s.len + a.len)) := by
          apply bytes_of_mem
          · simpa [hd] using hmem'
          · simp only [hlen]
            omega
        rw [hb', hcont hne]
    · -- owned, reallocation
      have h2 : 2 ≤ s.len + a.len := by omega
      have hne := hdis hpos (by omega)
      obtain ⟨d, db, blk, ma, hd, hb, hma, hlen, htake, hrun⟩ :=
        str_append_grow_ok ho hr hne hn (by omega) h2
      have hdb : ms = db := by
        rw [hd] at hms
        simp only [Heap.mem, hb] at hms
        injection hms with e
        simpa using e.symm
      subst hdb
      rw [hma0] at hma
      injection hma with e
      subst e
      have hg := growCap_gt h2
      have hbl : (h.bytes.set d none).length = h.bytes.length := by simp
      refine ⟨_, _, hrun, rfl, hg, ?_, ?_⟩
      · have := isOwned_fresh (g := ⟨h.bytes.set d none ++ [some blk], h.strs, h.oracle.tail,
          .realloc (sizeof_byte * s.cap) (sizeof_byte * growCap (s.len + a.len)) :: h.log⟩)
          (X := h.bytes.set d none) rfl hg (by omega)
        rw [hbl] at this
        exact this
      · intro _
        refine ⟨_, _, bytes_of_mem hms (by omega), bytes_of_mem hma0 hmal0, ?_⟩
        have hmf := mem_fresh (g := ⟨h.bytes.set d none ++ [some blk], h.strs, h.oracle.tail,
          .realloc (sizeof_byte * s.cap) (sizeof_byte * growCap (s.len + a.len)) :: h.log⟩)
          (X := h.bytes.set d none) rfl
        rw [hbl] at hmf
        rw [bytes_of_mem hmf (by simp only [hlen]; omega)]
        simp [htake]

/-- The function `str_reserve_mem` on a well-formed handle under a succeeding allocator and
with its preconditions met. -/
theorem str_reserve_mem_ok {h : Heap} {s : Str} {new_cap : Nat}
    (hw : s.isView h = true ∨ s.isOwned h = true) (hn : h.nextOk = true)
    (hc : s.len ≤ new_cap) (hc' : 0 < s.cap → s.cap ≤ new_cap) :
    ∃ h' s' bs, str_reserve_mem h s new_cap = .ok (h', s') ∧ s'.len = s.len ∧
      s'.cap = new_cap ∧ s.cap ≤ s'.cap ∧ s.bytes h = some bs ∧ s'.bytes h' = some bs := by
  rcases wf_cases hw with ⟨hv, hs⟩ | ⟨hpos, ho⟩
  · obtain ⟨blk, ms, hms, hlen, htake, hrun⟩ := str_reserve_mem_view_ok hv hs hn hc
    obtain ⟨_, hms', hmsl⟩ := mem_ok_of_readable hs
    rw [hms] at hms'
    injection hms' with e
    subst e
    refine ⟨_, _, _, hrun, rfl, rfl, by simp [hv], bytes_of_mem hms hmsl, ?_⟩
    rw [bytes_of_mem (mem_fresh rfl) (by simp only [hlen]; omega)]
    simp [htake]
  · obtain ⟨ms, hms, hmsc, hlt⟩ := isOwned_mem ho
    obtain ⟨d, db, blk, hd, hb, hlen, htake, hrun⟩ := str_reserve_mem_owned_ok ho hn (hc' hpos)
    have hdb : ms = db := by
      rw [hd] at hms
      simp only [Heap.mem, hb] at hms
      injection hms with e
      simpa using e.symm
    subst hdb
    have hbl : (h.bytes.set d none).length = h.bytes.length := by simp
    refine ⟨_, _, _, hrun, rfl, rfl, hc' hpos, bytes_of_mem hms (by omega), ?_⟩
    have hmf := mem_fresh (g := ⟨h.bytes.set d none ++ [some blk], h.strs, h.oracle.tail,
      .realloc (sizeof_byte * s.cap) (sizeof_byte * new_cap) :: h.log⟩)
      (X := h.bytes.set d none) rfl
    rw [hbl] at hmf
    rw [bytes_of_mem hmf (by simp only [hlen]; omega)]
    simp [htake]

theorem str_reserve_mem_reject_len (h : Heap) (s : Str) (new_cap : Nat)
    (hc : new_cap < s.len) : str_reserve_mem h s new_cap = .error .assertion := by
  have h1 : ¬ (s.len ≤ new_cap) := by omega
  simp [str_reserve_mem, h1, bind, Except.bind, throw, throwThe, MonadExceptOf.throw]

theorem str_reserve_mem_reject_cap (h : Heap) (s : Str) (new_cap : Nat)
    (hpos : 0 < s.cap) (hc : new_cap < s.cap) :
    str_reserve_mem h s new_cap = .error .assertion := by
  have h1 : ¬ (s.cap ≤ new_cap) := by omega
  by_cases h2 : s.len ≤ new_cap
  · simp [str_reserve_mem, h1, h2, hpos, bind, Except.bind, throw, throwThe,
      MonadExceptOf.throw, pure, Except.pure]
  · simp [str_reserve_mem, h2, bind, Except.bind, throw, throwThe, MonadExceptOf.throw]

/-- C5. For a well-formed handle `s`, a succeeding allocator and `new_cap >= s.len` (and
`new_cap >= s.cap` when `s` is owned), `str_reserve_mem` returns a handle with the same
length and the same bytes whose capacity is exactly `new_cap`, never below the old one; a
request with `new_cap < s.len`, or below the capacity of an owned handle, fails the
assertion. -/
theorem str_reserve_mem_spec (h : Heap) (s : Str) (new_cap : Nat) :
    ((s.isView h = true ∨ s.isOwned h = true) → h.nextOk = true → s.len ≤ new_cap →
      (0 < s.cap → s.cap ≤ new_cap) →
      ∃ h' s' bs, str_reserve_mem h s new_cap = .ok (h', s') ∧ s'.len = s.len ∧
        s'.cap = new_cap ∧ s.cap ≤ s'.cap ∧ s.bytes h = some bs ∧ s'.bytes h' = some bs) ∧
    (new_cap < s.len → str_reserve_mem h s new_cap = .error .assertion) ∧
    (0 < s.cap → new_cap < s.cap → str_reserve_mem h s new_cap = .error .assertion) :=
  ⟨fun hw hn hc hc' => str_reserve_mem_ok hw hn hc hc',
   str_reserve_mem_reject_len h s new_cap, str_reserve_mem_reject_cap h s new_cap⟩

/-- Witness for `str_reserve_mem_spec`: reserving 8 bytes for the view "abc", and the
rejected request for 2 bytes. -/
theorem str_reserve_mem_spec_witness :
    (∃ h' s', str_reserve_mem (Heap.init []) ⟨3, 0, some ⟨.static [97, 98, 99, 0], 0⟩⟩ 8
        = .ok (h', s') ∧ s'.len = 3 ∧ s'.cap = 8) ∧
    str_reserve_mem (Heap.init []) ⟨3, 0, some ⟨.static [97, 98, 99, 0], 0⟩⟩ 2
      = .error .assertion :=
  ⟨(let ⟨h', s', _, h1, h2, h3, _⟩ :=
      (str_reserve_mem_spec (Heap.init []) ⟨3, 0, some ⟨.static [97, 98, 99, 0], 0⟩⟩ 8).1
        (Or.inl (by decide)) (by decide) (by decide) (by decide)
    ⟨h', s', h1, h2, h3⟩),
   (str_reserve_mem_spec (Heap.init []) ⟨3, 0, some ⟨.static [97, 98, 99, 0], 0⟩⟩ 2).2.1
      (by decide)⟩

/-- C1 (counterexample). Reserving exactly `s.len` bytes is accepted and leaves an owned
handle whose capacity equals its length: the view "abc" with `new_cap = 3` ends with
`len = 3` and `cap = 3`. -/
theorem growth_capacity_counterexample :
    Str.isView (Heap.init []) ⟨3, 0, some ⟨.static [97, 98, 99, 0], 0⟩⟩ = true ∧
    str_reserve_mem (Heap.init []) ⟨3, 0, some ⟨.static [97, 98, 99, 0], 0⟩⟩ 3 =
      .ok (⟨[some [97, 98, 99]], [], [], [.malloc 3]⟩, ⟨3, 3, some ⟨.heap 0, 0⟩⟩) ∧
    ¬ ((⟨3, 3, some ⟨.heap 0, 0⟩⟩ : Str).len < (⟨3, 3, some ⟨.heap 0, 0⟩⟩ : Str).cap) := by
  decide

/-- C1 (amended). Under a succeeding allocator and on well-formed handles:
`str_append(s, a)` leaves a well-formed owned handle with `cap > len` whenever
`s.len + a.len >= 2` or `s.cap > s.len + a.len` (`a` lying outside the buffer of `s` when
that buffer is reallocated); `str_reserve_mem(s, new_cap)` with its preconditions met leaves
`cap = new_cap`, which exceeds the length exactly when `new_cap > s.len`; and
`str_dynamic_with_len` always returns a well-formed owned handle with `cap > len`. -/
theorem growth_capacity_gt_len :
    (∀ (h : Heap) (s a : Str), (s.isView h = true ∨ s.isOwned h = true) →
      h.readable a.data a.len = true →
      (0 < s.cap → s.cap ≤ s.len + a.len → a.data.map Loc.base ≠ s.data.map Loc.base) →
      h.nextOk = true → (2 ≤ s.len + a.len ∨ s.len + a.len < s.cap) →
      ∃ h' s', str_append h s a = .ok (h', s') ∧ s'.len < s'.cap ∧
        s'.isOwned h' = true) ∧
    (∀ (h : Heap) (s : Str) (new_cap : Nat), (s.isView h = true ∨ s.isOwned h = true) →
      h.nextOk = true → s.len ≤ new_cap → (0 < s.cap → s.cap ≤ new_cap) →
      ∃ h' s', str_reserve_mem h s new_cap = .ok (h', s') ∧ s'.len = s.len ∧
        s'.cap = new_cap ∧ (s'.len < s'.cap ↔ s.len < new_cap)) ∧
    (∀ (h : Heap) (p : Ptr) (len : Nat), h.readable p len = true → h.nextOk = true →
      ∃ h' s', str_dynamic_with_len h p len = .ok (h', s') ∧ s'.len < s'.cap ∧
        s'.isOwned h' = true) := by
  refine ⟨?_, ?_, ?_⟩
  · intro h s a hw hr hdis hn hsz
    obtain ⟨h', s', hrun, _, hlt, ho, _⟩ := str_append_ok hw hr hdis hn hsz
    exact ⟨h', s', hrun, hlt, ho⟩
  · intro h s new_cap hw hn hc hc'
    obtain ⟨h', s', _, hrun, hl, hcap, _⟩ := str_reserve_mem_ok hw hn hc hc'
    exact ⟨h', s', hrun, hl, hcap, by rw [hl, hcap]⟩
  · intro h p len hr hn
    obtain ⟨h', s', _, hrun, _, _, ho, hl, _, _, hlt⟩ := str_dynamic_with_len_ok hr hn
    exact ⟨h', s', hrun, by rw [hl]; exact hlt, ho⟩

/-- Witness for `growth_capacity_gt_len`: "ab" appended to the view "cd", 8 bytes reserved
for the view "abc", and the owned copy of "abc". -/
theorem growth_capacity_gt_len_witness :
    (∃ h' s', str_append (Heap.init []) ⟨2, 0, some ⟨.static [99, 100, 0], 0⟩⟩
        ⟨2, 0, some ⟨.static [97, 98, 0], 0⟩⟩ = .ok (h', s') ∧ s'.len < s'.cap) ∧
    (∃ h' s', str_reserve_mem (Heap.init []) ⟨3, 0, some ⟨.static [97, 98, 99, 0], 0⟩⟩ 8
        = .ok (h', s') ∧ s'.cap = 8) ∧
    (∃ h' s', str_dynamic_with_len (Heap.init []) (some ⟨.static [97, 98, 99, 0], 0⟩) 3
        = .ok (h', s') ∧ s'.len < s'.cap) :=
  ⟨(let ⟨h', s', h1, h2, _⟩ := growth_capacity_gt_len.1 (Heap.init [])
      ⟨2, 0, some ⟨.static [99, 100, 0], 0⟩⟩ ⟨2, 0, some ⟨.static [97, 98, 0], 0⟩⟩
      (Or.inl (by decide)) (by decide) (by decide) (by decide) (Or.inl (by decide))
    ⟨h', s', h1, h2⟩),
   (let ⟨h', s', h1, _, h3, _⟩ := growth_capacity_gt_len.2.1 (Heap.init [])
      ⟨3, 0, some ⟨.static [97, 98, 99, 0], 0⟩⟩ 8
      (Or.inl (by decide)) (by decide) (by decide) (by decide)
    ⟨h', s', h1, h3⟩),
   (let ⟨h', s', h1, h2, _⟩ := growth_capacity_gt_len.2.2 (Heap.init [])
      (some ⟨.static [97, 98, 99, 0], 0⟩) 3 (by decide) (by decide)
    ⟨h', s', h1, h2⟩)⟩

/-- Appending to an owned handle a view of its own buffer when the buffer must grow: the
owned "ab" with capacity 3 and a view of the same block give the new length 4, the block is
reallocated, and the bytes of the view are read from the released block. -/
theorem str_append_alias_after_realloc :
    Str.isOwned ⟨[some [97, 98, 0]], [], [], []⟩ ⟨2, 3, some ⟨.heap 0, 0⟩⟩ = true ∧
    Str.isView ⟨[some [97, 98, 0]], [], [], []⟩ ⟨2, 0, some ⟨.heap 0, 0⟩⟩ = true ∧
    str_append ⟨[some [97, 98, 0]], [], [], []⟩ ⟨2, 3, some ⟨.heap 0, 0⟩⟩
      ⟨2, 0, some ⟨.heap 0, 0⟩⟩ = .error .useAfterFree := by
  decide

/-- C2 (failing input). The owned empty string made by `str_dynamic("")` has `len = 0`,
`cap = 1` and a one-byte buffer; appending "x" to it keeps `cap = 1` without reallocating
and then writes the terminating NUL at index 1, past the end of the buffer.  Likewise
appending the empty string to the empty view allocates zero bytes and writes at index 0. -/
theorem str_append_writes_past_buffer :
    (∃ h s, str_dynamic (Heap.init []) (some ⟨.static [0], 0⟩) = .ok (h, s) ∧
      s.isOwned h = true ∧ s.len = 0 ∧ s.cap = 1 ∧ h.bytes = [some [0]] ∧
      str_append h s ⟨1, 0, some ⟨.static [120, 0], 0⟩⟩ = .error .outOfBounds) ∧
    str_append (Heap.init []) str_zero str_zero = .error .outOfBounds := by
  refine ⟨⟨⟨[some [0]], [], [], [.malloc 1]⟩, ⟨0, 1, some ⟨.heap 0, 0⟩⟩, ?_⟩, ?_⟩ <;> decide

/-! ## Allocation failure -/

theorem mem_congr_bytes {h h1 : Heap} (hb : h1.bytes = h.bytes) (p : Ptr) :
    h1.mem p = h.mem p := by
  match p with
  | none => rfl
  | some ⟨.static bs, off⟩ => rfl
  | some ⟨.heap id, off⟩ => simp [Heap.mem, Heap.block, hb]

theorem realloc_fail {h : Heap} {d : Nat} {db : List Byte} (hb : h.block d = .ok db)
    (hn : h.nextOk = false) (so sn : Nat) :
    h.realloc (some ⟨.heap d, 0⟩) so sn =
      .ok (none, ⟨h.bytes, h.strs, h.oracle.tail, .realloc so sn :: h.log⟩) := by
  cases ho : h.oracle with
  | nil => simp [Heap.nextOk, ho] at hn
  | cons b rest =>
    cases b
    · simp [Heap.realloc, hb, ho]
    · simp [Heap.nextOk, ho] at hn

/-- The copy loop through a null destination: nothing happens for zero iterations, the first
write faults otherwise. -/
theorem copy_loop_null {h : Heap} {src : Ptr} {m : List Byte} (hm : h.mem src = .ok m)
    (sub k i : Nat) (hk : (i - sub) + k ≤ m.length) :
    copy_loop none src sub k i h = if k = 0 then .ok h else .error .nullDeref := by
  cases k with
  | zero => rfl
  | succ k =>
    have hlt : i - sub < m.length := by omega
    simp [copy_loop, load_of_mem hm hlt, Heap.store]

/-- C6 (failing behaviour). When the allocator call made by `str_append` fails, the null
result is written through: on every well-formed handle that needs an allocation the call
ends in a null dereference instead of reporting the failure. -/
theorem str_append_alloc_failure (h : Heap) (s a : Str)
    (hw : s.isView h = true ∨ s.isOwned h = true) (hr : h.readable a.data a.len = true)
    (hf : h.nextOk = false)
    (hcall : s.cap = 0 ∨ (s.cap ≤ s.len + a.len ∧ s.cap ≠ growCap (s.len + a.len))) :
    str_append h s a = .error .nullDeref := by
  obtain ⟨ma, hma, hmal⟩ := mem_ok_of_readable hr
  obtain ⟨z, hz⟩ := str_is_zero_ok h a
  rcases wf_cases hw with ⟨hv, hs⟩ | ⟨hpos, ho⟩
  · obtain ⟨ms, hms, hmsl⟩ := mem_ok_of_readable hs
    have hcap : ¬ (0 > s.len + a.len) := by omega
    obtain ⟨h1, hh1⟩ : ∃ h1 : Heap, h1 = ⟨h.bytes, h.strs, h.oracle.tail,
        .malloc (sizeof_ptr * growCap (s.len + a.len)) :: h.log⟩ := ⟨_, rfl⟩
    have hb1 : h1.bytes = h.bytes := by rw [hh1]
    have hms1 : h1.mem s.data = .ok ms := (mem_congr_bytes hb1 _).trans hms
    have hma1 : h1.mem a.data = .ok ma := (mem_congr_bytes hb1 _).trans hma
    simp only [str_append, hz, bind, Except.bind, hv, hcap, if_true, if_false, pure,
      Except.pure, malloc_fail hf, Nat.add_sub_cancel_left, ← hh1,
      copy_loop_null hms1 0 s.len 0 (by omega)]
    by_cases h0 : s.len = 0
    · simp only [h0, if_true, Nat.zero_add, copy_loop_null hma1 0 a.len 0 (by omega)]
      by_cases h1 : a.len = 0
      · simp [h1, Heap.store]
      · simp [h1]
    · simp [h0]
  · rcases hcall with h0 | ⟨hle, hne⟩
    · omega
    · obtain ⟨d, db, hd, hb, hlt, hdb⟩ := isOwned_unpack ho
      have hcap : ¬ (s.cap > s.len + a.len) := by omega
      have hne0 : s.cap ≠ 0 := by omega
      obtain ⟨h1, hh1⟩ : ∃ h1 : Heap, h1 = ⟨h.bytes, h.strs, h.oracle.tail,
          .realloc (sizeof_byte * s.cap) (sizeof_byte * growCap (s.len + a.len)) :: h.log⟩ :=
        ⟨_, rfl⟩
      have hb1 : h1.bytes = h.bytes := by rw [hh1]
      have hma1 : h1.mem a.data = .ok ma := (mem_congr_bytes hb1 _).trans hma
      simp only [str_append, hz, bind, Except.bind, hcap, hne0, hne, if_true, if_false, pure,
        Except.pure, ne_eq, not_false_eq_true, hd, realloc_fail hb hf, ← hh1,
        Nat.add_sub_cancel_left, copy_loop_null hma1 s.len a.len s.len (by omega)]
      by_cases h1 : a.len = 0
      · simp [h1, Heap.store]
      · simp [h1]

/-- Witness for `str_append_alloc_failure`: "b" appended to the view "a" with a failing
`malloc`. -/
theorem str_append_alloc_failure_witness :
    (Heap.init [false]).nextOk = false ∧
    str_append (Heap.init [false]) ⟨1, 0, some ⟨.static [97, 0], 0⟩⟩
      ⟨1, 0, some ⟨.static [98, 0], 0⟩⟩ = .error .nullDeref :=
  ⟨by decide, str_append_alloc_failure (Heap.init [false]) ⟨1, 0, some ⟨.static [97, 0], 0⟩⟩
      ⟨1, 0, some ⟨.static [98, 0], 0⟩⟩ (Or.inl (by decide)) (by decide) (by decide)
      (Or.inl (by decide))⟩

/-! ## Read-only operations -/

theorem mem_add {h : Heap} {p : Ptr} {m : List Byte} (hm : h.mem p = .ok m) (n : Nat) :
    h.mem (p.add n) = .ok (m.drop n) := by
  match p, hm with
  | some ⟨.static bs, off⟩, hm =>
    simp only [Heap.mem] at hm
    injection hm with hm
    simp [Ptr.add, Heap.mem, ← hm, Nat.add_comm]
  | some ⟨.heap id, off⟩, hm =>
    obtain ⟨bs, hbl, rfl⟩ := mem_heap_ok hm
    simp [Ptr.add, Heap.mem, hbl, Nat.add_comm]

theorem str_substr_ok {s : Str} {b l : Nat} (hb : b + l ≤ s.len) :
    str_substr s b l = .ok ⟨l, 0, s.data.add b⟩ := by
  simp [str_substr, hb, str_with_len]

theorem str_substr_fail {s : Str} {b l : Nat} (hb : s.len < b + l) :
    str_substr s b l = .error .assertion := by
  have : ¬ (b + l ≤ s.len) := by omega
  simp [str_substr, this]

theorem readable_iff {h : Heap} {p : Ptr} {n : Nat} :
    h.readable p n = true ↔ ∃ m, h.mem p = .ok m ∧ n ≤ m.length := by
  constructor
  · exact mem_ok_of_readable
  · rintro ⟨m, hm, hl⟩
    simp [Heap.readable, hm, hl]

theorem readable_add {h : Heap} {p : Ptr} {n : Nat} (hr : h.readable p n = true) (b l : Nat)
    (hb : b + l ≤ n) : h.readable (p.add b) l = true := by
  obtain ⟨m, hm, hl⟩ := mem_ok_of_readable hr
  exact readable_iff.mpr ⟨_, mem_add hm b, by simp; omega⟩

theorem toInt_zero : toInt 0 = 0 := by decide

theorem toInt_of_lt {n : Nat} (hn : n < 2147483648) : toInt n = n := by
  unfold toInt
  omega

/-- The loop of `str_compare` on readable operands computes `cmp_bytes`. -/
theorem str_compare_loop_spec {h : Heap} {a b : Str} {ma mb : List Byte}
    (hma : h.mem a.data = .ok ma) (hmb : h.mem b.data = .ok mb) :
    ∀ (k i : Nat), i + k ≤ ma.length → i + k ≤ mb.length →
      str_compare_loop h a b k i =
        .ok (cmp_bytes ((ma.drop i).take k) ((mb.drop i).take k)
          (toInt (toInt a.len - toInt b.len))) := by
  intro k
  induction k with
  | zero =>
    intro i _ _
    simp [str_compare_loop, cmp_bytes]
  | succ k ih =>
    intro i hia hib
    have h1 : i < ma.length := by omega
    have h2 : i < mb.length := by omega
    rw [take_drop_succ _ _ _ h1, take_drop_succ _ _ _ h2]
    simp only [str_compare_loop, load_of_mem hma h1, load_of_mem hmb h2, cmp_bytes]
    split
    · rfl
    · exact ih (i + 1) (by omega) (by omega)

theorem str_compare_spec {h : Heap} {a b : Str} {ma mb : List Byte}
    (hma : h.mem a.data = .ok ma) (hmb : h.mem b.data = .ok mb)
    (hla : a.len ≤ ma.length) (hlb : b.len ≤ mb.length) :
    str_compare h a b =
      .ok (cmp_bytes (ma.take (min a.len b.len)) (mb.take (min a.len b.len))
        (toInt (toInt a.len - toInt b.len))) := by
  have hmin : (if a.len < b.len then a.len else b.len) = min a.len b.len := by
    split <;> omega
  have := str_compare_loop_spec hma hmb (min a.len b.len) 0 (by omega) (by omega)
  simpa [str_compare, hmin] using this

theorem cmp_bytes_eq_zero : ∀ (xs ys : List Byte) (fin : Int), xs.length = ys.length →
    (cmp_bytes xs ys fin = 0 ↔ xs = ys ∧ fin = 0)
  | [], [], fin, _ => by simp [cmp_bytes]
  | [], _ :: _, _, hl => by simp at hl
  | _ :: _, [], _, hl => by simp at hl
  | x :: xs, y :: ys, fin, hl => by
    have ih := cmp_bytes_eq_zero xs ys fin (by simpa using hl)
    by_cases hxy : x = y
    · simp [cmp_bytes, hxy, ih]
    · have : x - y ≠ 0 := sub_ne_zero.mpr hxy
      simp [cmp_bytes, hxy, this]

/-- Equality test of two readable handles of the same length. -/
theorem str_is_equal_same_len {h : Heap} {a b : Str} {ma mb : List Byte}
    (hma : h.mem a.data = .ok ma) (hmb : h.mem b.data = .ok mb)
    (hla : a.len ≤ ma.length) (hlb : b.len ≤ mb.length) (hlen : a.len = b.len) :
    str_is_equal h a b = .ok (decide (ma.take a.len = mb.take b.len)) := by
  have hc := str_compare_spec hma hmb hla hlb
  rw [hlen] at hc
  simp only [Nat.min_self, Int.sub_self, toInt_zero] at hc
  simp only [str_is_equal, hc, hlen]
  congr 1
  have key := cmp_bytes_eq_zero (ma.take b.len) (mb.take b.len) 0 (by simp; omega)
  by_cases he : ma.take b.len = mb.take b.len
  · have hz : cmp_bytes (ma.take b.len) (mb.take b.len) 0 = 0 := key.mpr ⟨he, rfl⟩
    rw [hz, decide_eq_true he]
    rfl
  · have hz : cmp_bytes (ma.take b.len) (mb.take b.len) 0 ≠ 0 := fun hz => he (key.mp hz).1
    simp [hz, he]

theorem ptr_add_zero (p : Ptr) : p.add 0 = p := by
  cases p <;> rfl

theorem str_lit_slash (h : Heap) : str h lit_slash = .ok ⟨1, 0, lit_slash⟩ := by
  rfl

theorem readable_lit_slash (h : Heap) : h.readable lit_slash 1 = true := by
  rfl

/-- The function `str_trim_str_front` on readable operands: a view of the rest when `pfx` is
a leading part of `s`, the handle `s` itself otherwise. -/
theorem str_trim_str_front_spec {h : Heap} {s pfx : Str} {ms mp : List Byte}
    (hms : h.mem s.data = .ok ms) (hmp : h.mem pfx.data = .ok mp)
    (hls : s.len ≤ ms.length) (hlp : pfx.len ≤ mp.length) :
    str_trim_str_front h s pfx =
      .ok (if pfx.len ≤ s.len ∧ ms.take pfx.len = mp.take pfx.len
        then ⟨s.len - pfx.len, 0, s.data.add pfx.len⟩ else s) := by
  by_cases hlt : s.len < pfx.len
  · have : ¬ (pfx.len ≤ s.len) := by omega
    simp [str_trim_str_front, hlt, this, pure, Except.pure]
  · have hle : pfx.len ≤ s.len := by omega
    have hma : h.mem (Str.mk pfx.len 0 (s.data.add 0)).data = .ok ms := by
      simp [ptr_add_zero, hms]
    have heq := str_is_equal_same_len (a := ⟨pfx.len, 0, s.data.add 0⟩) (b := pfx) hma hmp
      (by simp; omega) hlp rfl
    simp only [str_trim_str_front, hlt, if_false, bind, Except.bind,
      str_substr_ok (s := s) (b := 0) (l := pfx.len) (by omega), heq,
      str_substr_ok (s := s) (b := pfx.len) (l := s.len - pfx.len) (by omega), pure,
      Except.pure, hle, true_and]
    by_cases he : ms.take pfx.len = mp.take pfx.len <;> simp [he]

/-- The function `str_trim_str_back` on readable operands: a view of the front part when
`suffix` is a trailing part of `s`, the handle `s` itself otherwise. -/
theorem str_trim_str_back_spec {h : Heap} {s suffix : Str} {ms mp : List Byte}
    (hms : h.mem s.data = .ok ms) (hmp : h.mem suffix.data = .ok mp)
    (hls : s.len ≤ ms.length) (hlp : suffix.len ≤ mp.length) :
    str_trim_str_back h s suffix =
      .ok (if suffix.len ≤ s.len ∧
          (ms.drop (s.len - suffix.len)).take suffix.len = mp.take suffix.len
        then ⟨s.len - suffix.len, 0, s.data⟩ else s) := by
  by_cases hlt : s.len < suffix.len
  · have : ¬ (suffix.len ≤ s.len) := by omega
    simp [str_trim_str_back, hlt, this, pure, Except.pure]
  · have hle : suffix.len ≤ s.len := by omega
    have hma : h.mem (Str.mk suffix.len 0 (s.data.add (s.len - suffix.len))).data
        = .ok (ms.drop (s.len - suffix.len)) := mem_add hms _
    have heq := str_is_equal_same_len (a := ⟨suffix.len, 0, s.data.add (s.len - suffix.len)⟩)
      (b := suffix) hma hmp (by simp; omega) hlp rfl
    simp only [str_trim_str_back, hlt, if_false, bind, Except.bind,
      str_substr_ok (s := s) (b := s.len - suffix.len) (l := suffix.len) (by omega), heq,
      str_substr_ok (s := s) (b := 0) (l := s.len - suffix.len) (by omega), pure,
      Except.pure, hle, true_and, ptr_add_zero]
    by_cases he : (ms.drop (s.len - suffix.len)).take suffix.len = mp.take suffix.len
      <;> simp [he]

theorem str_find_first_byte_ok {h : Heap} {s : Str} {m : List Byte}
    (hm : h.mem s.data = .ok m) (c : Byte) :
    ∀ (k i : Nat), i + k ≤ m.length → i + k ≤ s.len →
      ∃ j, str_find_first_byte_loop h s c k i = .ok j ∧ j ≤ s.len := by
  intro k
  induction k with
  | zero => intro i _ _; exact ⟨s.len, rfl, Nat.le_refl _⟩
  | succ k ih =>
    intro i hi hi'
    have h1 : i < m.length := by omega
    simp only [str_find_first_byte_loop, bind, Except.bind, load_of_mem hm h1]
    split
    · exact ⟨i, rfl, by omega⟩
    · exact ih (i + 1) (by omega) (by omega)

theorem str_find_last_byte_loop_ok {h : Heap} {s : Str} {m : List Byte}
    (hm : h.mem s.data = .ok m) (c : Byte) :
    ∀ (i : Nat), i < m.length → i < s.len →
      ∃ j, str_find_last_byte_loop h s c i = .ok j ∧ j ≤ s.len := by
  intro i
  induction i with
  | zero =>
    intro h1 _
    simp only [str_find_last_byte_loop, bind, Except.bind, load_of_mem hm h1]
    split
    · exact ⟨0, rfl, by omega⟩
    · exact ⟨s.len, rfl, by omega⟩
  | succ i ih =>
    intro h1 h2
    simp only [str_find_last_byte_loop, bind, Except.bind, load_of_mem hm h1]
    split
    · exact ⟨i + 1, rfl, by omega⟩
    · exact ih (by omega) (by omega)

theorem str_find_last_byte_ok {h : Heap} {s : Str} (hr : h.readable s.data s.len = true)
    (c : Byte) : ∃ j, str_find_last_byte h s c = .ok j ∧ j ≤ s.len := by
  obtain ⟨m, hm, hl⟩ := mem_ok_of_readable hr
  unfold str_find_last_byte
  split
  · exact ⟨s.len, rfl, Nat.le_refl _⟩
  · exact str_find_last_byte_loop_ok hm c (s.len - 1) (by omega) (by omega)

/-- Results of the literal trims: a readable handle that is a view or the input itself. -/
theorem str_trim_str_front_ok {h : Heap} {s pfx : Str}
    (hs : h.readable s.data s.len = true) (hp : h.readable pfx.data pfx.len = true) :
    ∃ r, str_trim_str_front h s pfx = .ok r ∧ (r.cap = 0 ∨ r = s) ∧
      h.readable r.data r.len = true := by
  obtain ⟨ms, hms, hls⟩ := mem_ok_of_readable hs
  obtain ⟨mp, hmp, hlp⟩ := mem_ok_of_readable hp
  refine ⟨_, str_trim_str_front_spec hms hmp hls hlp, ?_, ?_⟩
  · split
    · exact Or.inl rfl
    · exact Or.inr rfl
  · split
    · rename_i hc
      exact readable_add hs _ _ (by dsimp only; omega)
    · exact hs

theorem str_trim_str_back_ok {h : Heap} {s suffix : Str}
    (hs : h.readable s.data s.len = true) (hp : h.readable suffix.data suffix.len = true) :
    ∃ r, str_trim_str_back h s suffix = .ok r ∧ (r.cap = 0 ∨ r = s) ∧
      h.readable r.data r.len = true := by
  obtain ⟨ms, hms, hls⟩ := mem_ok_of_readable hs
  obtain ⟨mp, hmp, hlp⟩ := mem_ok_of_readable hp
  refine ⟨_, str_trim_str_back_spec hms hmp hls hlp, ?_, ?_⟩
  · split
    · exact Or.inl rfl
    · exact Or.inr rfl
  · split
    · have := readable_add hs 0 (s.len - suffix.len) (by omega)
      simpa [ptr_add_zero] using this
    · exact hs

theorem str_trim_cstr_front_slash_ok {h : Heap} {s : Str}
    (hs : h.readable s.data s.len = true) :
    ∃ r, str_trim_cstr_front h s lit_slash = .ok r ∧ (r.cap = 0 ∨ r = s) ∧
      h.readable r.data r.len = true := by
  simp only [str_trim_cstr_front, str_lit_slash, bind, Except.bind]
  exact str_trim_str_front_ok hs (readable_lit_slash h)

theorem str_trim_cstr_back_slash_ok {h : Heap} {s : Str}
    (hs : h.readable s.data s.len = true) :
    ∃ r, str_trim_cstr_back h s lit_slash = .ok r ∧ (r.cap = 0 ∨ r = s) ∧
      h.readable r.data r.len = true := by
  simp only [str_trim_cstr_back, str_lit_slash, bind, Except.bind]
  exact str_trim_str_back_ok hs (readable_lit_slash h)

/-- The function `str_filepath_stem` on a readable path returns a readable handle that is a
view or the path itself. -/
theorem str_filepath_stem_ok {h : Heap} {path : Str}
    (hs : h.readable path.data path.len = true) :
    ∃ r, str_filepath_stem h path = .ok r ∧ (r.cap = 0 ∨ r = path) ∧
      h.readable r.data r.len = true := by
  obtain ⟨p1, hp1, hc1, hr1⟩ := str_trim_cstr_back_slash_ok hs
  obtain ⟨m1, hm1, hl1⟩ := mem_ok_of_readable hr1
  obtain ⟨f, hf, _⟩ := str_find_first_byte_ok hm1 47 p1.len 0 (by omega) (by omega)
  obtain ⟨i, hi, hile⟩ := str_find_last_byte_ok hr1 47
  simp only [str_filepath_stem, hp1, bind, Except.bind, str_find_first_byte, hf, pure,
    Except.pure, hi]
  by_cases hf0 : f = 0
  · simp only [hf0, ne_eq, not_true_eq_false, if_false]
    by_cases hil : i = p1.len
    · simp only [hil, if_true]
      obtain ⟨r, hr, hc, hrr⟩ := str_trim_cstr_front_slash_ok hr1
      refine ⟨r, hr, ?_, hrr⟩
      rcases hc with hc | hc
      · exact Or.inl hc
      · rw [hc]; exact hc1
    · simp only [hil, if_false, str_substr_ok (s := p1) (b := i) (l := p1.len - i) (by omega)]
      have hsub : h.readable (Str.mk (p1.len - i) 0 (p1.data.add i)).data
          (Str.mk (p1.len - i) 0 (p1.data.add i)).len = true :=
        readable_add hr1 _ _ (by dsimp only; omega)
      obtain ⟨r, hr, hc, hrr⟩ := str_trim_cstr_front_slash_ok hsub
      refine ⟨r, hr, ?_, hrr⟩
      rcases hc with hc | hc
      · exact Or.inl hc
      · rw [hc]; exact Or.inl rfl
  · simp only [hf0, ne_eq, not_false_eq_true, if_true]
    exact ⟨p1, rfl, hc1, hr1⟩

theorem split_spec_length (d : Byte) : ∀ (rest cur : List Byte),
    (split_spec d rest cur).length = rest.count d + 1
  | [], _ => rfl
  | x :: rest, cur => by
    by_cases hx : x = d
    · simp [split_spec, hx, split_spec_length d rest []]
    · have hne : ¬ (x == d) = true := by simpa using hx
      simp [split_spec, hx, split_spec_length d rest (cur ++ [x]), List.count_cons, hne]

theorem split_spec_ne_nil (d : Byte) (rest cur : List Byte) : split_spec d rest cur ≠ [] := by
  intro he
  have := split_spec_length d rest cur
  rw [he] at this
  simp at this

theorem split_spec_not_mem (d : Byte) : ∀ (rest cur : List Byte), d ∉ cur →
    ∀ g ∈ split_spec d rest cur, d ∉ g
  | [], cur, hc => by
    intro g hg
    simp [split_spec] at hg
    rw [hg]
    exact hc
  | x :: rest, cur, hc => by
    intro g hg
    by_cases hx : x = d
    · simp only [split_spec, hx, if_true, List.mem_cons] at hg
      rcases hg with hg | hg
      · rw [hg]; exact hc
      · exact split_spec_not_mem d rest [] (by simp) g hg
    · simp only [split_spec, hx, if_false] at hg
      refine split_spec_not_mem d rest (cur ++ [x]) ?_ g hg
      simp only [List.mem_append, List.mem_singleton, not_or]
      exact ⟨hc, fun e => hx e.symm⟩

theorem intercalate_cons_of_ne_nil {α : Type} (sep x : List α) {xs : List (List α)}
    (hxs : xs ≠ []) : sep.intercalate (x :: xs) = x ++ sep ++ sep.intercalate xs := by
  cases xs with
  | nil => exact absurd rfl hxs
  | cons y ys => simp [List.intercalate, List.intersperse]

theorem split_spec_intercalate (d : Byte) : ∀ (rest cur : List Byte),
    [d].intercalate (split_spec d rest cur) = cur ++ rest
  | [], cur => by simp [split_spec, List.intercalate]
  | x :: rest, cur => by
    by_cases hx : x = d
    · simp only [split_spec, hx, if_true]
      rw [intercalate_cons_of_ne_nil _ _ (split_spec_ne_nil d rest []),
        split_spec_intercalate d rest []]
      simp
    · simp only [split_spec, hx, if_false]
      rw [split_spec_intercalate d rest (cur ++ [x])]
      simp

theorem split_emitted_length (d : Byte) : ∀ (rest : List Byte) (i b : Nat),
    (split_emitted d rest i b).length = rest.count d
  | [], _, _ => rfl
  | x :: rest, i, b => by
    by_cases hx : x = d
    · simp [split_emitted, hx, split_emitted_length d rest (i + 1) (i + 1)]
    · have hne : ¬ (x == d) = true := by simpa using hx
      simp [split_emitted, hx, split_emitted_length d rest (i + 1) b, List.count_cons, hne]

theorem split_begin_le (d : Byte) : ∀ (rest : List Byte) (i b : Nat), b ≤ i →
    split_begin d rest i b ≤ i + rest.length
  | [], _, _, hb => by simpa [split_begin] using hb
  | x :: rest, i, b, hb => by
    by_cases hx : x = d
    · have := split_begin_le d rest (i + 1) (i + 1) (Nat.le_refl _)
      simp only [split_begin, hx, if_true, List.length_cons]
      omega
    · have := split_begin_le d rest (i + 1) b (by omega)
      simp only [split_begin, hx, if_false, List.length_cons]
      omega

theorem split_emitted_bounds (d : Byte) : ∀ (rest : List Byte) (i b : Nat), b ≤ i →
    ∀ r ∈ split_emitted d rest i b, r.1 + r.2 ≤ i + rest.length
  | [], _, _, _ => by simp [split_emitted]
  | x :: rest, i, b, hb => by
    intro r hr
    by_cases hx : x = d
    · simp only [split_emitted, hx, if_true, List.mem_cons] at hr
      rcases hr with hr | hr
      · rw [hr]
        simp only [List.length_cons]
        omega
      · have := split_emitted_bounds d rest (i + 1) (i + 1) (Nat.le_refl _) r hr
        simp only [List.length_cons]
        omega
    · simp only [split_emitted, hx, if_false] at hr
      have := split_emitted_bounds d rest (i + 1) b (by omega) r hr
      simp only [List.length_cons]
      omega

/-- The ranges produced by the split loops cut the subject into the segments of
`split_spec`. -/
theorem split_ranges_spec (d : Byte) (bs : List Byte) : ∀ (rest : List Byte) (i b : Nat),
    b ≤ i → bs.drop i = rest →
    ((split_emitted d rest i b ++
        [(split_begin d rest i b, bs.length - split_begin d rest i b)]).map
      (fun r => (bs.drop r.1).take r.2)) = split_spec d rest ((bs.drop b).take (i - b))
  | [], i, b, hb, hrest => by
    have hlen : bs.length ≤ i := by
      have := congrArg List.length hrest
      simp at this
      omega
    simp only [split_emitted, split_begin, split_spec, List.nil_append, List.map_cons,
      List.map_nil]
    congr 1
    rw [List.take_of_length_le (by simp), List.take_of_length_le (by simp; omega)]
  | x :: rest, i, b, hb, hrest => by
    have hi : i < bs.length := by
      have := congrArg List.length hrest
      simp at this
      omega
    have hxi : bs[i] = x := by
      have := List.drop_eq_getElem_cons hi
      rw [hrest] at this
      injection this with h1 _
      exact h1.symm
    have hrest' : bs.drop (i + 1) = rest := by
      have := List.drop_eq_getElem_cons hi
      rw [hrest] at this
      injection this with _ h2
      exact h2.symm
    by_cases hx : x = d
    · have ih := split_ranges_spec d bs rest (i + 1) (i + 1) (Nat.le_refl _) hrest'
      simp only [split_emitted, split_begin, split_spec, hx, if_true, List.cons_append,
        List.map_cons]
      rw [ih]
      simp
    · have ih := split_ranges_spec d bs rest (i + 1) b (by omega) hrest'
      simp only [split_emitted, split_begin, split_spec, hx, if_false]
      rw [ih]
      congr 1
      have h1 : i + 1 - b = (i - b) + 1 := by omega
      rw [h1, List.take_succ]
      simp [List.getElem?_drop, Nat.add_sub_cancel' hb, hxi, List.getElem?_eq_getElem hi]

/-- The delimiter test of a split by one byte. -/
theorem str_is_equal_byte {h : Heap} {s : Str} {m : List Byte} (hm : h.mem s.data = .ok m)
    (d : Byte) {i : Nat} (hi : i < m.length) :
    str_is_equal h ⟨1, 0, s.data.add i⟩ (str_with_len (some ⟨.static [d], 0⟩) 1)
      = .ok (decide (m[i] = d)) := by
  have hma : h.mem (Str.mk 1 0 (s.data.add i)).data = .ok (m.drop i) := mem_add hm i
  have hmb : h.mem (str_with_len (some ⟨.static [d], 0⟩) 1).data = .ok [d] := rfl
  rw [str_is_equal_same_len hma hmb (by simp; omega) (by simp [str_with_len]) rfl]
  have hiff : ((m.drop i).take (Str.mk 1 0 (s.data.add i)).len =
      [d].take (str_with_len (some ⟨.static [d], 0⟩) 1).len) ↔ m[i] = d := by
    rw [List.drop_eq_getElem_cons hi]
    simp only [str_with_len, List.take_succ_cons, List.take_zero, List.cons.injEq, and_true]
  rw [decide_eq_decide.mpr hiff]

theorem str_split_count_loop_spec {h : Heap} {s : Str} {m : List Byte}
    (hm : h.mem s.data = .ok m) (hl : s.len ≤ m.length) (d : Byte) :
    ∀ (k i n : Nat), i + k ≤ s.len →
      str_split_count_loop h s (str_with_len (some ⟨.static [d], 0⟩) 1) k i n =
        .ok (n + ((m.drop i).take k).count d) := by
  intro k
  induction k with
  | zero => intro i n _; simp [str_split_count_loop]
  | succ k ih =>
    intro i n hi
    have h1 : i < m.length := by omega
    have h2 : ¬ (i + 1 > s.len) := by omega
    have h3 : ¬ (i + (str_with_len (some ⟨.static [d], 0⟩) 1).len > s.len) := h2
    have hsub : str_substr s i (str_with_len (some ⟨.static [d], 0⟩) 1).len
        = .ok ⟨1, 0, s.data.add i⟩ := str_substr_ok (by simp only [str_with_len]; omega)
    simp only [str_split_count_loop, h3, if_false, bind, Except.bind, hsub,
      str_is_equal_byte hm d h1]
    rw [take_drop_succ _ _ _ h1]
    by_cases hx : m[i] = d
    · simp only [hx, decide_True, if_true, ih (i + 1) (n + 1) (by omega)]
      simp [List.count_cons]
      omega
    · have hne : ¬ (m[i] == d) = true := by simpa using hx
      simp only [hx, decide_False, Bool.false_eq_true, if_false, ih (i + 1) n (by omega)]
      simp [List.count_cons, hne]

theorem mallocStrs_ok {h : Heap} (hn : h.nextOk = true) (n : Nat) :
    h.mallocStrs n = (some (.heap h.strs.length),
      ⟨h.bytes, h.strs ++ [some (List.replicate (n / sizeof_Str) junkStr)], h.oracle.tail,
        .malloc n :: h.log⟩) := by
  cases ho : h.oracle with
  | nil => simp [Heap.mallocStrs, ho]
  | cons b rest =>
    cases b
    · simp [Heap.nextOk, ho] at hn
    · simp [Heap.mallocStrs, ho]

theorem storeStr_eq {h : Heap} {id : Nat} {slots : List Str}
    (hs : h.strs[id]? = some (some slots)) {n : Nat} (hn : n < slots.length) (g : Str) :
    h.storeStr (some (.heap id)) n g =
      .ok { h with strs := h.strs.set id (some (slots.set n g)) } := by
  simp [Heap.storeStr, hs, hn]

theorem strs_set_get {h : Heap} {id : Nat} {slots : List Str}
    (hs : h.strs[id]? = some (some slots)) (x : List Str) :
    (h.strs.set id (some x))[id]? = some (some x) := by
  have hlt : id < h.strs.length := (List.getElem?_eq_some_iff.mp hs).1
  simp [List.getElem?_set, hlt]

/-- The second loop of a split by one byte writes the views of `split_emitted` into the
slots from index `n` on and leaves `begin_i` at `split_begin`. -/
theorem str_split_emit_loop_spec {s : Str} {m : List Byte} (hl : s.len ≤ m.length)
    (d : Byte) (id : Nat) :
    ∀ (k i b n : Nat) (h : Heap) (slots : List Str), h.mem s.data = .ok m →
      h.strs[id]? = some (some slots) → i + k ≤ s.len → b ≤ i →
      n + (split_emitted d ((m.drop i).take k) i b).length ≤ slots.length →
      str_split_emit_loop s (str_with_len (some ⟨.static [d], 0⟩) 1) (some (.heap id))
          k i b n h =
        .ok ({ h with strs := h.strs.set id (some (slots.take n ++
                (split_emitted d ((m.drop i).take k) i b).map
                  (fun r => (⟨r.2, 0, s.data.add r.1⟩ : Str)) ++
                slots.drop (n + (split_emitted d ((m.drop i).take k) i b).length))) },
             split_begin d ((m.drop i).take k) i b,
             n + (split_emitted d ((m.drop i).take k) i b).length) := by
  intro k
  induction k with
  | zero =>
    intro i b n h slots hm hs _ _ _
    simp [str_split_emit_loop, split_emitted, split_begin, set_same _ _ _ hs]
  | succ k ih =>
    intro i b n h slots hm hs hi hb hn
    have h1 : i < m.length := by omega
    have h3 : ¬ (i + (str_with_len (some ⟨.static [d], 0⟩) 1).len > s.len) := by
      simp only [str_with_len]
      omega
    have hsub : str_substr s i (str_with_len (some ⟨.static [d], 0⟩) 1).len
        = .ok ⟨1, 0, s.data.add i⟩ := str_substr_ok (by simp only [str_with_len]; omega)
    rw [take_drop_succ _ _ _ h1] at hn ⊢
    simp only [str_split_emit_loop, h3, if_false, bind, Except.bind, hsub,
      str_is_equal_byte hm d h1]
    by_cases hx : m[i] = d
    · simp only [split_emitted, split_begin, hx, if_true, List.length_cons] at hn ⊢
      have hseg : str_substr s b (i - b) = .ok ⟨i - b, 0, s.data.add b⟩ :=
        str_substr_ok (by omega)
      have hn' : n < slots.length := by omega
      have hs1 := strs_set_get hs (slots.set n ⟨i - b, 0, s.data.add b⟩)
      have hm1 : Heap.mem ⟨h.bytes, h.strs.set id (some (slots.set n ⟨i - b, 0, s.data.add b⟩)),
          h.oracle, h.log⟩ s.data = .ok m :=
        (mem_congr_bytes (h := h) rfl _).trans hm
      have ih' := ih (i + 1) (i + 1) (n + 1) _ _ hm1 hs1 (by omega) (Nat.le_refl _)
        (by simp; omega)
      simp only [hx, decide_True, if_true, hseg, storeStr_eq hs hn', ih']
      congr 2
      · congr 1
        simp only [List.set_set]
        congr 2
        rw [take_succ_set _ _ _ hn', List.drop_set_of_lt _ _ (by omega)]
        simp [Nat.add_assoc, Nat.add_comm 1]
      · congr 1
        omega
    · simp only [split_emitted, split_begin, hx, if_false] at hn ⊢
      simp only [hx, decide_False, Bool.false_eq_true, if_false]
      exact ih (i + 1) b n h slots hm hs (by omega) (by omega) hn

theorem drop_take_take (m : List Byte) (n b l : Nat) (hb : b + l ≤ n) :
    ((m.take n).drop b).take l = (m.drop b).take l := by
  rw [List.drop_take, List.take_take]
  congr 1
  omega

theorem bytes_of_range {h : Heap} {s : Str} {m : List Byte} (hm : h.mem s.data = .ok m)
    (hl : s.len ≤ m.length) (r : Nat × Nat) (hr : r.1 + r.2 ≤ s.len) :
    Str.bytes h ⟨r.2, 0, s.data.add r.1⟩ = some (((m.take s.len).drop r.1).take r.2) := by
  have hm' : h.mem (Str.mk r.2 0 (s.data.add r.1)).data = .ok (m.drop r.1) := mem_add hm _
  rw [bytes_of_mem hm' (by simp; omega), drop_take_take _ _ _ _ hr]

/-- The function `str_split_by_byte` on a readable subject under a succeeding allocation: the
array holds `count + 1` views whose bytes are the segments of `split_spec`. -/
theorem str_split_by_byte_ok {h : Heap} {s : Str} (d : Byte)
    (hr : h.readable s.data s.len = true) (hn : h.nextOk = true) :
    ∃ h' arr bs segs, str_split_by_byte h s d = .ok (h', arr) ∧ s.bytes h = some bs ∧
      h'.bytes = h.bytes ∧ arr.len = bs.count d + 1 ∧ arr.cap = arr.len ∧
      arr.elems h' = some segs ∧ segs.length = arr.len ∧ (∀ g ∈ segs, g.cap = 0) ∧
      segs.map (Str.bytes h') = (split_spec d bs []).map some := by
  obtain ⟨m, hm, hl⟩ := mem_ok_of_readable hr
  obtain ⟨bs, hbs⟩ : ∃ bs, bs = m.take s.len := ⟨_, rfl⟩
  have hbslen : bs.length = s.len := by simp [hbs, hl]
  obtain ⟨E, hE⟩ : ∃ E, E = split_emitted d bs 0 0 := ⟨_, rfl⟩
  obtain ⟨b', hb'⟩ : ∃ b', b' = split_begin d bs 0 0 := ⟨_, rfl⟩
  have hElen : E.length = bs.count d := by rw [hE, split_emitted_length]
  have hb'le : b' ≤ s.len := by
    have := split_begin_le d bs 0 0 (Nat.le_refl _)
    rw [hb', ← hbslen]
    omega
  have hcount := str_split_count_loop_spec hm hl d s.len 0 0 (by omega)
  simp only [List.drop_zero, ← hbs, Nat.zero_add] at hcount
  obtain ⟨slots, hslots⟩ : ∃ slots, slots =
    List.replicate (sizeof_Str * (bs.count d + 1) / sizeof_Str) junkStr := ⟨_, rfl⟩
  have hslen : slots.length = bs.count d + 1 := by
    rw [hslots]
    simp [sizeof_Str]
  obtain ⟨h1, hh1⟩ : ∃ h1 : Heap, h1 = ⟨h.bytes, h.strs ++ [some slots], h.oracle.tail,
    .malloc (sizeof_Str * (bs.count d + 1)) :: h.log⟩ := ⟨_, rfl⟩
  have hm1 : h1.mem s.data = .ok m := by
    rw [hh1]
    exact (mem_congr_bytes (h := h) rfl _).trans hm
  have hs1 : h1.strs[h.strs.length]? = some (some slots) := by
    rw [hh1]
    simp
  have hemit := str_split_emit_loop_spec hl d h.strs.length s.len 0 0 0 h1 slots hm1 hs1
    (by omega) (Nat.le_refl _) (by simp only [List.drop_zero, ← hbs, ← hE]; omega)
  simp only [List.drop_zero, ← hbs, ← hE, ← hb', Nat.zero_add, List.take_zero,
    List.nil_append] at hemit
  obtain ⟨slots2, hslots2⟩ : ∃ slots2, slots2 =
    E.map (fun r => (⟨r.2, 0, s.data.add r.1⟩ : Str)) ++ slots.drop E.length := ⟨_, rfl⟩
  have hs2len : slots2.length = bs.count d + 1 := by
    rw [hslots2]
    simp [hslen, hElen]
  have hs2 : (h1.strs.set h.strs.length (some slots2))[h.strs.length]? = some (some slots2) :=
    strs_set_get hs1 slots2
  have hstore := storeStr_eq (h := ⟨h1.bytes, h1.strs.set h.strs.length (some slots2),
    h1.oracle, h1.log⟩) hs2 (n := E.length) (by omega) ⟨s.len - b', 0, s.data.add b'⟩
  have hfinal : slots2.set E.length ⟨s.len - b', 0, s.data.add b'⟩ =
      (E ++ [(b', s.len - b')]).map (fun r => (⟨r.2, 0, s.data.add r.1⟩ : Str)) := by
    rw [hslots2, List.set_append_right _ _ (by simp)]
    have hd : slots.drop E.length = [junkStr] := by
      rw [hslots, hElen]
      simp [sizeof_Str]
    simp [hd]
  have hbounds : ∀ r ∈ E ++ [(b', s.len - b')], r.1 + r.2 ≤ s.len := by
    intro r hr
    rw [List.mem_append] at hr
    rcases hr with hr | hr
    · have := split_emitted_bounds d bs 0 0 (Nat.le_refl _) r (hE ▸ hr)
      omega
    · simp only [List.mem_singleton] at hr
      rw [hr]
      simp only
      omega
  refine ⟨⟨h.bytes, (h.strs ++ [some slots]).set h.strs.length
      (some ((E ++ [(b', s.len - b')]).map (fun r => (⟨r.2, 0, s.data.add r.1⟩ : Str)))),
      h.oracle.tail, .malloc (sizeof_Str * (bs.count d + 1)) :: h.log⟩,
    ⟨E.length + 1, bs.count d + 1, some (.heap h.strs.length)⟩, bs,
    (E ++ [(b', s.len - b')]).map (fun r => (⟨r.2, 0, s.data.add r.1⟩ : Str)),
    ?_, ?_, rfl, ?_, ?_, ?_, ?_, ?_, ?_⟩
  · simp only [str_split_by_byte, str_split_by_str, hcount, bind, Except.bind, pure,
      Except.pure, mallocStrs_ok hn, ← hslots, ← hh1, hemit, ← hslots2,
      str_substr_ok (s := s) (b := b') (l := s.len - b') (by omega), hstore, hfinal]
    simp [hh1]
  · rw [hbs]
    exact bytes_of_mem hm hl
  · simp [hElen]
  · simp [hElen]
  · simp [StrArray.elems, Heap.elems, hElen]
  · simp [hElen]
  · intro g hg
    simp only [List.mem_map] at hg
    obtain ⟨r, _, hr⟩ := hg
    rw [← hr]
  · have hspec := split_ranges_spec d bs bs 0 0 (Nat.le_refl _) rfl
    simp only [← hE, ← hb', hbslen, List.drop_zero, Nat.sub_self, List.take_zero] at hspec
    rw [← hspec, List.map_map, List.map_map]
    apply List.map_congr_left
    intro r hr
    have hm3 : Heap.mem ⟨h.bytes, (h.strs ++ [some slots]).set h.strs.length
        (some ((E ++ [(b', s.len - b')]).map (fun r => (⟨r.2, 0, s.data.add r.1⟩ : Str)))),
        h.oracle.tail, .malloc (sizeof_Str * (bs.count d + 1)) :: h.log⟩ s.data = .ok m :=
      (mem_congr_bytes (h := h) rfl _).trans hm
    simp only [Function.comp]
    rw [bytes_of_range hm3 hl r (hbounds r hr), ← hbs]

/-- C10. For every readable subject `s`, delimiter byte `d` and a succeeding allocation,
`str_split_by_byte` returns an array of exactly `count d + 1` views, in order, whose byte
contents `parts` contain no `d` and give back the bytes of `s` when joined with `d`; and
"a,b,,c" split by ',' gives "a", "b", "", "c". -/
theorem str_split_by_byte_spec :
    (∀ (h : Heap) (s : Str) (d : Byte), h.readable s.data s.len = true → h.nextOk = true →
      ∃ h' arr bs segs parts, str_split_by_byte h s d = .ok (h', arr) ∧
        s.bytes h = some bs ∧ arr.len = bs.count d + 1 ∧ arr.elems h' = some segs ∧
        segs.length = arr.len ∧ (∀ g ∈ segs, g.cap = 0) ∧
        segs.map (Str.bytes h') = parts.map some ∧
        (∀ p ∈ parts, d ∉ p) ∧ [d].intercalate parts = bs) ∧
    (∃ h' arr segs, str_split_by_byte (Heap.init [])
        ⟨6, 0, some ⟨.static [97, 44, 98, 44, 44, 99, 0], 0⟩⟩ 44 = .ok (h', arr) ∧
      arr.len = 4 ∧ arr.elems h' = some segs ∧
      segs.map (Str.bytes h') = [some [97], some [98], some [], some [99]]) := by
  constructor
  · intro h s d hr hn
    obtain ⟨h', arr, bs, segs, hrun, hbs, _, hlen, _, hel, hsl, hcap, hmap⟩ :=
      str_split_by_byte_ok d hr hn
    exact ⟨h', arr, bs, segs, split_spec d bs [], hrun, hbs, hlen, hel, hsl, hcap, hmap,
      split_spec_not_mem d bs [] (by simp), by simpa using split_spec_intercalate d bs []⟩
  · exact ⟨_, _, _, rfl, rfl, rfl, rfl⟩

/-- Witness for `str_split_by_byte_spec`: the subject "x;y" split by ';'. -/
theorem str_split_by_byte_spec_witness :
    Heap.readable (Heap.init []) (some ⟨.static [120, 59, 121, 0], 0⟩) 3 = true ∧
    ∃ h' arr, str_split_by_byte (Heap.init []) ⟨3, 0, some ⟨.static [120, 59, 121, 0], 0⟩⟩ 59
      = .ok (h', arr) ∧ arr.len = 2 :=
  ⟨by decide,
    let ⟨h', arr, bs, _, _, h1, h2, h3, _⟩ := str_split_by_byte_spec.1 (Heap.init [])
      ⟨3, 0, some ⟨.static [120, 59, 121, 0], 0⟩⟩ 59 (by decide) (by decide)
    ⟨h', arr, h1, by
      have e : bs = [120, 59, 121] := by
        have : Str.bytes (Heap.init []) ⟨3, 0, some ⟨.static [120, 59, 121, 0], 0⟩⟩
            = some [120, 59, 121] := by decide
        rw [this] at h2
        injection h2 with e
        exact e.symm
      rw [h3, e]
      decide⟩⟩

/-! ## Comparison as an order -/

theorem toInt_of_range {d : Int} (h1 : -2147483648 ≤ d) (h2 : d < 2147483648) :
    toInt d = d := by
  unfold toInt
  omega

theorem toInt_len_sub {la lb : Nat} (ha : la < 2147483648) (hb : lb < 2147483648) :
    toInt (toInt (la : Int) - toInt (lb : Int)) = (la : Int) - (lb : Int) := by
  rw [toInt_of_lt ha, toInt_of_lt hb]
  exact toInt_of_range (by omega) (by omega)

theorem cmp_bytes_eq_lex_cmp : ∀ (xs ys : List Byte),
    cmp_bytes (xs.take (min xs.length ys.length)) (ys.take (min xs.length ys.length))
      ((xs.length : Int) - (ys.length : Int)) = lex_cmp xs ys
  | [], ys => by simp [cmp_bytes, lex_cmp]
  | x :: xs, [] => by simp [cmp_bytes, lex_cmp]
  | x :: xs, y :: ys => by
    have ih := cmp_bytes_eq_lex_cmp xs ys
    have hmin : min (x :: xs).length (y :: ys).length = min xs.length ys.length + 1 := by
      simp only [List.length_cons]
      omega
    have hlen : (((x :: xs).length : Nat) : Int) - (((y :: ys).length : Nat) : Int)
        = (xs.length : Int) - (ys.length : Int) := by
      simp only [List.length_cons]
      omega
    rw [hmin, hlen, List.take_succ_cons, List.take_succ_cons]
    simp only [cmp_bytes, lex_cmp, ih]

/-- For lengths below `2^31` the function `str_compare` is the lexicographic comparison of
the contents. -/
theorem str_compare_eq_lex_cmp {h : Heap} {a b : Str}
    (hra : h.readable a.data a.len = true) (hrb : h.readable b.data b.len = true)
    (ha : a.len < 2147483648) (hb : b.len < 2147483648) :
    ∃ xs ys, a.bytes h = some xs ∧ b.bytes h = some ys ∧
      str_compare h a b = .ok (lex_cmp xs ys) := by
  obtain ⟨ma, hma, hla⟩ := mem_ok_of_readable hra
  obtain ⟨mb, hmb, hlb⟩ := mem_ok_of_readable hrb
  refine ⟨_, _, bytes_of_mem hma hla, bytes_of_mem hmb hlb, ?_⟩
  rw [str_compare_spec hma hmb hla hlb, toInt_len_sub ha hb]
  have key := cmp_bytes_eq_lex_cmp (ma.take a.len) (mb.take b.len)
  simp only [List.length_take, Nat.min_eq_left hla, Nat.min_eq_left hlb, List.take_take] at key
  have e1 : min (min a.len b.len) a.len = min a.len b.len := by omega
  have e2 : min (min a.len b.len) b.len = min a.len b.len := by omega
  rw [e1, e2] at key
  rw [key]

theorem lex_cmp_eq_zero : ∀ (xs ys : List Byte), lex_cmp xs ys = 0 ↔ xs = ys
  | [], [] => by simp [lex_cmp]
  | [], y :: ys => by
    simp only [lex_cmp, List.length_cons]
    constructor
    · intro h; omega
    · intro h; cases h
  | x :: xs, [] => by
    simp only [lex_cmp, List.length_cons]
    constructor
    · intro h; omega
    · intro h; cases h
  | x :: xs, y :: ys => by
    have ih := lex_cmp_eq_zero xs ys
    by_cases hxy : x = y
    · simp [lex_cmp, hxy, ih]
    · have : x - y ≠ 0 := sub_ne_zero.mpr hxy
      simp [lex_cmp, hxy, this]

theorem lex_cmp_antisymm : ∀ (xs ys : List Byte), lex_cmp ys xs = -lex_cmp xs ys
  | [], [] => by simp [lex_cmp]
  | [], y :: ys => by simp [lex_cmp]
  | x :: xs, [] => by simp [lex_cmp]
  | x :: xs, y :: ys => by
    have ih := lex_cmp_antisymm xs ys
    by_cases hxy : x = y
    · simp [lex_cmp, hxy, ih]
    · have hyx : ¬ y = x := fun e => hxy e.symm
      simp [lex_cmp, hxy, hyx]

theorem lex_cmp_trans : ∀ (xs ys zs : List Byte), lex_cmp xs ys < 0 → lex_cmp ys zs < 0 →
    lex_cmp xs zs < 0
  | [], [], _, h1, _ => by simp [lex_cmp] at h1
  | [], _ :: _, [], _, h2 => by
    simp only [lex_cmp, List.length_cons] at h2
    omega
  | [], _ :: _, z :: zs, _, _ => by
    simp only [lex_cmp, List.length_cons]
    omega
  | x :: xs, [], _, h1, _ => by
    simp only [lex_cmp, List.length_cons] at h1
    omega
  | x :: xs, y :: ys, [], _, h2 => by
    simp only [lex_cmp, List.length_cons] at h2
    omega
  | x :: xs, y :: ys, z :: zs, h1, h2 => by
    have ih := lex_cmp_trans xs ys zs
    simp only [lex_cmp] at h1 h2 ⊢
    by_cases hxy : x = y
    · by_cases hyz : y = z
      · have hxz : x = z := hxy.trans hyz
        simp only [hxy, hyz, hxz, ne_eq, not_true_eq_false, if_false] at h1 h2 ⊢
        exact ih h1 h2
      · have hxz : ¬ x = z := fun e => hyz (hxy ▸ e)
        simp only [hxy, hyz, ne_eq, not_true_eq_false, not_false_eq_true, if_false,
          if_true] at h1 h2 ⊢
        exact h2
    · by_cases hyz : y = z
      · have hxz : ¬ x = z := fun e => hxy (e.trans hyz.symm)
        simp only [hxy, hyz, hxz, ne_eq, not_true_eq_false, not_false_eq_true, if_false,
          if_true] at h1 h2 ⊢
        exact h1
      · simp only [hxy, hyz, ne_eq, not_false_eq_true, if_true] at h1 h2
        have hlt : x - z < 0 := sub_neg.mpr (lt_trans (sub_neg.mp h1) (sub_neg.mp h2))
        have hxz : ¬ x = z := ne_of_lt (sub_neg.mp hlt)
        simp only [hxz, ne_eq, not_false_eq_true, if_true]
        exact hlt

/-- For lengths below `2^31`: `str_compare` is 0 exactly when the contents are the same, its
sign flips when the operands are swapped, and "less than" is transitive. -/
theorem str_compare_order_of_small {h : Heap} {a b c : Str}
    (hra : h.readable a.data a.len = true) (hrb : h.readable b.data b.len = true)
    (hrc : h.readable c.data c.len = true)
    (ha : a.len < 2147483648) (hb : b.len < 2147483648) (hc : c.len < 2147483648) :
    ∃ rab rba rbc rac, str_compare h a b = .ok rab ∧ str_compare h b a = .ok rba ∧
      str_compare h b c = .ok rbc ∧ str_compare h a c = .ok rac ∧
      (rab = 0 ↔ a.bytes h = b.bytes h) ∧ rba = -rab ∧ (rab < 0 → rbc < 0 → rac < 0) := by
  obtain ⟨xs, ys, hxs, hys, hab⟩ := str_compare_eq_lex_cmp hra hrb ha hb
  obtain ⟨ys', xs', hys', hxs', hba⟩ := str_compare_eq_lex_cmp hrb hra hb ha
  obtain ⟨ys'', zs, hys'', hzs, hbc⟩ := str_compare_eq_lex_cmp hrb hrc hb hc
  obtain ⟨xs'', zs', hxs'', hzs', hac⟩ := str_compare_eq_lex_cmp hra hrc ha hc
  have e1 : xs' = xs := by rw [hxs] at hxs'; injection hxs' with e; exact e.symm
  have e2 : ys' = ys := by rw [hys] at hys'; injection hys' with e; exact e.symm
  have e3 : ys'' = ys := by rw [hys] at hys''; injection hys'' with e; exact e.symm
  have e4 : xs'' = xs := by rw [hxs] at hxs''; injection hxs'' with e; exact e.symm
  have e5 : zs' = zs := by rw [hzs] at hzs'; injection hzs' with e; exact e.symm
  subst e1 e2 e3 e4 e5
  refine ⟨_, _, _, _, hab, hba, hbc, hac, ?_, lex_cmp_antisymm _ _, lex_cmp_trans _ _ _⟩
  rw [hxs, hys, lex_cmp_eq_zero]
  constructor
  · intro e; rw [e]
  · intro e; injection e

theorem str_compare_zero_right (h : Heap) (a : Str) :
    str_compare h a str_zero = .ok (toInt (toInt a.len - toInt ((0 : Nat) : Int))) := by
  simp only [str_compare, str_zero, str_with_len, Nat.not_lt_zero, if_false, str_compare_loop]

theorem isView_static (h : Heap) (bs : List Byte) (n : Nat) (hn : n = bs.length) :
    Str.isView h ⟨n, 0, some ⟨.static bs, 0⟩⟩ = true := by
  simp [Str.isView, Heap.readable, Heap.mem, hn]

/-- C8 (failing input). A view of `2^32` bytes compares equal to the empty string: the
lengths are converted to the 32 bit `int` before they are subtracted, so `str_compare`
returns 0 and `str_is_equal` and `str_is_zero` return true although the lengths differ. -/
theorem str_compare_zero_for_unequal_lengths :
    Str.isView (Heap.init []) ⟨4294967296, 0, some ⟨.static (List.replicate 4294967296 97), 0⟩⟩
      = true ∧
    str_compare (Heap.init [])
      ⟨4294967296, 0, some ⟨.static (List.replicate 4294967296 97), 0⟩⟩ str_zero = .ok 0 ∧
    str_is_equal (Heap.init [])
      ⟨4294967296, 0, some ⟨.static (List.replicate 4294967296 97), 0⟩⟩ str_zero = .ok true ∧
    str_is_zero (Heap.init [])
      ⟨4294967296, 0, some ⟨.static (List.replicate 4294967296 97), 0⟩⟩ = .ok true ∧
    (⟨4294967296, 0, some ⟨.static (List.replicate 4294967296 97), 0⟩⟩ : Str).len
      ≠ str_zero.len := by
  have e1 : toInt (toInt ((4294967296 : Nat) : Int) - toInt ((0 : Nat) : Int)) = 0 := by decide
  have hc := str_compare_zero_right (Heap.init [])
    ⟨4294967296, 0, some ⟨.static (List.replicate 4294967296 97), 0⟩⟩
  rw [e1] at hc
  refine ⟨isView_static _ _ _ (List.length_replicate _ _).symm, hc, ?_, ?_, ?_⟩
  · unfold str_is_equal
    rw [hc]
    rfl
  · unfold str_is_zero
    rw [hc]
    rfl
  · show (4294967296 : Nat) ≠ 0
    decide

/-- C9 (failing input). A view of `2^31` bytes compares smaller than the empty string, its
own prefix: the length converts to the 32 bit `int` value `-2^31`, so on a tie of the
compared bytes the longer string is reported as the smaller one. -/
theorem str_compare_longer_is_smaller :
    Str.isView (Heap.init []) ⟨2147483648, 0, some ⟨.static (List.replicate 2147483648 97), 0⟩⟩
      = true ∧
    str_compare (Heap.init [])
      ⟨2147483648, 0, some ⟨.static (List.replicate 2147483648 97), 0⟩⟩ str_zero
        = .ok (-2147483648) ∧
    str_zero.len <
      (⟨2147483648, 0, some ⟨.static (List.replicate 2147483648 97), 0⟩⟩ : Str).len := by
  have e1 : toInt (toInt ((2147483648 : Nat) : Int) - toInt ((0 : Nat) : Int))
      = -2147483648 := by decide
  have hc := str_compare_zero_right (Heap.init [])
    ⟨2147483648, 0, some ⟨.static (List.replicate 2147483648 97), 0⟩⟩
  rw [e1] at hc
  refine ⟨isView_static _ _ _ (List.length_replicate _ _).symm, hc, ?_⟩
  show (0 : Nat) < 2147483648
  decide

/-! ## Splitting by a longer or an empty delimiter -/

/-- C11 (failing input). Splitting "a--b" by the two-byte delimiter "--" gives the segments
"a" and "-b": after a match at index `i` the next segment starts at `i + 1`, not at
`i + delim.len`, so the rest of the delimiter stays in the following segment and joining the
segments with "--" gives "a---b".  Likewise "a--" gives "a" and "-", a non-empty trailing
segment. -/
theorem str_split_by_str_keeps_delimiter_tail :
    (∃ h' arr segs, str_split_by_str (Heap.init [])
        ⟨4, 0, some ⟨.static [97, 45, 45, 98, 0], 0⟩⟩ ⟨2, 0, some ⟨.static [45, 45, 0], 0⟩⟩
          = .ok (h', arr) ∧
      arr.len = 2 ∧ arr.elems h' = some segs ∧
      segs.map (Str.bytes h') = [some [97], some [45, 98]] ∧
      [45, 45].intercalate [[97], [45, 98]] ≠ ([97, 45, 45, 98] : List Byte)) ∧
    (∃ h' arr segs, str_split_by_str (Heap.init [])
        ⟨3, 0, some ⟨.static [97, 45, 45, 0], 0⟩⟩ ⟨2, 0, some ⟨.static [45, 45, 0], 0⟩⟩
          = .ok (h', arr) ∧
      arr.elems h' = some segs ∧ segs.map (Str.bytes h') = [some [97], some [45]]) :=
  ⟨⟨_, _, _, rfl, rfl, rfl, rfl, by decide⟩, ⟨_, _, _, rfl, rfl, rfl⟩⟩

theorem str_is_equal_empty (h : Heap) (a b : Str) (ha : a.len = 0) (hb : b.len = 0) :
    str_is_equal h a b = .ok true := by
  simp [str_is_equal, str_compare, str_compare_loop, ha, hb, toInt_zero]

theorem str_split_count_loop_empty (h : Heap) (s delim : Str) (hd : delim.len = 0) :
    ∀ (k i n : Nat), i + k ≤ s.len →
      str_split_count_loop h s delim k i n = .ok (n + k) := by
  intro k
  induction k with
  | zero => intro i n _; rfl
  | succ k ih =>
    intro i n hi
    have h1 : ¬ (i + delim.len > s.len) := by omega
    have hsub : str_substr s i delim.len = .ok ⟨0, 0, s.data.add i⟩ := by
      rw [hd]
      exact str_substr_ok (by omega)
    simp only [str_split_count_loop, h1, if_false, bind, Except.bind, hsub,
      str_is_equal_empty h ⟨0, 0, s.data.add i⟩ delim rfl hd, if_true, ih (i + 1) (n + 1) (by omega)]
    congr 1
    omega

/-- The second loop of a split by an empty delimiter writes one empty view per index. -/
theorem str_split_emit_loop_empty (s delim : Str) (hd : delim.len = 0) (id : Nat) :
    ∀ (k i n : Nat) (h : Heap) (slots : List Str),
      h.strs[id]? = some (some slots) → i + k ≤ s.len → n + k ≤ slots.length →
      str_split_emit_loop s delim (some (.heap id)) k i i n h =
        .ok ({ h with strs := h.strs.set id (some (slots.take n ++
                (List.range' i k).map (fun j => (⟨0, 0, s.data.add j⟩ : Str)) ++
                slots.drop (n + k))) }, i + k, n + k) := by
  intro k
  induction k with
  | zero =>
    intro i n h slots hs _ _
    simp [str_split_emit_loop, set_same _ _ _ hs]
  | succ k ih =>
    intro i n h slots hs hi hn
    have h1 : ¬ (i + delim.len > s.len) := by omega
    have hsub : str_substr s i delim.len = .ok ⟨0, 0, s.data.add i⟩ := by
      rw [hd]
      exact str_substr_ok (by omega)
    have hseg : str_substr s i (i - i) = .ok ⟨0, 0, s.data.add i⟩ := by
      rw [Nat.sub_self]
      exact str_substr_ok (by omega)
    have hn' : n < slots.length := by omega
    have hs1 := strs_set_get hs (slots.set n ⟨0, 0, s.data.add i⟩)
    have ih' := ih (i + 1) (n + 1)
      ⟨h.bytes, h.strs.set id (some (slots.set n ⟨0, 0, s.data.add i⟩)), h.oracle, h.log⟩
      _ hs1 (by omega) (by simp; omega)
    simp only [str_split_emit_loop, h1, if_false, bind, Except.bind, hsub,
      str_is_equal_empty h ⟨0, 0, s.data.add i⟩ delim rfl hd, if_true, hseg, storeStr_eq hs hn', ih']
    congr 2
    · congr 1
      simp only [List.set_set]
      congr 2
      rw [take_succ_set _ _ _ hn', List.drop_set_of_lt _ _ (by omega), List.range'_succ]
      simp [Nat.add_assoc, Nat.add_comm 1]
    · congr 1
      · omega
      · omega

/-- C12 (failing behaviour). Splitting any subject `s` by an empty delimiter returns
`s.len + 1` segments that are all empty (the views of length 0 at the indices `0 .. s.len`),
not the `s.len` one-byte views of the documentation. -/
theorem str_split_by_empty_delimiter (h : Heap) (s delim : Str) (hd : delim.len = 0)
    (hn : h.nextOk = true) :
    ∃ h' arr segs, str_split_by_str h s delim = .ok (h', arr) ∧ arr.len = s.len + 1 ∧
      arr.elems h' = some segs ∧
      segs = (List.range (s.len + 1)).map (fun j => (⟨0, 0, s.data.add j⟩ : Str)) := by
  have hcount := str_split_count_loop_empty h s delim hd s.len 0 0 (by omega)
  rw [Nat.zero_add] at hcount
  obtain ⟨slots, hslots⟩ : ∃ slots, slots =
    List.replicate (sizeof_Str * (s.len + 1) / sizeof_Str) junkStr := ⟨_, rfl⟩
  have hslen : slots.length = s.len + 1 := by
    rw [hslots]
    simp [sizeof_Str]
  have hemit := str_split_emit_loop_empty s delim hd h.strs.length s.len 0 0
    ⟨h.bytes, h.strs ++ [some slots], h.oracle.tail,
      .malloc (sizeof_Str * (s.len + 1)) :: h.log⟩ slots (by simp) (by omega) (by omega)
  simp only [Nat.zero_add, List.take_zero, List.nil_append] at hemit
  obtain ⟨slots2, hslots2⟩ : ∃ slots2, slots2 =
    (List.range' 0 s.len).map (fun j => (⟨0, 0, s.data.add j⟩ : Str)) ++ slots.drop s.len :=
    ⟨_, rfl⟩
  have hs2 : ((h.strs ++ [some slots]).set h.strs.length (some slots2))[h.strs.length]?
      = some (some slots2) := by simp
  have hstore := storeStr_eq (h := ⟨h.bytes, (h.strs ++ [some slots]).set h.strs.length
    (some slots2), h.oracle.tail, .malloc (sizeof_Str * (s.len + 1)) :: h.log⟩) hs2
    (n := s.len) (by rw [hslots2]; simp [hslen]) ⟨0, 0, s.data.add s.len⟩
  have hfinal : slots2.set s.len ⟨0, 0, s.data.add s.len⟩ =
      (List.range (s.len + 1)).map (fun j => (⟨0, 0, s.data.add j⟩ : Str)) := by
    have hd1 : slots.drop s.len = [junkStr] := by
      rw [hslots]
      simp [sizeof_Str]
    rw [hslots2, hd1, List.set_append_right _ _ (by simp)]
    simp [List.range_succ, List.range_eq_range']
  refine ⟨⟨h.bytes, (h.strs ++ [some slots]).set h.strs.length
      (some ((List.range (s.len + 1)).map (fun j => (⟨0, 0, s.data.add j⟩ : Str)))),
      h.oracle.tail, .malloc (sizeof_Str * (s.len + 1)) :: h.log⟩,
    ⟨s.len + 1, s.len + 1, some (.heap h.strs.length)⟩, _, ?_, rfl, ?_, rfl⟩
  · simp only [str_split_by_str, hcount, bind, Except.bind, pure, Except.pure,
      mallocStrs_ok hn, ← hslots, hemit, ← hslots2, Nat.sub_self,
      str_substr_ok (s := s) (b := s.len) (l := 0) (by omega), hstore, hfinal]
    simp
  · simp [StrArray.elems, Heap.elems]

/-- Witness for `str_split_by_empty_delimiter`: "abc" split by `str_zero()`. -/
theorem str_split_by_empty_delimiter_witness :
    str_zero.len = 0 ∧ (Heap.init []).nextOk = true ∧
    ∃ h' arr segs, str_split_by_str (Heap.init [])
        ⟨3, 0, some ⟨.static [97, 98, 99, 0], 0⟩⟩ str_zero = .ok (h', arr) ∧
      arr.len = 4 ∧ arr.elems h' = some segs ∧ segs.map Str.len = [0, 0, 0, 0] :=
  ⟨rfl, by decide,
    let ⟨h', arr, segs, h1, h2, h3, h4⟩ := str_split_by_empty_delimiter (Heap.init [])
      ⟨3, 0, some ⟨.static [97, 98, 99, 0], 0⟩⟩ str_zero rfl (by decide)
    ⟨h', arr, segs, h1, h2, h3, by rw [h4]; rfl⟩⟩

/-! ## Search for an empty pattern, and array construction -/

theorem str_find_first_str_loop_no_zero (h : Heap) (s a : Str) {m : List Byte}
    (hm : h.mem s.data = .ok m) (ha : h.load a.data 0 = .ok 0) :
    ∀ (k i : Nat), i + k ≤ m.length → (∀ j, i ≤ j → j < i + k → m[j]? ≠ some 0) →
      str_find_first_str_loop h s a k i = .ok s.len := by
  intro k
  induction k with
  | zero => intro i _ _; rfl
  | succ k ih =>
    intro i hi hz
    have h1 : i < m.length := by omega
    have hx : m[i] ≠ 0 := by
      intro e
      apply hz i (Nat.le_refl _) (by omega)
      rw [List.getElem?_eq_getElem h1, e]
    simp only [str_find_first_str_loop, bind, Except.bind, load_of_mem hm h1, ha, ne_eq, hx,
      not_false_eq_true, if_true]
    exact ih (i + 1) (by omega) (fun j h2 h3 => hz j (by omega) (by omega))

/-- C15 (failing behaviour). For a non-empty readable subject without a NUL byte,
`str_find_first_str` with the empty pattern `str_zero()` returns `s.len`, the "not found"
value, not 0: every byte of the subject is compared with the byte stored behind the empty
pattern (the terminator of the literal ""), and none matches. -/
theorem str_find_first_str_empty_pattern (h : Heap) (s : Str)
    (hr : h.readable s.data s.len = true) (hpos : 0 < s.len)
    (hz : ∀ bs, s.bytes h = some bs → (0 : Byte) ∉ bs) :
    str_find_first_str h s str_zero = .ok s.len := by
  obtain ⟨m, hm, hl⟩ := mem_ok_of_readable hr
  have hbs := hz _ (bytes_of_mem hm hl)
  have hloop := str_find_first_str_loop_no_zero h s str_zero hm rfl s.len 0 (by omega)
    (by
      intro j _ hj e
      apply hbs
      rw [List.mem_iff_getElem?]
      exact ⟨j, by rw [List.getElem?_take_of_lt (by omega)]; exact e⟩)
  have h1 : ¬ (s.len < str_zero.len) := Nat.not_lt_zero _
  have h2 : ¬ (str_zero.len = s.len) := by
    show ¬ (0 = s.len)
    omega
  unfold str_find_first_str
  rw [if_neg h1, if_neg h2]
  exact hloop

/-- Witness for `str_find_first_str_empty_pattern`: the subject "abc". -/
theorem str_find_first_str_empty_pattern_witness :
    Heap.readable (Heap.init []) (some ⟨.static [97, 98, 99, 0], 0⟩) 3 = true ∧
    str_find_first_str (Heap.init []) ⟨3, 0, some ⟨.static [97, 98, 99, 0], 0⟩⟩ str_zero
      = .ok 3 :=
  ⟨by decide, str_find_first_str_empty_pattern (Heap.init [])
    ⟨3, 0, some ⟨.static [97, 98, 99, 0], 0⟩⟩ (by decide) (by decide)
    (by
      intro bs hbs
      have e : Str.bytes (Heap.init []) ⟨3, 0, some ⟨.static [97, 98, 99, 0], 0⟩⟩
          = some [97, 98, 99] := by decide
      rw [e] at hbs
      injection hbs with e1
      rw [← e1]
      decide)⟩

theorem mallocStrs_fail {h : Heap} (hn : h.nextOk = false) (n : Nat) :
    h.mallocStrs n = (none, ⟨h.bytes, h.strs, h.oracle.tail, .malloc n :: h.log⟩) := by
  cases ho : h.oracle with
  | nil => simp [Heap.nextOk, ho] at hn
  | cons b rest =>
    cases b
    · simp [Heap.mallocStrs, ho]
    · simp [Heap.nextOk, ho] at hn

/-- C19 (failing behaviour). For a non-empty sequence the test of the allocation result is
inverted: when `malloc` succeeds `str_array_with_len` returns the empty `StrArray` (and
leaves the new block unused), and when `malloc` fails it copies the handles through the null
pointer. -/
theorem str_array_with_len_inverted_check (h : Heap) (data : ABase) (len : Nat)
    (hlen : 0 < len) :
    (h.nextOk = true → ∃ h', str_array_with_len h (some data) len = .ok (h', str_array_zero) ∧
      h'.log = .malloc (sizeof_Str * len) :: h.log) ∧
    (h.nextOk = false → (∃ x, h.loadStr (some data) 0 = .ok x) →
      str_array_with_len h (some data) len = .error .nullDeref) := by
  constructor
  · intro hn
    refine ⟨⟨h.bytes, h.strs ++ [some (List.replicate (sizeof_Str * len / sizeof_Str) junkStr)],
      h.oracle.tail, .malloc (sizeof_Str * len) :: h.log⟩, ?_, rfl⟩
    simp [str_array_with_len, str_array_with_len_cap, hlen, mallocStrs_ok hn]
  · rintro hn ⟨x, hx⟩
    obtain ⟨k, hk⟩ : ∃ k, len = k + 1 := ⟨len - 1, by omega⟩
    have hx1 : Heap.loadStr ⟨h.bytes, h.strs, h.oracle.tail,
        .malloc (sizeof_Str * (k + 1)) :: h.log⟩ (some data) 0 = .ok x := by
      cases data <;> exact hx
    subst hk
    simp [str_array_with_len, str_array_with_len_cap, mallocStrs_fail hn,
      str_array_with_len_cap_fill, str_array_copy_loop, bind, Except.bind, hx1,
      Heap.storeStr]

/-- Witness for `str_array_with_len_inverted_check`: two handles and a succeeding
allocator. -/
theorem str_array_with_len_inverted_check_witness :
    (Heap.init []).nextOk = true ∧
    ∃ h', str_array_with_len (Heap.init [])
        (some (.static [⟨1, 0, some ⟨.static [97, 0], 0⟩⟩, ⟨1, 0, some ⟨.static [98, 0], 0⟩⟩]))
        2 = .ok (h', ⟨0, 0, none⟩) ∧ h'.log = [.malloc 48] :=
  ⟨by decide, (str_array_with_len_inverted_check (Heap.init [])
    (.static [⟨1, 0, some ⟨.static [97, 0], 0⟩⟩, ⟨1, 0, some ⟨.static [98, 0], 0⟩⟩]) 2
    (by decide)).1 (by decide)⟩

/-! ## Search for a byte -/

/-- The loop of `str_find_first_byte`: the first index from `i` on that holds `c`, or `s.len`
when none of the `k` bytes is `c`. -/
theorem str_find_first_byte_loop_spec {h : Heap} {s : Str} {m : List Byte}
    (hm : h.mem s.data = .ok m) (c : Byte) :
    ∀ (k i : Nat), i + k ≤ m.length →
      ∃ r, str_find_first_byte_loop h s c k i = .ok r ∧
        ((i ≤ r ∧ r < i + k ∧ m[r]? = some c ∧ ∀ j, i ≤ j → j < r → m[j]? ≠ some c) ∨
         (r = s.len ∧ ∀ j, i ≤ j → j < i + k → m[j]? ≠ some c)) := by
  intro k
  induction k with
  | zero =>
    intro i _
    exact ⟨s.len, rfl, Or.inr ⟨rfl, fun j h1 h2 => by omega⟩⟩
  | succ k ih =>
    intro i hi
    have h1 : i < m.length := by omega
    simp only [str_find_first_byte_loop, bind, Except.bind, load_of_mem hm h1]
    by_cases hx : m[i] = c
    · simp only [hx, if_true]
      refine ⟨i, rfl, Or.inl ⟨Nat.le_refl _, by omega, ?_, fun j h2 h3 => by omega⟩⟩
      rw [List.getElem?_eq_getElem h1, hx]
    · simp only [hx, if_false]
      have hne : ∀ j, i ≤ j → j < i + 1 → m[j]? ≠ some c := by
        intro j h2 h3
        have e : j = i := by omega
        subst e
        rw [List.getElem?_eq_getElem h1]
        intro e1
        injection e1 with e2
        exact hx e2
      obtain ⟨r, hr, hcase⟩ := ih (i + 1) (by omega)
      refine ⟨r, hr, ?_⟩
      rcases hcase with ⟨h2, h3, h4, h5⟩ | ⟨h2, h3⟩
      · refine Or.inl ⟨by omega, by omega, h4, fun j h6 h7 => ?_⟩
        by_cases hj : j = i
        · exact hj ▸ hne i (Nat.le_refl _) (by omega)
        · exact h5 j (by omega) h7
      · refine Or.inr ⟨h2, fun j h6 h7 => ?_⟩
        by_cases hj : j = i
        · exact hj ▸ hne i (Nat.le_refl _) (by omega)
        · exact h3 j (by omega) (by omega)

/-- The loop of `str_find_last_byte`: the last index up to `i` that holds `c`, or `s.len`
when none of the bytes `0 .. i` is `c`. -/
theorem str_find_last_byte_loop_spec {h : Heap} {s : Str} {m : List Byte}
    (hm : h.mem s.data = .ok m) (c : Byte) :
    ∀ (i : Nat), i < m.length →
      ∃ r, str_find_last_byte_loop h s c i = .ok r ∧
        ((r ≤ i ∧ m[r]? = some c ∧ ∀ j, r < j → j ≤ i → m[j]? ≠ some c) ∨
         (r = s.len ∧ ∀ j, j ≤ i → m[j]? ≠ some c)) := by
  intro i
  induction i with
  | zero =>
    intro h1
    simp only [str_find_last_byte_loop, bind, Except.bind, load_of_mem hm h1]
    by_cases hx : m[0] = c
    · simp only [hx, if_true]
      refine ⟨0, rfl, Or.inl ⟨Nat.le_refl _, ?_, fun j h2 h3 => by omega⟩⟩
      rw [List.getElem?_eq_getElem h1, hx]
    · simp only [hx, if_false]
      refine ⟨s.len, rfl, Or.inr ⟨rfl, fun j h2 => ?_⟩⟩
      have e : j = 0 := by omega
      subst e
      rw [List.getElem?_eq_getElem h1]
      intro e1
      injection e1 with e2
      exact hx e2
  | succ i ih =>
    intro h1
    simp only [str_find_last_byte_loop, bind, Except.bind, load_of_mem hm h1]
    by_cases hx : m[i + 1] = c
    · simp only [hx, if_true]
      refine ⟨i + 1, rfl, Or.inl ⟨Nat.le_refl _, ?_, fun j h2 h3 => by omega⟩⟩
      rw [List.getElem?_eq_getElem h1, hx]
    · simp only [hx, if_false]
      have hne : m[i + 1]? ≠ some c := by
        rw [List.getElem?_eq_getElem h1]
        intro e1
        injection e1 with e2
        exact hx e2
      obtain ⟨r, hr, hcase⟩ := ih (by omega)
      refine ⟨r, hr, ?_⟩
      rcases hcase with ⟨h2, h3, h4⟩ | ⟨h2, h3⟩
      · refine Or.inl ⟨by omega, h3, fun j h5 h6 => ?_⟩
        by_cases hj : j = i + 1
        · exact hj ▸ hne
        · exact h4 j h5 (by omega)
      · refine Or.inr ⟨h2, fun j h5 => ?_⟩
        by_cases hj : j = i + 1
        · exact hj ▸ hne
        · exact h3 j (by omega)

theorem mem_take_iff_getElem? (m : List Byte) (n : Nat) (c : Byte) :
    c ∈ m.take n ↔ ∃ j, j < n ∧ m[j]? = some c := by
  rw [List.mem_iff_getElem?]
  constructor
  · rintro ⟨j, hj⟩
    rw [List.getElem?_take] at hj
    split at hj
    · exact ⟨j, by assumption, hj⟩
    · simp at hj
  · rintro ⟨j, h1, h2⟩
    exact ⟨j, by rw [List.getElem?_take_of_lt h1]; exact h2⟩

/-- The function `str_find_first_byte` on a readable handle, in terms of its bytes. -/
theorem str_find_first_byte_spec {h : Heap} {s : Str} {m : List Byte}
    (hm : h.mem s.data = .ok m) (hl : s.len ≤ m.length) (c : Byte) :
    ∃ f, str_find_first_byte h s c = .ok f ∧
      ((f < s.len ∧ m[f]? = some c ∧ ∀ j, j < f → m[j]? ≠ some c) ∨
       (f = s.len ∧ c ∉ m.take s.len)) := by
  obtain ⟨r, hr, hcase⟩ := str_find_first_byte_loop_spec hm c s.len 0 (by omega)
  refine ⟨r, hr, ?_⟩
  rcases hcase with ⟨_, h2, h3, h4⟩ | ⟨h2, h3⟩
  · exact Or.inl ⟨by omega, h3, fun j hj => h4 j (Nat.zero_le _) hj⟩
  · refine Or.inr ⟨h2, ?_⟩
    rw [mem_take_iff_getElem?]
    rintro ⟨j, h5, h6⟩
    exact h3 j (Nat.zero_le _) (by omega) h6

/-- The function `str_find_last_byte` on a readable handle, in terms of its bytes. -/
theorem str_find_last_byte_spec {h : Heap} {s : Str} {m : List Byte}
    (hm : h.mem s.data = .ok m) (hl : s.len ≤ m.length) (c : Byte) :
    ∃ l, str_find_last_byte h s c = .ok l ∧
      ((l < s.len ∧ m[l]? = some c ∧ ∀ j, l < j → j < s.len → m[j]? ≠ some c) ∨
       (l = s.len ∧ c ∉ m.take s.len)) := by
  by_cases h0 : s.len = 0
  · refine ⟨s.len, by simp [str_find_last_byte, h0], Or.inr ⟨rfl, ?_⟩⟩
    simp [h0]
  · obtain ⟨r, hr, hcase⟩ := str_find_last_byte_loop_spec hm c (s.len - 1) (by omega)
    refine ⟨r, by simp only [str_find_last_byte, h0, if_false]; exact hr, ?_⟩
    rcases hcase with ⟨h2, h3, h4⟩ | ⟨h2, h3⟩
    · exact Or.inl ⟨by omega, h3, fun j h5 h6 => h4 j h5 (by omega)⟩
    · refine Or.inr ⟨h2, ?_⟩
      rw [mem_take_iff_getElem?]
      rintro ⟨j, h5, h6⟩
      exact h3 j (by omega) h6

/-- C14. For every readable subject `s` with bytes `bs` and every byte `c`:
`str_find_first_byte` returns the smallest and `str_find_last_byte` the largest index
holding `c` when `c` occurs in `bs`, and both return `s.len` when it does not (also for the
empty subject); on "hello world" and 'o' they return 4 and 7, and the absent 'z' gives 11. -/
theorem str_find_byte_spec :
    (∀ (h : Heap) (s : Str) (c : Byte), h.readable s.data s.len = true →
      ∃ bs f l, s.bytes h = some bs ∧ str_find_first_byte h s c = .ok f ∧
        str_find_last_byte h s c = .ok l ∧
        (c ∈ bs → f < s.len ∧ bs[f]? = some c ∧ (∀ j, j < f → bs[j]? ≠ some c) ∧
          l < s.len ∧ bs[l]? = some c ∧ (∀ j, l < j → bs[j]? ≠ some c)) ∧
        (c ∉ bs → f = s.len ∧ l = s.len)) ∧
    str_find_first_byte (Heap.init [])
      ⟨11, 0, some ⟨.static [104, 101, 108, 108, 111, 32, 119, 111, 114, 108, 100, 0], 0⟩⟩ 111
        = .ok 4 ∧
    str_find_last_byte (Heap.init [])
      ⟨11, 0, some ⟨.static [104, 101, 108, 108, 111, 32, 119, 111, 114, 108, 100, 0], 0⟩⟩ 111
        = .ok 7 ∧
    str_find_first_byte (Heap.init [])
      ⟨11, 0, some ⟨.static [104, 101, 108, 108, 111, 32, 119, 111, 114, 108, 100, 0], 0⟩⟩ 122
        = .ok 11 ∧
    str_find_last_byte (Heap.init [])
      ⟨11, 0, some ⟨.static [104, 101, 108, 108, 111, 32, 119, 111, 114, 108, 100, 0], 0⟩⟩ 122
        = .ok 11 := by
  refine ⟨?_, by decide, by decide, by decide, by decide⟩
  intro h s c hr
  obtain ⟨m, hm, hl⟩ := mem_ok_of_readable hr
  obtain ⟨f, hf, hfc⟩ := str_find_first_byte_spec hm hl c
  obtain ⟨l, hlast, hlc⟩ := str_find_last_byte_spec hm hl c
  refine ⟨m.take s.len, f, l, bytes_of_mem hm hl, hf, hlast, ?_, ?_⟩
  · intro hc
    rcases hfc with ⟨h1, h2, h3⟩ | ⟨_, h2⟩
    · rcases hlc with ⟨h4, h5, h6⟩ | ⟨_, h5⟩
      · refine ⟨h1, by rw [List.getElem?_take_of_lt h1]; exact h2, ?_, h4,
          by rw [List.getElem?_take_of_lt h4]; exact h5, ?_⟩
        · intro j hj
          rw [List.getElem?_take_of_lt (by omega)]
          exact h3 j hj
        · intro j hj
          by_cases hjl : j < s.len
          · rw [List.getElem?_take_of_lt hjl]
            exact h6 j hj hjl
          · rw [List.getElem?_eq_none (by simp; omega)]
            simp
      · exact absurd hc h5
    · exact absurd hc h2
  · intro hc
    constructor
    · rcases hfc with ⟨h1, h2, _⟩ | ⟨h1, _⟩
      · exact absurd ((mem_take_iff_getElem? m s.len c).mpr ⟨f, h1, h2⟩) hc
      · exact h1
    · rcases hlc with ⟨h1, h2, _⟩ | ⟨h1, _⟩
      · exact absurd ((mem_take_iff_getElem? m s.len c).mpr ⟨l, h1, h2⟩) hc
      · exact h1

/-- Witness for `str_find_byte_spec`: the subject "abca" and the byte 'a'. -/
theorem str_find_byte_spec_witness :
    Heap.readable (Heap.init []) (some ⟨.static [97, 98, 99, 97, 0], 0⟩) 4 = true ∧
    ∃ f l, str_find_first_byte (Heap.init []) ⟨4, 0, some ⟨.static [97, 98, 99, 97, 0], 0⟩⟩ 97
        = .ok f ∧
      str_find_last_byte (Heap.init []) ⟨4, 0, some ⟨.static [97, 98, 99, 97, 0], 0⟩⟩ 97
        = .ok l :=
  ⟨by decide,
    let ⟨_, f, l, _, h2, h3, _⟩ := str_find_byte_spec.1 (Heap.init [])
      ⟨4, 0, some ⟨.static [97, 98, 99, 97, 0], 0⟩⟩ 97 (by decide)
    ⟨f, l, h2, h3⟩⟩

/-! ## Trimming white space -/

theorem str_trim_space_front_loop_spec {h : Heap} {s : Str} {m : List Byte}
    (hm : h.mem s.data = .ok m) :
    ∀ (k i : Nat), i + k ≤ m.length →
      ∃ j, str_trim_space_front_loop h s k i = .ok j ∧ i ≤ j ∧ j ≤ i + k ∧
        (∀ t, i ≤ t → t < j → ∃ c, m[t]? = some c ∧ str__byte_isspace c = true) ∧
        (j < i + k → ∃ c, m[j]? = some c ∧ str__byte_isspace c = false) := by
  intro k
  induction k with
  | zero =>
    intro i _
    exact ⟨i, rfl, Nat.le_refl _, Nat.le_refl _, fun t h1 h2 => by omega, fun h1 => by omega⟩
  | succ k ih =>
    intro i hi
    have h1 : i < m.length := by omega
    simp only [str_trim_space_front_loop, bind, Except.bind, load_of_mem hm h1]
    by_cases hx : str__byte_isspace m[i] = true
    · simp only [hx, not_true_eq_false, if_false]
      obtain ⟨j, hj, h2, h3, h4, h5⟩ := ih (i + 1) (by omega)
      refine ⟨j, hj, by omega, by omega, fun t h6 h7 => ?_, fun h6 => h5 (by omega)⟩
      by_cases ht : t = i
      · subst ht
        exact ⟨m[t], List.getElem?_eq_getElem h1, hx⟩
      · exact h4 t (by omega) h7
    · simp only [hx, not_false_eq_true, if_true]
      refine ⟨i, rfl, Nat.le_refl _, by omega, fun t h2 h3 => by omega, fun _ => ?_⟩
      exact ⟨m[i], List.getElem?_eq_getElem h1, by simpa using hx⟩

theorem str_trim_space_back_loop_spec {h : Heap} {s : Str} {m : List Byte}
    (hm : h.mem s.data = .ok m) (hl : s.len ≤ m.length) :
    ∀ (k i : Nat), i + k ≤ s.len →
      ∃ j, str_trim_space_back_loop h s k i = .ok j ∧ i ≤ j ∧ j ≤ i + k ∧
        (∀ t, i ≤ t → t < j →
          ∃ c, m[s.len - 1 - t]? = some c ∧ str__byte_isspace c = true) ∧
        (j < i + k → ∃ c, m[s.len - 1 - j]? = some c ∧ str__byte_isspace c = false) := by
  intro k
  induction k with
  | zero =>
    intro i _
    exact ⟨i, rfl, Nat.le_refl _, Nat.le_refl _, fun t h1 h2 => by omega, fun h1 => by omega⟩
  | succ k ih =>
    intro i hi
    have h1 : s.len - 1 - i < m.length := by omega
    simp only [str_trim_space_back_loop, bind, Except.bind, load_of_mem hm h1]
    by_cases hx : str__byte_isspace m[s.len - 1 - i] = true
    · simp only [hx, not_true_eq_false, if_false]
      obtain ⟨j, hj, h2, h3, h4, h5⟩ := ih (i + 1) (by omega)
      refine ⟨j, hj, by omega, by omega, fun t h6 h7 => ?_, fun h6 => h5 (by omega)⟩
      by_cases ht : t = i
      · subst ht
        exact ⟨m[s.len - 1 - t], List.getElem?_eq_getElem h1, hx⟩
      · exact h4 t (by omega) h7
    · simp only [hx, not_false_eq_true, if_true]
      refine ⟨i, rfl, Nat.le_refl _, by omega, fun t h2 h3 => by omega, fun _ => ?_⟩
      exact ⟨m[s.len - 1 - i], List.getElem?_eq_getElem h1, by simpa using hx⟩

/-- The function `str_trim_space` on a readable handle: it cuts `j` white-space bytes at the
back and `i` at the front, and the bytes next to the cuts are no white space. -/
theorem str_trim_space_spec {h : Heap} {s : Str} {m : List Byte}
    (hm : h.mem s.data = .ok m) (hl : s.len ≤ m.length) :
    ∃ i j, str_trim_space h s = .ok ⟨s.len - j - i, 0, s.data.add i⟩ ∧ i + j ≤ s.len ∧
      (∀ t, t < i → ∃ c, m[t]? = some c ∧ str__byte_isspace c = true) ∧
      (∀ t, s.len - j ≤ t → t < s.len → ∃ c, m[t]? = some c ∧ str__byte_isspace c = true) ∧
      (i + j < s.len →
        (∃ c, m[i]? = some c ∧ str__byte_isspace c = false) ∧
        (∃ c, m[s.len - j - 1]? = some c ∧ str__byte_isspace c = false)) ∧
      (s.len ≤ i + j → i = 0) := by
  obtain ⟨j, hj, _, hj2, hjsp, hjend⟩ := str_trim_space_back_loop_spec hm hl s.len 0 (by omega)
  have hm' : h.mem (str_with_len s.data (s.len - j)).data = .ok m := hm
  obtain ⟨i, hi, _, hi2, hisp, hiend⟩ := str_trim_space_front_loop_spec hm'
    (str_with_len s.data (s.len - j)).len 0 (by simp only [str_with_len]; omega)
  simp only [str_with_len, Nat.zero_add] at hi2 hiend
  have hlast : j < s.len → ∃ c, m[s.len - j - 1]? = some c ∧ str__byte_isspace c = false := by
    intro hlt
    obtain ⟨c, h1, h2⟩ := hjend (by omega)
    have e : s.len - 1 - j = s.len - j - 1 := by omega
    rw [e] at h1
    exact ⟨c, h1, h2⟩
  have hi3 : j < s.len → i < s.len - j := by
    intro hlt
    by_contra hge
    obtain ⟨c, h1, h2⟩ := hlast hlt
    obtain ⟨c', h3, h4⟩ := hisp (s.len - j - 1) (Nat.zero_le _) (by omega)
    rw [h1] at h3
    injection h3 with e
    rw [e, h4] at h2
    exact Bool.noConfusion h2
  refine ⟨i, j, ?_, by omega, fun t ht => hisp t (Nat.zero_le _) ht, ?_, ?_, ?_⟩
  · simp only [str_trim_space, str_trim_space_back, str_trim_space_front, bind, Except.bind,
      hj, pure, Except.pure, hi]
    rfl
  · intro t h1 h2
    obtain ⟨c, h3, h4⟩ := hjsp (s.len - 1 - t) (Nat.zero_le _) (by omega)
    have e : s.len - 1 - (s.len - 1 - t) = t := by omega
    rw [e] at h3
    exact ⟨c, h3, h4⟩
  · intro hlt
    exact ⟨hiend (by omega), hlast (by omega)⟩
  · intro hge
    by_contra hne
    have := hi3 (by omega)
    omega

theorem str__byte_isspace_iff (c : Byte) :
    str__byte_isspace c = true ↔
      c = 32 ∨ c = 13 ∨ c = 10 ∨ c = 9 ∨ c = 12 ∨ c = 11 := by
  simp [str__byte_isspace, or_assoc]

/-- The function `str_trim_space` leaves a handle unchanged whose first and last byte are
no white space, and any empty view. -/
theorem str_trim_space_fixed {h : Heap} {p : Ptr} {n : Nat} {m : List Byte}
    (hm : h.mem p = .ok m) (hl : n ≤ m.length)
    (hends : 0 < n → (∃ c, m[0]? = some c ∧ str__byte_isspace c = false) ∧
      (∃ c, m[n - 1]? = some c ∧ str__byte_isspace c = false)) :
    str_trim_space h ⟨n, 0, p⟩ = .ok ⟨n, 0, p⟩ := by
  obtain ⟨i, j, hrun, hij, hpre, hpost, _, _⟩ := str_trim_space_spec (s := ⟨n, 0, p⟩) hm hl
  simp only at hrun hij hpre hpost
  have hi : i = 0 := by
    by_contra hne
    obtain ⟨⟨c, h1, h2⟩, _⟩ := hends (by omega)
    obtain ⟨c', h3, h4⟩ := hpre 0 (by omega)
    rw [h1] at h3
    injection h3 with e
    rw [e, h4] at h2
    exact Bool.noConfusion h2
  have hj : j = 0 := by
    by_contra hne
    obtain ⟨_, ⟨c, h1, h2⟩⟩ := hends (by omega)
    obtain ⟨c', h3, h4⟩ := hpost (n - 1) (by omega) (by omega)
    rw [h1] at h3
    injection h3 with e
    rw [e, h4] at h2
    exact Bool.noConfusion h2
  rw [hrun, hi, hj]
  simp [ptr_add_zero]

theorem take_three_parts (m : List Byte) (n i j : Nat) (hij : i + j ≤ n) :
    m.take n = m.take i ++ (m.drop i).take (n - j - i) ++ (m.drop (n - j)).take j := by
  have e1 : n = i + ((n - j - i) + j) := by omega
  conv_lhs => rw [e1, List.take_add, List.take_add, List.drop_drop]
  have e2 : i + (n - j - i) = n - j := by omega
  rw [e2, List.append_assoc]

/-- C20. For every readable string `A`: `str_trim_space` returns a view `r` with
`str_trim_space(r) = r`; the bytes of `A` are `pre ++ mid ++ post` where `mid` are the bytes
of `r` and `pre` and `post` consist of white space only, and a non-empty `mid` neither starts
nor ends with white space; white space being the bytes space, CR, LF, TAB, FF and VT. -/
theorem str_trim_space_idempotent (h : Heap) (A : Str)
    (hr : h.readable A.data A.len = true) :
    ∃ r bs pre mid post, str_trim_space h A = .ok r ∧ str_trim_space h r = .ok r ∧
      r.cap = 0 ∧ A.bytes h = some bs ∧ r.bytes h = some mid ∧ bs = pre ++ mid ++ post ∧
      (∀ c ∈ pre, str__byte_isspace c = true) ∧ (∀ c ∈ post, str__byte_isspace c = true) ∧
      (∀ c, mid.head? = some c → str__byte_isspace c = false) ∧
      (∀ c, mid.getLast? = some c → str__byte_isspace c = false) ∧
      (∀ c, str__byte_isspace c = true ↔
        c = 32 ∨ c = 13 ∨ c = 10 ∨ c = 9 ∨ c = 12 ∨ c = 11) := by
  obtain ⟨m, hm, hl⟩ := mem_ok_of_readable hr
  obtain ⟨i, j, hrun, hij, hpre, hpost, hends, _⟩ := str_trim_space_spec hm hl
  have hmr : h.mem (Str.mk (A.len - j - i) 0 (A.data.add i)).data = .ok (m.drop i) :=
    mem_add hm i
  have hmidlen : ((m.drop i).take (A.len - j - i)).length = A.len - j - i := by
    simp
    omega
  have hget : ∀ t, t < A.len - j - i →
      ((m.drop i).take (A.len - j - i))[t]? = m[i + t]? := by
    intro t ht
    rw [List.getElem?_take_of_lt ht, List.getElem?_drop]
  refine ⟨⟨A.len - j - i, 0, A.data.add i⟩, m.take A.len, m.take i,
    (m.drop i).take (A.len - j - i), (m.drop (A.len - j)).take j, hrun, ?_, rfl,
    bytes_of_mem hm hl, bytes_of_mem hmr (by simp; omega), take_three_parts m A.len i j hij,
    ?_, ?_, ?_, ?_, str__byte_isspace_iff⟩
  · apply str_trim_space_fixed (mem_add hm i) (by simp; omega)
    intro hpos
    obtain ⟨⟨c1, h1, h2⟩, ⟨c2, h3, h4⟩⟩ := hends (by omega)
    refine ⟨⟨c1, ?_, h2⟩, ⟨c2, ?_, h4⟩⟩
    · rw [List.getElem?_drop]
      exact h1
    · rw [List.getElem?_drop]
      have e : i + (A.len - j - i - 1) = A.len - j - 1 := by omega
      rw [e]
      exact h3
  · intro c hc
    obtain ⟨t, ht, hct⟩ := (mem_take_iff_getElem? m i c).mp hc
    obtain ⟨c', h1, h2⟩ := hpre t ht
    rw [hct] at h1
    injection h1 with e
    rw [e]
    exact h2
  · intro c hc
    obtain ⟨t, ht, hct⟩ := (mem_take_iff_getElem? (m.drop (A.len - j)) j c).mp hc
    rw [List.getElem?_drop] at hct
    obtain ⟨c', h1, h2⟩ := hpost (A.len - j + t) (by omega) (by omega)
    rw [hct] at h1
    injection h1 with e
    rw [e]
    exact h2
  · intro c hc
    have hne : 0 < A.len - j - i := by
      by_contra h0
      have e : A.len - j - i = 0 := by omega
      rw [e] at hc
      simp at hc
    rw [List.head?_eq_getElem?, hget 0 hne] at hc
    obtain ⟨⟨c1, h1, h2⟩, _⟩ := hends (by omega)
    rw [Nat.add_zero, h1] at hc
    injection hc with e
    rw [← e]
    exact h2
  · intro c hc
    have hne : 0 < A.len - j - i := by
      by_contra h0
      have e : A.len - j - i = 0 := by omega
      rw [e] at hc
      simp at hc
    rw [List.getLast?_eq_getElem?, hmidlen, hget _ (by omega)] at hc
    obtain ⟨_, ⟨c2, h3, h4⟩⟩ := hends (by omega)
    have e : i + (A.len - j - i - 1) = A.len - j - 1 := by omega
    rw [e, h3] at hc
    injection hc with e1
    rw [← e1]
    exact h4

/-- Witness for `str_trim_space_idempotent`: the string "  a b \n". -/
theorem str_trim_space_idempotent_witness :
    Heap.readable (Heap.init []) (some ⟨.static [32, 32, 97, 32, 98, 32, 10, 0], 0⟩) 7 = true ∧
    ∃ r, str_trim_space (Heap.init []) ⟨7, 0, some ⟨.static [32, 32, 97, 32, 98, 32, 10, 0], 0⟩⟩
        = .ok r ∧ str_trim_space (Heap.init []) r = .ok r :=
  ⟨by decide,
    let ⟨r, _, _, _, _, h1, h2, _⟩ := str_trim_space_idempotent (Heap.init [])
      ⟨7, 0, some ⟨.static [32, 32, 97, 32, 98, 32, 10, 0], 0⟩⟩ (by decide)
    ⟨r, h1, h2⟩⟩

/-! ## Search for a non-empty pattern -/

/-- The pattern test of the substring searches at an index inside the subject. -/
theorem str_is_equal_at {h : Heap} {s a : Str} {m ma : List Byte}
    (hm : h.mem s.data = .ok m) (hl : s.len ≤ m.length)
    (hma : h.mem a.data = .ok ma) (hla : a.len ≤ ma.length) {i : Nat}
    (hi : i + a.len ≤ s.len) :
    str_is_equal h a ⟨a.len, 0, s.data.add i⟩ =
      .ok (decide ((m.drop i).take a.len = ma.take a.len)) := by
  have hmb : h.mem (Str.mk a.len 0 (s.data.add i)).data = .ok (m.drop i) := mem_add hm i
  rw [str_is_equal_same_len hma hmb hla (by simp; omega) rfl]
  congr 1
  exact decide_eq_decide.mpr ⟨fun e => e.symm, fun e => e.symm⟩

theorem head_of_take_eq {m ma : List Byte} {i la : Nat} (hla : 0 < la) (hi : i < m.length)
    (h0 : 0 < ma.length) (he : (m.drop i).take la = ma.take la) : m[i] = ma[0] := by
  have h1 := congrArg (fun l => l[0]?) he
  simp only [List.getElem?_take_of_lt hla, List.getElem?_drop, Nat.add_zero,
    List.getElem?_eq_getElem hi, List.getElem?_eq_getElem h0] at h1
  injection h1

/-- The loop of `str_find_first_str` for a non-empty pattern: the first index from `i` on at
which the pattern occurs, or `s.len` when it occurs at none of the `k` indices. -/
theorem str_find_first_str_loop_spec {h : Heap} {s a : Str} {m ma : List Byte}
    (hm : h.mem s.data = .ok m) (hl : s.len ≤ m.length)
    (hma : h.mem a.data = .ok ma) (hla : a.len ≤ ma.length) (hpos : 0 < a.len) :
    ∀ (k i : Nat), i + k ≤ s.len →
      ∃ r, str_find_first_str_loop h s a k i = .ok r ∧
        ((i ≤ r ∧ r < i + k ∧ r + a.len ≤ s.len ∧ (m.drop r).take a.len = ma.take a.len ∧
            ∀ j, i ≤ j → j < r →
              ¬ (j + a.len ≤ s.len ∧ (m.drop j).take a.len = ma.take a.len)) ∨
         (r = s.len ∧ ∀ j, i ≤ j → j < i + k →
              ¬ (j + a.len ≤ s.len ∧ (m.drop j).take a.len = ma.take a.len))) := by
  have h0 : 0 < ma.length := by omega
  intro k
  induction k with
  | zero =>
    intro i _
    exact ⟨s.len, rfl, Or.inr ⟨rfl, fun j h1 h2 => by omega⟩⟩
  | succ k ih =>
    intro i hi
    have h1 : i < m.length := by omega
    have hstep : ¬ (i + a.len ≤ s.len ∧ (m.drop i).take a.len = ma.take a.len) →
        (∃ r, str_find_first_str_loop h s a k (i + 1) = .ok r ∧
          ((i ≤ r ∧ r < i + (k + 1) ∧ r + a.len ≤ s.len ∧
              (m.drop r).take a.len = ma.take a.len ∧
              ∀ j, i ≤ j → j < r →
                ¬ (j + a.len ≤ s.len ∧ (m.drop j).take a.len = ma.take a.len)) ∨
           (r = s.len ∧ ∀ j, i ≤ j → j < i + (k + 1) →
                ¬ (j + a.len ≤ s.len ∧ (m.drop j).take a.len = ma.take a.len)))) := by
      intro hno
      obtain ⟨r, hr, hcase⟩ := ih (i + 1) (by omega)
      refine ⟨r, hr, ?_⟩
      rcases hcase with ⟨h2, h3, h4, h5, h6⟩ | ⟨h2, h3⟩
      · refine Or.inl ⟨by omega, by omega, h4, h5, fun j h7 h8 => ?_⟩
        by_cases hj : j = i
        · exact hj ▸ hno
        · exact h6 j (by omega) h8
      · refine Or.inr ⟨h2, fun j h7 h8 => ?_⟩
        by_cases hj : j = i
        · exact hj ▸ hno
        · exact h3 j (by omega) (by omega)
    simp only [str_find_first_str_loop, bind, Except.bind, load_of_mem hm h1,
      load_of_mem hma h0]
    by_cases hx : m[i] = ma[0]
    · simp only [hx, ne_eq, not_true_eq_false, if_false]
      by_cases hover : i + a.len > s.len
      · simp only [hover, if_true, pure, Except.pure]
        exact ⟨s.len, rfl, Or.inr ⟨rfl, fun j h2 h3 hocc => by omega⟩⟩
      · simp only [hover, if_false, str_substr_ok (s := s) (b := i) (l := a.len) (by omega),
          str_is_equal_at hm hl hma hla (by omega : i + a.len ≤ s.len)]
        by_cases heq : (m.drop i).take a.len = ma.take a.len
        · simp only [heq, decide_True, if_true, pure, Except.pure]
          exact ⟨i, rfl, Or.inl ⟨Nat.le_refl _, by omega, by omega, heq,
            fun j h2 h3 => by omega⟩⟩
        · simp only [heq, decide_False, Bool.false_eq_true, if_false]
          exact hstep (fun hocc => heq hocc.2)
    · simp only [hx, ne_eq, not_false_eq_true, if_true]
      exact hstep (fun hocc => hx (head_of_take_eq hpos h1 h0 hocc.2))

/-- The loop of `str_find_last_str` for a non-empty pattern: the last index below `n` at
which the pattern occurs, or `s.len` when it occurs at none of them. -/
theorem str_find_last_str_loop_spec {h : Heap} {s a : Str} {m ma : List Byte}
    (hm : h.mem s.data = .ok m) (hl : s.len ≤ m.length)
    (hma : h.mem a.data = .ok ma) (hla : a.len ≤ ma.length) (hpos : 0 < a.len) :
    ∀ (n : Nat), n + a.len ≤ s.len + 1 →
      ∃ r, str_find_last_str_loop h s a n = .ok r ∧
        ((r < n ∧ (m.drop r).take a.len = ma.take a.len ∧
            ∀ j, r < j → j < n → ¬ ((m.drop j).take a.len = ma.take a.len)) ∨
         (r = s.len ∧ ∀ j, j < n → ¬ ((m.drop j).take a.len = ma.take a.len))) := by
  have h0 : 0 < ma.length := by omega
  intro n
  induction n with
  | zero =>
    intro _
    exact ⟨s.len, rfl, Or.inr ⟨rfl, fun j h1 => by omega⟩⟩
  | succ i ih =>
    intro hi
    have h1 : i < m.length := by omega
    have hstep : ¬ ((m.drop i).take a.len = ma.take a.len) →
        (∃ r, str_find_last_str_loop h s a i = .ok r ∧
          ((r < i + 1 ∧ (m.drop r).take a.len = ma.take a.len ∧
              ∀ j, r < j → j < i + 1 → ¬ ((m.drop j).take a.len = ma.take a.len)) ∨
           (r = s.len ∧ ∀ j, j < i + 1 → ¬ ((m.drop j).take a.len = ma.take a.len)))) := by
      intro hno
      obtain ⟨r, hr, hcase⟩ := ih (by omega)
      refine ⟨r, hr, ?_⟩
      rcases hcase with ⟨h2, h3, h4⟩ | ⟨h2, h3⟩
      · refine Or.inl ⟨by omega, h3, fun j h5 h6 => ?_⟩
        by_cases hj : j = i
        · exact hj ▸ hno
        · exact h4 j h5 (by omega)
      · refine Or.inr ⟨h2, fun j h5 => ?_⟩
        by_cases hj : j = i
        · exact hj ▸ hno
        · exact h3 j (by omega)
    simp only [str_find_last_str_loop, bind, Except.bind, load_of_mem hm h1,
      load_of_mem hma h0]
    by_cases hx : m[i] = ma[0]
    · simp only [hx, ne_eq, not_true_eq_false, if_false,
        str_substr_ok (s := s) (b := i) (l := a.len) (by omega),
        str_is_equal_at hm hl hma hla (by omega : i + a.len ≤ s.len)]
      by_cases heq : (m.drop i).take a.len = ma.take a.len
      · simp only [heq, decide_True, if_true, pure, Except.pure]
        exact ⟨i, rfl, Or.inl ⟨by omega, heq, fun j h2 h3 => by omega⟩⟩
      · simp only [heq, decide_False, Bool.false_eq_true, if_false]
        exact hstep heq
    · simp only [hx, ne_eq, not_false_eq_true, if_true]
      exact hstep (fun hocc => hx (head_of_take_eq hpos h1 h0 hocc))

theorem occurs_iff (m ma : List Byte) (n la j : Nat) (hn : n ≤ m.length)
    (hla : la ≤ ma.length) (hpos : 0 < la) :
    (j + la ≤ n ∧ (m.drop j).take la = ma.take la) ↔
      ((m.take n).drop j).take (ma.take la).length = ma.take la := by
  have hlen : (ma.take la).length = la := by simp [hla]
  rw [hlen]
  constructor
  · rintro ⟨h1, h2⟩
    rw [drop_take_take _ _ _ _ h1, h2]
  · intro h1
    have h2 := congrArg List.length h1
    simp only [List.length_take, List.length_drop, Nat.min_eq_left hla] at h2
    have h3 : j + la ≤ n := by omega
    exact ⟨h3, by rw [← drop_take_take _ _ _ _ h3, h1]⟩

/-- The function `str_find_first_str` for a non-empty pattern, on readable operands. -/
theorem str_find_first_str_spec {h : Heap} {s a : Str} {m ma : List Byte}
    (hm : h.mem s.data = .ok m) (hl : s.len ≤ m.length)
    (hma : h.mem a.data = .ok ma) (hla : a.len ≤ ma.length) (hpos : 0 < a.len) :
    ∃ r, str_find_first_str h s a = .ok r ∧
      ((r < s.len ∧ (r + a.len ≤ s.len ∧ (m.drop r).take a.len = ma.take a.len) ∧
          ∀ j, j < r → ¬ (j + a.len ≤ s.len ∧ (m.drop j).take a.len = ma.take a.len)) ∨
       (r = s.len ∧
          ∀ j, ¬ (j + a.len ≤ s.len ∧ (m.drop j).take a.len = ma.take a.len))) := by
  have hfromloop : (∃ r, str_find_first_str_loop h s a s.len 0 = .ok r ∧
      ((r < s.len ∧ (r + a.len ≤ s.len ∧ (m.drop r).take a.len = ma.take a.len) ∧
          ∀ j, j < r → ¬ (j + a.len ≤ s.len ∧ (m.drop j).take a.len = ma.take a.len)) ∨
       (r = s.len ∧
          ∀ j, ¬ (j + a.len ≤ s.len ∧ (m.drop j).take a.len = ma.take a.len)))) := by
    obtain ⟨r, hr, hcase⟩ := str_find_first_str_loop_spec hm hl hma hla hpos s.len 0 (by omega)
    refine ⟨r, hr, ?_⟩
    rcases hcase with ⟨_, h2, h3, h4, h5⟩ | ⟨h2, h3⟩
    · exact Or.inl ⟨by omega, ⟨h3, h4⟩, fun j hj => h5 j (Nat.zero_le _) hj⟩
    · refine Or.inr ⟨h2, fun j hocc => ?_⟩
      exact h3 j (Nat.zero_le _) (by omega) hocc
  unfold str_find_first_str
  by_cases hlt : s.len < a.len
  · rw [if_pos hlt]
    exact ⟨s.len, rfl, Or.inr ⟨rfl, fun j hocc => by omega⟩⟩
  · rw [if_neg hlt]
    by_cases heq : a.len = s.len
    · rw [if_pos heq]
      have hcmp := str_is_equal_same_len hm hma hl hla heq.symm
      by_cases hsame : m.take s.len = ma.take a.len
      · rw [hcmp, decide_eq_true hsame]
        refine ⟨0, rfl, Or.inl ⟨by omega, ⟨by omega, ?_⟩, fun j hj => by omega⟩⟩
        rw [List.drop_zero]
        rw [← heq] at hsame
        exact hsame
      · rw [hcmp, decide_eq_false hsame]
        exact hfromloop
    · rw [if_neg heq]
      exact hfromloop

/-- The function `str_find_last_str` for a non-empty pattern, on readable operands. -/
theorem str_find_last_str_spec {h : Heap} {s a : Str} {m ma : List Byte}
    (hm : h.mem s.data = .ok m) (hl : s.len ≤ m.length)
    (hma : h.mem a.data = .ok ma) (hla : a.len ≤ ma.length) (hpos : 0 < a.len) :
    ∃ r, str_find_last_str h s a = .ok r ∧
      ((r < s.len ∧ (r + a.len ≤ s.len ∧ (m.drop r).take a.len = ma.take a.len) ∧
          ∀ j, r < j → ¬ (j + a.len ≤ s.len ∧ (m.drop j).take a.len = ma.take a.len)) ∨
       (r = s.len ∧
          ∀ j, ¬ (j + a.len ≤ s.len ∧ (m.drop j).take a.len = ma.take a.len))) := by
  unfold str_find_last_str
  by_cases hlt : s.len < a.len
  · rw [if_pos hlt]
    exact ⟨s.len, rfl, Or.inr ⟨rfl, fun j hocc => by omega⟩⟩
  · rw [if_neg hlt]
    obtain ⟨r, hr, hcase⟩ := str_find_last_str_loop_spec hm hl hma hla hpos
      (s.len - a.len + 1) (by omega)
    refine ⟨r, hr, ?_⟩
    rcases hcase with ⟨h2, h3, h4⟩ | ⟨h2, h3⟩
    · exact Or.inl ⟨by omega, ⟨by omega, h3⟩, fun j hj hocc => h4 j hj (by omega) hocc.2⟩
    · exact Or.inr ⟨h2, fun j hocc => h3 j (by omega) hocc.2⟩

/-- C13. For every readable subject `s` with bytes `bs` and every readable non-empty pattern
`a` with bytes `ba`: when `ba` occurs in `bs`, `str_find_first_str` returns the least and
`str_find_last_str` the greatest index `i` with `bs[i .. i + a.len) = ba`, both below
`s.len`; when it does not occur, both return exactly `s.len`. -/
theorem str_find_str_spec (h : Heap) (s a : Str) (hs : h.readable s.data s.len = true)
    (ha : h.readable a.data a.len = true) (hpos : 0 < a.len) :
    ∃ bs ba f l, s.bytes h = some bs ∧ a.bytes h = some ba ∧
      str_find_first_str h s a = .ok f ∧ str_find_last_str h s a = .ok l ∧
      ((∃ j, (bs.drop j).take ba.length = ba) →
        f < s.len ∧ (bs.drop f).take ba.length = ba ∧
          (∀ j, j < f → (bs.drop j).take ba.length ≠ ba) ∧
        l < s.len ∧ (bs.drop l).take ba.length = ba ∧
          (∀ j, l < j → (bs.drop j).take ba.length ≠ ba)) ∧
      ((∀ j, (bs.drop j).take ba.length ≠ ba) → f = s.len ∧ l = s.len) := by
  obtain ⟨m, hm, hl⟩ := mem_ok_of_readable hs
  obtain ⟨ma, hma, hla⟩ := mem_ok_of_readable ha
  obtain ⟨f, hf, hfc⟩ := str_find_first_str_spec hm hl hma hla hpos
  obtain ⟨l, hlast, hlc⟩ := str_find_last_str_spec hm hl hma hla hpos
  have key := fun j => occurs_iff m ma s.len a.len j hl hla hpos
  refine ⟨m.take s.len, ma.take a.len, f, l, bytes_of_mem hm hl, bytes_of_mem hma hla, hf,
    hlast, ?_, ?_⟩
  · rintro ⟨j, hj⟩
    have hocc := (key j).mpr hj
    rcases hfc with ⟨h1, h2, h3⟩ | ⟨_, h2⟩
    · rcases hlc with ⟨h4, h5, h6⟩ | ⟨_, h5⟩
      · exact ⟨h1, (key f).mp h2, fun i hi e => h3 i hi ((key i).mpr e), h4, (key l).mp h5,
          fun i hi e => h6 i hi ((key i).mpr e)⟩
      · exact absurd hocc (h5 j)
    · exact absurd hocc (h2 j)
  · intro hno
    constructor
    · rcases hfc with ⟨_, h2, _⟩ | ⟨h1, _⟩
      · exact absurd ((key f).mp h2) (hno f)
      · exact h1
    · rcases hlc with ⟨_, h2, _⟩ | ⟨h1, _⟩
      · exact absurd ((key l).mp h2) (hno l)
      · exact h1

/-- Witness for `str_find_str_spec`: the pattern "bc" in "abcabc". -/
theorem str_find_str_spec_witness :
    Heap.readable (Heap.init []) (some ⟨.static [97, 98, 99, 97, 98, 99, 0], 0⟩) 6 = true ∧
    Heap.readable (Heap.init []) (some ⟨.static [98, 99, 0], 0⟩) 2 = true ∧
    ∃ f l, str_find_first_str (Heap.init [])
        ⟨6, 0, some ⟨.static [97, 98, 99, 97, 98, 99, 0], 0⟩⟩ ⟨2, 0, some ⟨.static [98, 99, 0], 0⟩⟩
          = .ok f ∧
      str_find_last_str (Heap.init [])
        ⟨6, 0, some ⟨.static [97, 98, 99, 97, 98, 99, 0], 0⟩⟩ ⟨2, 0, some ⟨.static [98, 99, 0], 0⟩⟩
          = .ok l :=
  ⟨by decide, by decide,
    let ⟨_, _, f, l, _, _, h3, h4, _⟩ := str_find_str_spec (Heap.init [])
      ⟨6, 0, some ⟨.static [97, 98, 99, 97, 98, 99, 0], 0⟩⟩
      ⟨2, 0, some ⟨.static [98, 99, 0], 0⟩⟩ (by decide) (by decide) (by decide)
    ⟨f, l, h3, h4⟩⟩

/-! ## Path stem and parent -/

theorem str_trim_cstr_back_slash_spec {h : Heap} {s : Str} {m : List Byte}
    (hm : h.mem s.data = .ok m) (hl : s.len ≤ m.length) :
    str_trim_cstr_back h s lit_slash =
      .ok (if 1 ≤ s.len ∧ m[s.len - 1]? = some 47 then ⟨s.len - 1, 0, s.data⟩ else s) := by
  have hmp : h.mem (Str.mk 1 0 lit_slash).data = .ok [47, 0] := rfl
  have hspec := @str_trim_str_back_spec h s ⟨1, 0, lit_slash⟩ m [47, 0] hm hmp hl (by simp)
  simp only [str_trim_cstr_back, str_lit_slash, bind, Except.bind, hspec]
  congr 1
  by_cases h1 : 1 ≤ s.len
  · have h2 : s.len - 1 < m.length := by omega
    rw [List.drop_eq_getElem_cons h2]
    simp only [h1, true_and, List.take_succ_cons, List.take_zero, List.cons.injEq, and_true,
      List.getElem?_eq_getElem h2, Option.some.injEq]
  · simp only [h1, false_and, if_false]

theorem str_trim_cstr_front_slash_spec {h : Heap} {s : Str} {m : List Byte}
    (hm : h.mem s.data = .ok m) (hl : s.len ≤ m.length) :
    str_trim_cstr_front h s lit_slash =
      .ok (if 1 ≤ s.len ∧ m[0]? = some 47 then ⟨s.len - 1, 0, s.data.add 1⟩ else s) := by
  have hmp : h.mem (Str.mk 1 0 lit_slash).data = .ok [47, 0] := rfl
  have hspec := @str_trim_str_front_spec h s ⟨1, 0, lit_slash⟩ m [47, 0] hm hmp hl (by simp)
  simp only [str_trim_cstr_front, str_lit_slash, bind, Except.bind, hspec]
  congr 1
  by_cases h1 : 1 ≤ s.len
  · have h2 : 0 < m.length := by omega
    have hcons : m = m[0] :: m.drop 1 := by
      have := List.drop_eq_getElem_cons h2
      simpa using this
    have e : m.take 1 = [m[0]] := by
      conv_lhs => rw [hcons]
      simp only [List.take_succ_cons, List.take_zero]
    simp only [h1, true_and, e, List.take_succ_cons, List.take_zero, List.cons.injEq,
      and_true, List.getElem?_eq_getElem h2, Option.some.injEq]
  · simp only [h1, false_and, if_false]

theorem getLast?_take (m : List Byte) (n : Nat) (hn : n ≤ m.length) :
    (m.take n).getLast? = some 47 ↔ 1 ≤ n ∧ m[n - 1]? = some 47 := by
  rw [List.getLast?_eq_getElem?, List.length_take, Nat.min_eq_left hn]
  by_cases h1 : 1 ≤ n
  · rw [List.getElem?_take_of_lt (by omega)]
    simp [h1]
  · have e : n = 0 := by omega
    subst e
    simp

theorem drop_slash_take (m : List Byte) (n : Nat) (hn : n ≤ m.length) :
    drop_slash (m.take n) =
      m.take (if 1 ≤ n ∧ m[n - 1]? = some 47 then n - 1 else n) := by
  unfold drop_slash
  by_cases hc : 1 ≤ n ∧ m[n - 1]? = some 47
  · rw [if_pos ((getLast?_take m n hn).mpr hc), if_pos hc, List.dropLast_eq_take,
      List.length_take, Nat.min_eq_left hn, List.take_take]
    congr 1
    omega
  · rw [if_neg (fun e => hc ((getLast?_take m n hn).mp e)), if_neg hc]

/-- The first step of `str_filepath_stem` and `str_filepath_parent`: one trailing `'/'` is
cut. -/
theorem trim_back_slash_handle {h : Heap} {s : Str} {m : List Byte}
    (hm : h.mem s.data = .ok m) (hl : s.len ≤ m.length) :
    ∃ p1, str_trim_cstr_back h s lit_slash = .ok p1 ∧ p1.data = s.data ∧ p1.len ≤ s.len ∧
      m.take p1.len = drop_slash (m.take s.len) := by
  refine ⟨_, str_trim_cstr_back_slash_spec hm hl, ?_, ?_, ?_⟩
  · split <;> rfl
  · split
    · exact Nat.sub_le _ _
    · exact Nat.le_refl _
  · rw [drop_slash_take m s.len hl]
    split <;> rfl

theorem head?_take (m : List Byte) (n : Nat) (c : Byte) :
    (m.take n).head? = some c ↔ 1 ≤ n ∧ m[0]? = some c := by
  rw [List.head?_eq_getElem?]
  by_cases h1 : 1 ≤ n
  · rw [List.getElem?_take_of_lt (by omega)]
    simp [h1]
  · have e : n = 0 := by omega
    subst e
    simp

/-- The stem of a path that holds no `'/'` after the cut of one trailing `'/'`: the path
after that cut. -/
theorem str_filepath_stem_no_slash {h : Heap} {path p1 : Str} {m : List Byte}
    (hm : h.mem path.data = .ok m) (hl : path.len ≤ m.length)
    (hp1 : str_trim_cstr_back h path lit_slash = .ok p1) (hd : p1.data = path.data)
    (hle : p1.len ≤ path.len) (hno : (47 : Byte) ∉ m.take p1.len) :
    str_filepath_stem h path = .ok p1 := by
  have hm1 : h.mem p1.data = .ok m := by rw [hd]; exact hm
  have hl1 : p1.len ≤ m.length := by omega
  obtain ⟨f, hf, hfc⟩ := str_find_first_byte_spec hm1 hl1 47
  obtain ⟨i, hi, hic⟩ := str_find_last_byte_spec hm1 hl1 47
  have hf' : f = p1.len := by
    rcases hfc with ⟨h1, h2, _⟩ | ⟨h1, _⟩
    · exact absurd ((mem_take_iff_getElem? m p1.len 47).mpr ⟨f, h1, h2⟩) hno
    · exact h1
  have hi' : i = p1.len := by
    rcases hic with ⟨h1, h2, _⟩ | ⟨h1, _⟩
    · exact absurd ((mem_take_iff_getElem? m p1.len 47).mpr ⟨i, h1, h2⟩) hno
    · exact h1
  simp only [str_filepath_stem, hp1, bind, Except.bind, hf, pure, Except.pure, hi]
  by_cases h0 : p1.len = 0
  · have hfront := str_trim_cstr_front_slash_spec hm1 hl1
    have hc : ¬ (1 ≤ p1.len ∧ m[0]? = some 47) := by omega
    rw [if_neg hc] at hfront
    simp [hf', hi', h0, hfront]
  · simp [hf', h0]

/-- The stem of a path that starts with `'/'` after the cut of one trailing `'/'`: the view of
the bytes behind the last `'/'`. -/
theorem str_filepath_stem_abs {h : Heap} {path p1 : Str} {m : List Byte}
    (hm : h.mem path.data = .ok m) (hl : path.len ≤ m.length)
    (hp1 : str_trim_cstr_back h path lit_slash = .ok p1) (hd : p1.data = path.data)
    (hle : p1.len ≤ path.len) (hhead : (m.take p1.len).head? = some 47) :
    ∃ i, i < p1.len ∧ m[i]? = some 47 ∧ (∀ j, i < j → j < p1.len → m[j]? ≠ some 47) ∧
      str_filepath_stem h path = .ok ⟨p1.len - i - 1, 0, (path.data.add i).add 1⟩ := by
  have hm1 : h.mem p1.data = .ok m := by rw [hd]; exact hm
  have hl1 : p1.len ≤ m.length := by omega
  obtain ⟨hpos, h0⟩ := (head?_take m p1.len 47).mp hhead
  have hin : (47 : Byte) ∈ m.take p1.len :=
    (mem_take_iff_getElem? m p1.len 47).mpr ⟨0, by omega, h0⟩
  obtain ⟨f, hf, hfc⟩ := str_find_first_byte_spec hm1 hl1 47
  obtain ⟨i, hi, hic⟩ := str_find_last_byte_spec hm1 hl1 47
  have hf' : f = 0 := by
    rcases hfc with ⟨_, _, h3⟩ | ⟨_, h2⟩
    · by_contra hne
      exact h3 0 (by omega) h0
    · exact absurd hin h2
  rcases hic with ⟨h1, h2, h3⟩ | ⟨_, h2⟩
  · refine ⟨i, h1, h2, h3, ?_⟩
    have hne : ¬ (i = p1.len) := by omega
    have hmr : h.mem (Str.mk (p1.len - i) 0 (p1.data.add i)).data = .ok (m.drop i) :=
      mem_add hm1 i
    have hfront := str_trim_cstr_front_slash_spec (s := ⟨p1.len - i, 0, p1.data.add i⟩) hmr
      (by simp; omega)
    have hc : 1 ≤ (Str.mk (p1.len - i) 0 (p1.data.add i)).len ∧ (m.drop i)[0]? = some 47 := by
      refine ⟨by simp only; omega, ?_⟩
      rw [List.getElem?_drop, Nat.add_zero]
      exact h2
    rw [if_pos hc] at hfront
    rw [hd] at hfront
    simp only [str_filepath_stem, hp1, bind, Except.bind, hf, pure, Except.pure, hi, hf',
      ne_eq, not_true_eq_false, if_false, hne,
      str_substr_ok (s := p1) (b := i) (l := p1.len - i) (by omega), hfront, hd]
  · exact absurd hin h2

/-- C17 (counterexample). The stem of the root path "/" is the empty string, not "/"; and
for the relative path "a/b/c.txt" the whole path comes back. -/
theorem str_filepath_stem_root_is_empty :
    str_filepath_stem (Heap.init []) ⟨1, 0, some ⟨.static [47, 0], 0⟩⟩
      = .ok ⟨0, 0, some ⟨.static [47, 0], 0⟩⟩ ∧
    Str.bytes (Heap.init []) ⟨0, 0, some ⟨.static [47, 0], 0⟩⟩ = some [] ∧
    str_filepath_stem (Heap.init [])
      ⟨9, 0, some ⟨.static [97, 47, 98, 47, 99, 46, 116, 120, 116, 0], 0⟩⟩
      = .ok ⟨9, 0, some ⟨.static [97, 47, 98, 47, 99, 46, 116, 120, 116, 0], 0⟩⟩ := by
  decide

/-- C17 (amended). For every readable path with bytes `bs`, let `b1` be `bs` without one
trailing `'/'`.  When `b1` holds no `'/'` the stem is `b1` (so the stem of "/" is empty);
when `b1` starts with `'/'` the stem is the part of `b1` behind its last `'/'` and holds no
`'/'`; in particular the stem of "/a/b/c.txt" is "c.txt". -/
theorem str_filepath_stem_spec :
    (∀ (h : Heap) (path : Str), h.readable path.data path.len = true →
      ∃ r bs st, str_filepath_stem h path = .ok r ∧ path.bytes h = some bs ∧
        r.bytes h = some st ∧
        ((47 : Byte) ∉ drop_slash bs → st = drop_slash bs) ∧
        ((drop_slash bs).head? = some 47 →
          ∃ pre, drop_slash bs = pre ++ 47 :: st ∧ (47 : Byte) ∉ st)) ∧
    (∃ r, str_filepath_stem (Heap.init [])
        ⟨10, 0, some ⟨.static [47, 97, 47, 98, 47, 99, 46, 116, 120, 116, 0], 0⟩⟩ = .ok r ∧
      r.bytes (Heap.init []) = some [99, 46, 116, 120, 116]) := by
  refine ⟨?_, ⟨_, rfl, rfl⟩⟩
  intro h path hr
  obtain ⟨m, hm, hl⟩ := mem_ok_of_readable hr
  obtain ⟨p1, hp1, hd, hle, hb1⟩ := trim_back_slash_handle hm hl
  have hm1 : h.mem p1.data = .ok m := by rw [hd]; exact hm
  by_cases hno : (47 : Byte) ∈ m.take p1.len
  · by_cases hhead : (m.take p1.len).head? = some 47
    · obtain ⟨i, h1, h2, h3, hrun⟩ := str_filepath_stem_abs hm hl hp1 hd hle hhead
      have hmr : h.mem (Str.mk (p1.len - i - 1) 0 ((path.data.add i).add 1)).data
          = .ok ((m.drop i).drop 1) := mem_add (mem_add hm i) 1
      have hst : ((m.drop i).drop 1).take (p1.len - i - 1) = (m.take p1.len).drop (i + 1) := by
        rw [List.drop_drop, List.drop_take]
        congr 1
      have hsplit : m.take p1.len = m.take i ++ 47 :: (m.take p1.len).drop (i + 1) := by
        have hi : i < (m.take p1.len).length := by simp; omega
        have e1 : (m.take p1.len)[i] = 47 := by
          have := List.getElem?_eq_getElem hi
          rw [List.getElem?_take_of_lt h1, h2] at this
          injection this with e
          exact e.symm
        conv_lhs => rw [← List.take_append_drop i (m.take p1.len)]
        rw [List.drop_eq_getElem_cons hi, e1, List.take_take, Nat.min_eq_left (by omega)]
      refine ⟨_, _, _, hrun, bytes_of_mem hm hl, bytes_of_mem hmr (by simp; omega), ?_, ?_⟩
      · intro hc
        rw [← hb1] at hc
        exact absurd hno hc
      · intro _
        refine ⟨m.take i, ?_, ?_⟩
        · rw [← hb1, hst]
          exact hsplit
        · rw [hst]
          intro hmem
          rw [List.mem_iff_getElem?] at hmem
          obtain ⟨j, hj⟩ := hmem
          rw [List.getElem?_drop] at hj
          by_cases hjlt : i + 1 + j < p1.len
          · rw [List.getElem?_take_of_lt hjlt] at hj
            exact h3 (i + 1 + j) (by omega) hjlt hj
          · rw [List.getElem?_eq_none (by simp; omega)] at hj
            simp at hj
    · -- a relative path with an inner separator: no statement is made
      obtain ⟨r, hrun, _, hrr⟩ := str_filepath_stem_ok hr
      obtain ⟨mr, hmr, hlr⟩ := mem_ok_of_readable hrr
      refine ⟨r, _, _, hrun, bytes_of_mem hm hl, bytes_of_mem hmr hlr, ?_, ?_⟩
      · intro hc
        rw [← hb1] at hc
        exact absurd hno hc
      · intro hc
        rw [← hb1] at hc
        exact absurd hc hhead
  · have hrun := str_filepath_stem_no_slash hm hl hp1 hd hle hno
    refine ⟨p1, _, _, hrun, bytes_of_mem hm hl, bytes_of_mem hm1 (by omega), ?_, ?_⟩
    · intro _
      exact hb1
    · intro hc
      rw [← hb1] at hc
      obtain ⟨hpos, h0⟩ := (head?_take m p1.len 47).mp hc
      exact absurd ((mem_take_iff_getElem? m p1.len 47).mpr ⟨0, by omega, h0⟩) hno

/-- Witness for `str_filepath_stem_spec`: the path "/usr/bin/". -/
theorem str_filepath_stem_spec_witness :
    Heap.readable (Heap.init [])
      (some ⟨.static [47, 117, 115, 114, 47, 98, 105, 110, 47, 0], 0⟩) 9 = true ∧
    ∃ r, str_filepath_stem (Heap.init [])
      ⟨9, 0, some ⟨.static [47, 117, 115, 114, 47, 98, 105, 110, 47, 0], 0⟩⟩ = .ok r :=
  ⟨by decide,
    let ⟨r, _, _, h1, _⟩ := str_filepath_stem_spec.1 (Heap.init [])
      ⟨9, 0, some ⟨.static [47, 117, 115, 114, 47, 98, 105, 110, 47, 0], 0⟩⟩ (by decide)
    ⟨r, h1⟩⟩

/-- The parent of a path that starts with `'/'` after the cut of one trailing `'/'`: the
leading part of the path up to and including the last `'/'` before the stem. -/
theorem str_filepath_parent_abs {h : Heap} {path p1 : Str} {m : List Byte}
    (hm : h.mem path.data = .ok m) (hl : path.len ≤ m.length)
    (hp1 : str_trim_cstr_back h path lit_slash = .ok p1) (hd : p1.data = path.data)
    (hle : p1.len ≤ path.len) (hhead : (m.take p1.len).head? = some 47)
    (hn : path.len < 2147483648) :
    ∃ i, i < p1.len ∧ m[i]? = some 47 ∧ (∀ j, i < j → j < p1.len → m[j]? ≠ some 47) ∧
      str_filepath_stem h path = .ok ⟨p1.len - i - 1, 0, (path.data.add i).add 1⟩ ∧
      str_filepath_parent h path = .ok ⟨i + 1, 0, path.data⟩ := by
  obtain ⟨i, h1, h2, h3, hstem⟩ := str_filepath_stem_abs hm hl hp1 hd hle hhead
  refine ⟨i, h1, h2, h3, hstem, ?_⟩
  obtain ⟨hpos, h0⟩ := (head?_take m p1.len 47).mp hhead
  have hm1 : h.mem p1.data = .ok m := by rw [hd]; exact hm
  -- the path is longer than "/"
  have hn2 : 2 ≤ path.len := by
    by_contra hlt
    have e1 : path.len = 1 := by omega
    have hspec := str_trim_cstr_back_slash_spec hm hl
    have hc : 1 ≤ path.len ∧ m[path.len - 1]? = some 47 := by
      rw [e1]
      exact ⟨Nat.le_refl 1, h0⟩
    rw [if_pos hc, hp1] at hspec
    injection hspec with hspec
    rw [hspec] at hpos
    dsimp only at hpos
    omega
  have hmb : h.mem (Str.mk 1 0 lit_slash).data = .ok [47, 0] := rfl
  have hcmp := str_compare_spec (a := path) (b := ⟨1, 0, lit_slash⟩) hm hmb hl (by simp)
  have hfin : toInt (toInt (path.len : Int) - toInt ((1 : Nat) : Int))
      = (path.len : Int) - ((1 : Nat) : Int) := toInt_len_sub hn (by omega)
  have hne : cmp_bytes (m.take (min path.len 1)) ([47, 0].take (min path.len 1))
      (toInt (toInt (path.len : Int) - toInt ((1 : Nat) : Int))) ≠ 0 := by
    intro hz
    have hfz := ((cmp_bytes_eq_zero _ _ _ (by simp; omega)).mp hz).2
    rw [hfin] at hfz
    omega
  have hmst : h.mem (Str.mk (p1.len - i - 1) 0 ((path.data.add i).add 1)).data
      = .ok ((m.drop i).drop 1) := mem_add (mem_add hm i) 1
  have hback := @str_trim_str_back_spec h p1
    ⟨p1.len - i - 1, 0, (path.data.add i).add 1⟩ m ((m.drop i).drop 1) hm1 hmst (by omega)
    (by simp; omega)
  have hc : (Str.mk (p1.len - i - 1) 0 ((path.data.add i).add 1)).len ≤ p1.len ∧
      (m.drop (p1.len - (Str.mk (p1.len - i - 1) 0 ((path.data.add i).add 1)).len)).take
        (Str.mk (p1.len - i - 1) 0 ((path.data.add i).add 1)).len
      = ((m.drop i).drop 1).take
        (Str.mk (p1.len - i - 1) 0 ((path.data.add i).add 1)).len := by
    refine ⟨by dsimp only; omega, ?_⟩
    dsimp only
    rw [List.drop_drop]
    have e : p1.len - (p1.len - i - 1) = i + 1 := by omega
    rw [e]
  rw [if_pos hc] at hback
  have e : p1.len - (Str.mk (p1.len - i - 1) 0 ((path.data.add i).add 1)).len = i + 1 := by
    dsimp only
    omega
  rw [e, hd] at hback
  have hb : (cmp_bytes (m.take (min path.len 1)) ([47, 0].take (min path.len 1))
      (toInt (toInt (path.len : Int) - toInt ((1 : Nat) : Int))) == 0) = false := by
    simpa using hne
  simp only [str_filepath_parent, hstem, bind, Except.bind, str_is_equal_cstr, str_lit_slash,
    str_is_equal, hcmp, pure, Except.pure, hb, hp1, hback]
  rfl

/-- C18 (counterexample). The parent of "/a/b/c.txt" is "/a/b/": the separator before the
stem is kept. -/
theorem str_filepath_parent_keeps_separator :
    ∃ r, str_filepath_parent (Heap.init [])
        ⟨10, 0, some ⟨.static [47, 97, 47, 98, 47, 99, 46, 116, 120, 116, 0], 0⟩⟩ = .ok r ∧
      r.bytes (Heap.init []) = some [47, 97, 47, 98, 47] ∧
      r.bytes (Heap.init []) ≠ some [47, 97, 47, 98] :=
  ⟨⟨5, 0, some ⟨.static [47, 97, 47, 98, 47, 99, 46, 116, 120, 116, 0], 0⟩⟩,
    by decide, by decide, by decide⟩

/-- C18 (amended). For every readable path shorter than 2^31 bytes whose bytes `bs`, after
the cut of one trailing `'/'`, start with `'/'`: the stem `st` holds no `'/'`, the path after
the cut is `pre ++ '/' :: st`, and the parent is `pre ++ "/"`, the path without its stem and
with the separator before the stem kept.  The parent of "/" is "/". -/
theorem str_filepath_parent_spec :
    (∀ (h : Heap) (path : Str) (bs : List Byte), h.readable path.data path.len = true →
      path.len < 2147483648 → path.bytes h = some bs → (drop_slash bs).head? = some 47 →
      ∃ r sr pre st, str_filepath_stem h path = .ok sr ∧ sr.bytes h = some st ∧
        str_filepath_parent h path = .ok r ∧ r.bytes h = some (pre ++ [47]) ∧
        drop_slash bs = pre ++ 47 :: st ∧ (47 : Byte) ∉ st) ∧
    (∃ r, str_filepath_parent (Heap.init []) ⟨1, 0, some ⟨.static [47, 0], 0⟩⟩ = .ok r ∧
      r.bytes (Heap.init []) = some [47]) := by
  refine ⟨?_, ⟨_, rfl, rfl⟩⟩
  intro h path bs hr hn hbs hhead
  obtain ⟨m, hm, hl⟩ := mem_ok_of_readable hr
  have hbs' := bytes_of_mem hm hl
  rw [hbs] at hbs'
  injection hbs' with hbs'
  subst hbs'
  obtain ⟨p1, hp1, hd, hle, hb1⟩ := trim_back_slash_handle hm hl
  rw [← hb1] at hhead
  obtain ⟨i, h1, h2, h3, hstem, hpar⟩ := str_filepath_parent_abs hm hl hp1 hd hle hhead hn
  have hmr : h.mem (Str.mk (p1.len - i - 1) 0 ((path.data.add i).add 1)).data
      = .ok ((m.drop i).drop 1) := mem_add (mem_add hm i) 1
  have hst : ((m.drop i).drop 1).take (p1.len - i - 1) = (m.take p1.len).drop (i + 1) := by
    rw [List.drop_drop, List.drop_take]
    congr 1
  have hil : i < m.length := by omega
  have e1 : m[i] = 47 := by
    have := List.getElem?_eq_getElem hil
    rw [h2] at this
    injection this with e
    exact e.symm
  have hpre : m.take (i + 1) = m.take i ++ [47] := by
    rw [List.take_succ, List.getElem?_eq_getElem hil, e1]
    rfl
  have hsplit : m.take p1.len = m.take i ++ 47 :: (m.take p1.len).drop (i + 1) := by
    have hi : i < (m.take p1.len).length := by simp; omega
    have e2 : (m.take p1.len)[i] = 47 := by
      rw [List.getElem_take]
      exact e1
    conv_lhs => rw [← List.take_append_drop i (m.take p1.len)]
    rw [List.drop_eq_getElem_cons hi, e2, List.take_take, Nat.min_eq_left (by omega)]
  have hrb : (Str.mk (i + 1) 0 path.data).bytes h = some (m.take (i + 1)) :=
    bytes_of_mem (s := ⟨i + 1, 0, path.data⟩) hm (by dsimp only; omega)
  refine ⟨_, _, m.take i, _, hstem, bytes_of_mem hmr (by simp; omega), hpar, ?_, ?_, ?_⟩
  · rw [hrb, hpre]
  · rw [← hb1, hst]
    exact hsplit
  · rw [hst]
    intro hmem
    rw [List.mem_iff_getElem?] at hmem
    obtain ⟨j, hj⟩ := hmem
    rw [List.getElem?_drop] at hj
    by_cases hjlt : i + 1 + j < p1.len
    · rw [List.getElem?_take_of_lt hjlt] at hj
      exact h3 (i + 1 + j) (by omega) hjlt hj
    · rw [List.getElem?_eq_none (by simp; omega)] at hj
      simp at hj

/-- Witness for `str_filepath_parent_spec`: the path "/usr/bin/", with parent "/usr/". -/
theorem str_filepath_parent_spec_witness :
    Heap.readable (Heap.init [])
      (some ⟨.static [47, 117, 115, 114, 47, 98, 105, 110, 47, 0], 0⟩) 9 = true ∧
    (9 : Nat) < 2147483648 ∧
    (drop_slash [47, 117, 115, 114, 47, 98, 105, 110, 47]).head? = some 47 ∧
    ∃ r, str_filepath_parent (Heap.init [])
      ⟨9, 0, some ⟨.static [47, 117, 115, 114, 47, 98, 105, 110, 47, 0], 0⟩⟩ = .ok r :=
  ⟨by decide, by decide, by decide,
    let ⟨r, _, _, _, _, _, h1, _⟩ := str_filepath_parent_spec.1 (Heap.init [])
      ⟨9, 0, some ⟨.static [47, 117, 115, 114, 47, 98, 105, 110, 47, 0], 0⟩⟩
      [47, 117, 115, 114, 47, 98, 105, 110, 47] (by decide) (by decide) (by decide) (by decide)
    ⟨r, h1⟩⟩

/-! ## Joining path segments -/

theorem nextOk_of_all {h : Heap} (ho : ∀ b ∈ h.oracle, b = true) : h.nextOk = true := by
  cases hc : h.oracle with
  | nil => simp [Heap.nextOk, hc]
  | cons b rest =>
    have hb : b = true := ho b (by simp [hc])
    subst hb
    simp [Heap.nextOk, hc]

/-- A pointer readable in a heap does not point into a block allocated later. -/
theorem base_ne_of_le {h : Heap} {p : Ptr} {m : List Byte} (hm : h.mem p = .ok m) {d : Nat}
    (hd : h.bytes.length ≤ d) : p.map Loc.base ≠ some (.heap d) := by
  match p, hm with
  | some ⟨.static bs, off⟩, _ => simp
  | some ⟨.heap id, off⟩, hm =>
    obtain ⟨bs, hbl, _⟩ := mem_heap_ok hm
    have := (block_ok_lt hbl).1
    simp
    omega

/-- The test `str_is_zero` on a handle shorter than 2^32 bytes. -/
theorem str_is_zero_spec (h : Heap) {s : Str} (hl : s.len < 4294967296) :
    str_is_zero h s = .ok (decide (s.len = 0)) := by
  have hc : str_compare h s str_zero = .ok (toInt (toInt (s.len : Int) - toInt 0)) := by
    simp [str_compare, str_zero, str_with_len, str_compare_loop]
  unfold str_is_zero
  rw [hc]
  by_cases h0 : s.len = 0
  · rw [h0]
    rfl
  · have hne : toInt (toInt (s.len : Int) - toInt 0) ≠ 0 := by
      unfold toInt
      omega
    simp [h0, hne]

/-- One call of `str_append` on a handle that owns the start of a live block `d`, with
`1 ≤ len ≤ cap`, the capacity inside the block and room for the terminator: the call
succeeds under a succeeding allocator, keeps these properties, adds the bytes of `a`, and
leaves all memory outside the block `d` as it was. -/
theorem str_append_step {g : Heap} {r a : Str} {d : Nat} {db ma : List Byte}
    (hd : r.data = some ⟨.heap d, 0⟩) (hb : g.block d = .ok db)
    (h1 : 1 ≤ r.len) (h2 : r.len ≤ r.cap) (h3 : r.cap ≤ db.length) (h4 : r.len < db.length)
    (hma : g.mem a.data = .ok ma) (hal : a.len ≤ ma.length)
    (hne : a.data.map Loc.base ≠ some (.heap d)) (hn : g.nextOk = true) :
    ∃ (g' : Heap) (r' : Str) (d' : Nat) (db' : List Byte),
      str_append g r a = .ok (g', r') ∧ r'.data = some ⟨.heap d', 0⟩ ∧
      g'.block d' = .ok db' ∧ r'.len = r.len + a.len ∧ r'.len ≤ r'.cap ∧
      r'.cap ≤ db'.length ∧ r'.len < db'.length ∧
      db'.take r'.len = db.take r.len ++ ma.take a.len ∧
      (d' = d ∨ d' = g.bytes.length) ∧ g'.strs = g.strs ∧
      (∀ b ∈ g'.oracle, b ∈ g.oracle) ∧
      (∀ (p : Ptr) (m : List Byte), g.mem p = .ok m → p.map Loc.base ≠ some (.heap d) →
        g'.mem p = .ok m) := by
  obtain ⟨z, hz⟩ := str_is_zero_ok g a
  have hcap0 : r.cap ≠ 0 := by omega
  by_cases hsame : r.cap = (if r.cap > r.len + a.len then r.cap else growCap (r.len + a.len))
  · -- the buffer is kept
    have hroom : r.len + a.len < db.length := by
      by_cases hc : r.cap > r.len + a.len
      · omega
      · rw [if_neg hc] at hsame
        have hle : growCap (r.len + a.len) ≤ r.len + a.len := by omega
        have : r.len + a.len < 2 := by
          by_contra hge
          have := growCap_gt (n := r.len + a.len) (by omega)
          omega
        omega
    have hcle : r.len + a.len ≤ r.cap := by
      by_cases hc : r.cap > r.len + a.len
      · omega
      · rw [if_neg hc] at hsame
        have := growCap_ge (r.len + a.len)
        omega
    obtain ⟨h3', blk, hrun2, hst, hlen2, htake2, _⟩ :=
      write_tail (o := r.len) (n := a.len) hb hma hne hal hroom
    refine ⟨{ g with bytes := g.bytes.set d (some blk) },
      ⟨r.len + a.len, r.cap, some ⟨.heap d, 0⟩⟩, d, blk, ?_, rfl, block_set_self hb blk, rfl,
      hcle, by dsimp only; omega, by dsimp only; omega, htake2, Or.inl rfl, rfl,
      fun b hb => hb, ?_⟩
    · simp only [str_append, hz, bind, Except.bind, hcap0, ← hsame, if_false, pure,
        Except.pure, ne_eq, not_true_eq_false, hd, Nat.add_sub_cancel_left, hrun2, hst]
    · intro p m hm hp
      rw [mem_set_other _ hp]
      exact hm
  · -- the buffer is reallocated
    have hc : ¬ (r.cap > r.len + a.len) := by
      intro hc
      rw [if_pos hc] at hsame
      exact hsame rfl
    rw [if_neg hc] at hsame
    have hlen2 : 2 ≤ r.len + a.len := by
      by_contra hlt
      have e1 : r.len + a.len = 1 := by omega
      rw [e1] at hsame hc
      have : growCap 1 = 1 := rfl
      omega
    have hg := growCap_gt hlen2
    obtain ⟨blk0, hblk0⟩ : ∃ blk0 : List Byte, blk0 =
      db.take (min (sizeof_byte * r.cap) (sizeof_byte * growCap (r.len + a.len))) ++
        List.replicate (sizeof_byte * growCap (r.len + a.len) -
          (db.take (min (sizeof_byte * r.cap)
            (sizeof_byte * growCap (r.len + a.len)))).length) junk := ⟨_, rfl⟩
    have hblk0len : blk0.length = growCap (r.len + a.len) := by
      rw [hblk0, realloc_block_len]
      simp [sizeof_byte]
    have hblk0take : blk0.take r.len = db.take r.len := by
      rw [hblk0]
      have e1 : sizeof_byte = 1 := rfl
      apply realloc_block_take <;> (try rw [e1]) <;> omega
    obtain ⟨g1, hg1⟩ : ∃ g1 : Heap, g1 =
      ⟨g.bytes.set d none ++ [some blk0], g.strs, g.oracle.tail,
        .realloc (sizeof_byte * r.cap) (sizeof_byte * growCap (r.len + a.len)) :: g.log⟩ :=
      ⟨_, rfl⟩
    have hbytes : g1.bytes = g.bytes.set d none ++ [some blk0] := by rw [hg1]
    have hb1 : g1.block g.bytes.length = .ok blk0 := by
      have := block_append_new (h := { g with bytes := g.bytes.set d none }) hbytes
      simpa using this
    have hma1 : g1.mem a.data = .ok ma := mem_realloc_old hbytes hma hne
    obtain ⟨h3', blk, hrun2, hst, hlenb, htake2, _⟩ :=
      write_tail (o := r.len) (n := a.len) hb1 hma1 (base_ne_fresh hma) hal
        (by rw [hblk0len]; exact hg)
    have hset : (g.bytes.set d none ++ [some blk0]).set g.bytes.length (some blk)
        = g.bytes.set d none ++ [some blk] := by
      have := set_append_last (g.bytes.set d none) (some blk0) (some blk)
      rw [List.length_set] at this
      exact this
    obtain ⟨g2, hg2⟩ : ∃ g2 : Heap, g2 =
      ⟨g.bytes.set d none ++ [some blk], g.strs, g.oracle.tail,
        .realloc (sizeof_byte * r.cap) (sizeof_byte * growCap (r.len + a.len)) :: g.log⟩ :=
      ⟨_, rfl⟩
    have hbytes2 : g2.bytes = g.bytes.set d none ++ [some blk] := by rw [hg2]
    have hb2 : g2.block g.bytes.length = .ok blk := by
      have := block_append_new (h := { g with bytes := g.bytes.set d none }) hbytes2
      simpa using this
    refine ⟨g2, ⟨r.len + a.len, growCap (r.len + a.len), some ⟨.heap g.bytes.length, 0⟩⟩,
      g.bytes.length, blk, ?_, rfl, hb2, rfl, by dsimp only; omega,
      by dsimp only; omega, by dsimp only; omega, ?_, Or.inr rfl, by rw [hg2], ?_, ?_⟩
    · simp only [str_append, hz, bind, Except.bind, hc, hcap0, hsame, if_true, if_false, pure,
        Except.pure, ne_eq, not_false_eq_true, hd, realloc_ok hb hn, ← hblk0, ← hg1,
        Nat.add_sub_cancel_left, hrun2, hst]
      simp [hg1, hg2, hset]
    · dsimp only
      rw [htake2, hblk0take]
    · intro b hbm
      rw [hg2] at hbm
      exact List.mem_of_mem_tail hbm
    · intro p m hm hp
      exact mem_realloc_old hbytes2 hm hp

theorem mem_of_bytes {h : Heap} {s : Str} {b : List Byte} (hb : s.bytes h = some b) :
    ∃ m, h.mem s.data = .ok m ∧ s.len ≤ m.length ∧ b = m.take s.len := by
  unfold Str.bytes Heap.bytesAt at hb
  split at hb
  · rename_i bs heq
    split at hb
    · rename_i hle
      injection hb with hb
      exact ⟨bs, heq, hle, hb.symm⟩
    · simp at hb
  · simp at hb

theorem elems_congr {g h : Heap} (hs : g.strs = h.strs) (p : APtr) : g.elems p = h.elems p := by
  match p with
  | none => rfl
  | some (.static ss) => rfl
  | some (.heap id) => simp [Heap.elems, hs]

theorem loadStr_of_elems {g : Heap} {p : APtr} {ss : List Str} (he : g.elems p = .ok ss)
    {j : Nat} {e : Str} (hj : ss[j]? = some e) : g.loadStr p j = .ok e := by
  simp [Heap.loadStr, he, hj]

theorem ptr_add_base (p : Ptr) (n : Nat) : (p.add n).map Loc.base = p.map Loc.base := by
  match p with
  | none => rfl
  | some l => rfl

/-- The two cuts made on a later segment of a joined path: the result is a view into the
segment whose bytes are the segment without one trailing and one leading `'/'`. -/
theorem strip_slash_handle {g : Heap} {s : Str} {m : List Byte}
    (hm : g.mem s.data = .ok m) (hl : s.len ≤ m.length) :
    ∃ t t1 k, str_trim_cstr_back g s lit_slash = .ok t ∧
      str_trim_cstr_front g t lit_slash = .ok t1 ∧ t1.data = s.data.add k ∧
      k + t1.len ≤ s.len ∧ (m.drop k).take t1.len = strip_slash (m.take s.len) := by
  obtain ⟨p1, hp1, hd, hle, hb1⟩ := trim_back_slash_handle hm hl
  have hm1 : g.mem p1.data = .ok m := by rw [hd]; exact hm
  have hfront := str_trim_cstr_front_slash_spec hm1 (by omega)
  by_cases hc : 1 ≤ p1.len ∧ m[0]? = some 47
  · rw [if_pos hc] at hfront
    have hhead : (m.take p1.len).head? = some 47 := (head?_take m p1.len 47).mpr hc
    refine ⟨p1, _, 1, hp1, hfront, by rw [hd], by dsimp only; omega, ?_⟩
    unfold strip_slash
    rw [← hb1, if_pos hhead, ← List.drop_one, List.drop_take]
  · rw [if_neg hc] at hfront
    have hhead : ¬ ((m.take p1.len).head? = some 47) := fun hh =>
      hc ((head?_take m p1.len 47).mp hh)
    refine ⟨p1, p1, 0, hp1, hfront, by rw [hd, ptr_add_zero], by omega, ?_⟩
    unfold strip_slash
    rw [← hb1, if_neg hhead, List.drop_zero]

theorem ok_bind {α β : Type} (a : α) (f : α → Except Fault β) :
    (Except.ok a >>= f) = f a := rfl

theorem join_loop_succ {elems : StrArray} {k i : Nat} {g g1 : Heap} {r r1 : Str}
    (hbody : str_filepath_join_body elems i g r = .ok (g1, r1)) :
    str_filepath_join_loop elems (k + 1) i g r
      = str_filepath_join_loop elems k (i + 1) g1 r1 := by
  rw [str_filepath_join_loop, hbody]

theorem join_body_first {elems : StrArray} {g : Heap} {r e : Str}
    (hload : g.loadStr elems.data 0 = .ok e) :
    str_filepath_join_body elems 0 g r = str_append g r e := by
  unfold str_filepath_join_body
  rw [if_pos rfl, hload, ok_bind]

theorem join_body_skip {elems : StrArray} {i : Nat} {g : Heap} {r e : Str} (hi : ¬ (i = 0))
    (hload : g.loadStr elems.data i = .ok e) (hz : str_is_zero g e = .ok true) :
    str_filepath_join_body elems i g r = .ok (g, r) := by
  unfold str_filepath_join_body
  rw [if_neg hi, hload, ok_bind, hz, ok_bind, if_pos rfl]
  rfl

theorem join_body_later {elems : StrArray} {i : Nat} {g g1 : Heap} {r r1 e t t1 : Str}
    (hi : ¬ (i = 0)) (hload : g.loadStr elems.data i = .ok e)
    (hz : str_is_zero g e = .ok false)
    (hsep : str_append g r ⟨1, 0, lit_slash⟩ = .ok (g1, r1))
    (hload1 : g1.loadStr elems.data i = .ok e)
    (htb : str_trim_cstr_back g1 e lit_slash = .ok t)
    (htf : str_trim_cstr_front g1 t lit_slash = .ok t1) :
    str_filepath_join_body elems i g r = str_append g1 r1 t1 := by
  have hcstr : str_append_cstr g r lit_slash = .ok (g1, r1) := by
    unfold str_append_cstr
    rw [str_lit_slash, ok_bind]
    exact hsep
  unfold str_filepath_join_body
  rw [if_neg hi, hload, ok_bind, hz, ok_bind, if_neg (by decide), hcstr, ok_bind]
  dsimp only
  rw [hload1, ok_bind, htb, ok_bind, htf, ok_bind]

/-- The loop of `str_filepath_join` from a later segment on.  The result owns the start of
the live block `d`, allocated after the segments, with `1 ≤ len ≤ cap` and room for the
terminator; the segments are readable in the heap `h0` the call started from, and memory
readable in `h0` is still so.  Then the loop succeeds and adds the piece of every segment
left. -/
theorem str_filepath_join_loop_spec {h0 : Heap} {elems : StrArray} {ss : List Str}
    {bss : List (List Byte)} (hlen : bss.length = elems.len)
    (hget : ∀ j, j < elems.len → ∃ e m, ss[j]? = some e ∧ h0.mem e.data = .ok m ∧
      e.len ≤ m.length ∧ e.len < 4294967296 ∧ bss[j]? = some (m.take e.len)) :
    ∀ (k i : Nat) (g : Heap) (r : Str) (d : Nat) (db : List Byte), i + k = elems.len →
      1 ≤ i → g.elems elems.data = .ok ss → (∀ b ∈ g.oracle, b = true) →
      (∀ (p : Ptr) (m : List Byte), h0.mem p = .ok m → g.mem p = .ok m) →
      h0.bytes.length ≤ d → r.data = some ⟨.heap d, 0⟩ → g.block d = .ok db →
      1 ≤ r.len → r.len ≤ r.cap → r.cap ≤ db.length → r.len < db.length →
      ∃ (g' : Heap) (r' : Str), str_filepath_join_loop elems k i g r = .ok (g', r') ∧
        r'.bytes g' = some (db.take r.len ++ ((bss.drop i).map join_piece).flatten) := by
  intro k
  induction k with
  | zero =>
    intro i g r d db hik _ _ _ _ _ hd hb _ _ _ h4
    have hmr : g.mem r.data = .ok db := by
      rw [hd]
      simp [Heap.mem, hb]
    refine ⟨g, r, rfl, ?_⟩
    rw [bytes_of_mem hmr (by omega), List.drop_of_length_le (by omega)]
    simp
  | succ k ih =>
    intro i g r d db hik hi hel ho hfr hd0 hd hb h1 h2 h3 h4
    obtain ⟨e, m, hss, hme, hle, hlt, hbs⟩ := hget i (by omega)
    have hi0 : ¬ (i = 0) := by omega
    have hload := loadStr_of_elems hel hss
    have hzero := str_is_zero_spec g hlt
    have hdrop : bss.drop i = m.take e.len :: bss.drop (i + 1) := by
      have hil : i < bss.length := by omega
      rw [List.drop_eq_getElem_cons hil]
      congr 1
      have := List.getElem?_eq_getElem hil
      rw [hbs] at this
      injection this with this
      exact this.symm
    by_cases he0 : e.len = 0
    · -- an empty segment is skipped
      obtain ⟨g', r', hrun, hres⟩ :=
        ih (i + 1) g r d db (by omega) (by omega) hel ho hfr hd0 hd hb h1 h2 h3 h4
      refine ⟨g', r', ?_, ?_⟩
      · rw [join_loop_succ (join_body_skip hi0 hload (by rw [hzero, decide_eq_true he0]))]
        exact hrun
      · rw [hres, hdrop, he0]
        simp [join_piece]
    · -- a separator and the segment without one trailing and one leading separator
      have hms : g.mem (Str.mk 1 0 lit_slash).data = .ok [47, 0] := rfl
      obtain ⟨g1, r1, d1, db1, hrun1, hd1, hb1, hl1, h21, h31, h41, htake1, hdd1, hstrs1,
        ho1, hfr1⟩ := str_append_step (a := ⟨1, 0, lit_slash⟩) hd hb h1 h2 h3 h4 hms
          (by simp) (by simp [lit_slash]) (nextOk_of_all ho)
      have hdlt := (block_ok_lt hb).1
      have hl1' : r1.len = r.len + 1 := hl1
      have hd01 : h0.bytes.length ≤ d1 := by
        rcases hdd1 with e1 | e1 <;> omega
      have hfr01 : ∀ (p : Ptr) (m : List Byte), h0.mem p = .ok m → g1.mem p = .ok m :=
        fun p m hm => hfr1 p m (hfr p m hm) (base_ne_of_le hm hd0)
      have hel1 : g1.elems elems.data = .ok ss := by
        rw [elems_congr hstrs1]
        exact hel
      have hload1 := loadStr_of_elems hel1 hss
      have hme1 : g1.mem e.data = .ok m := hfr01 _ _ hme
      obtain ⟨t, t1, k0, htb, htf, htd, htl, htbytes⟩ := strip_slash_handle hme1 hle
      have hmt0 : h0.mem t1.data = .ok (m.drop k0) := by
        rw [htd]
        exact mem_add hme k0
      have hmt1 : g1.mem t1.data = .ok (m.drop k0) := hfr01 _ _ hmt0
      have ho1' : ∀ b ∈ g1.oracle, b = true := fun b hb => ho b (ho1 b hb)
      obtain ⟨g2, r2, d2, db2, hrun2, hd2, hb2, hl2, h22, h32, h42, htake2, hdd2, hstrs2,
        ho2, hfr2⟩ := str_append_step (a := t1) hd1 hb1 (by omega) h21 h31 h41 hmt1
          (by simp; omega) (base_ne_of_le hmt0 hd01) (nextOk_of_all ho1')
      have hd1lt := (block_ok_lt hb1).1
      have hd02 : h0.bytes.length ≤ d2 := by
        rcases hdd2 with e1 | e1 <;> omega
      have hfr02 : ∀ (p : Ptr) (m : List Byte), h0.mem p = .ok m → g2.mem p = .ok m :=
        fun p m hm => hfr2 p m (hfr01 p m hm) (base_ne_of_le hm hd01)
      have hel2 : g2.elems elems.data = .ok ss := by
        rw [elems_congr hstrs2]
        exact hel1
      obtain ⟨g', r', hrun, hres⟩ :=
        ih (i + 1) g2 r2 d2 db2 (by omega) (by omega) hel2
          (fun b hb => ho1' b (ho2 b hb)) hfr02 hd02 hd2 hb2 (by rw [hl2]; omega) h22 h32 h42
      refine ⟨g', r', ?_, ?_⟩
      · have hbody := join_body_later hi0 hload (by rw [hzero, decide_eq_false he0]) hrun1
          hload1 htb htf
        rw [hrun2] at hbody
        rw [join_loop_succ hbody]
        exact hrun
      · have hne : m.take e.len ≠ [] := by
          intro hnil
          have := congrArg List.length hnil
          rw [List.length_take, List.length_nil] at this
          omega
        rw [hres, htake2, htake1, htbytes, hdrop]
        simp [join_piece, hne]

/-- C16 (counterexample). Joining ["/usr/", "/bin/", "ls"] gives "/usr//bin/ls": the first
segment keeps its trailing `'/'` and a separator is added behind it. -/
theorem str_filepath_join_keeps_first_trailing_slash :
    ∃ h' r, str_filepath_join (Heap.init []) ⟨3, 3, some (.static [
        ⟨5, 0, some ⟨.static [47, 117, 115, 114, 47, 0], 0⟩⟩,
        ⟨5, 0, some ⟨.static [47, 98, 105, 110, 47, 0], 0⟩⟩,
        ⟨2, 0, some ⟨.static [108, 115, 0], 0⟩⟩])⟩ = .ok (h', r) ∧
      r.bytes h' = some [47, 117, 115, 114, 47, 47, 98, 105, 110, 47, 108, 115] ∧
      r.bytes h' ≠ some [47, 117, 115, 114, 47, 98, 105, 110, 47, 108, 115] :=
  ⟨⟨[none, some [47, 117, 115, 114, 47, 47, 98, 105, 110, 47, 108, 115, 0]], [], [],
      [.realloc 7 13, .malloc 56]⟩,
    ⟨12, 13, some ⟨.heap 1, 0⟩⟩, by decide, by decide, by decide⟩

/-- C16 (amended). Under an allocator that never fails, for every non-empty sequence of
readable segments shorter than 2^32 bytes whose first segment is not empty,
`str_filepath_join` returns the first segment as it is, followed for every later non-empty
segment by one `'/'` and that segment without one trailing and one leading `'/'`; empty
later segments add nothing.  Joining an empty sequence fails the assertion. -/
theorem str_filepath_join_spec :
    (∀ (h : Heap) (elems : StrArray) (es : List Str) (bss : List (List Byte)),
      (∀ b ∈ h.oracle, b = true) → elems.elems h = some es → 0 < elems.len →
      es.map (Str.bytes h) = bss.map some → (∀ e ∈ es, e.len < 4294967296) →
      bss.head? ≠ some [] →
      ∃ h' r, str_filepath_join h elems = .ok (h', r) ∧
        r.bytes h' = some (join_spec bss)) ∧
    (∀ (h : Heap) (elems : StrArray), elems.len = 0 →
      str_filepath_join h elems = .error .assertion) := by
  refine ⟨?_, ?_⟩
  · intro h elems es bss ho hes hpos hbs hlt hfirst
    -- the array and its elements
    obtain ⟨ss, hel, hle, hes'⟩ : ∃ ss, h.elems elems.data = .ok ss ∧ elems.len ≤ ss.length ∧
        es = ss.take elems.len := by
      unfold StrArray.elems at hes
      split at hes
      · rename_i ss heq
        split at hes
        · rename_i hle
          injection hes with hes
          exact ⟨ss, heq, hle, hes.symm⟩
        · simp at hes
      · simp at hes
    have hesl : es.length = elems.len := by
      rw [hes', List.length_take]
      omega
    have hbl : bss.length = elems.len := by
      have := congrArg List.length hbs
      rw [List.length_map, List.length_map] at this
      omega
    have hget : ∀ j, j < elems.len → ∃ e m, ss[j]? = some e ∧ h.mem e.data = .ok m ∧
        e.len ≤ m.length ∧ e.len < 4294967296 ∧ bss[j]? = some (m.take e.len) := by
      intro j hj
      have hje : j < es.length := by omega
      have hjb : j < bss.length := by omega
      have h1 : es[j]? = some es[j] := List.getElem?_eq_getElem hje
      have h2 : bss[j]? = some bss[j] := List.getElem?_eq_getElem hjb
      have h3 := congrArg (fun l => l[j]?) hbs
      simp only [List.getElem?_map, h1, h2, Option.map_some'] at h3
      injection h3 with h3
      obtain ⟨m, hm, hml, hb⟩ := mem_of_bytes h3
      refine ⟨es[j], m, ?_, hm, hml, hlt _ (List.getElem_mem _), ?_⟩
      · rw [← h1, hes', List.getElem?_take_of_lt hj]
      · rw [h2, hb]
    -- the first segment
    obtain ⟨e0, m0, hss0, hm0, hl0, _, hb0⟩ := hget 0 hpos
    have he0 : 1 ≤ e0.len := by
      by_contra hz
      have e : e0.len = 0 := by omega
      apply hfirst
      rw [List.head?_eq_getElem?, hb0, e]
      rfl
    have hr0 : h.readable e0.data e0.len = true := by
      rw [readable_iff]
      exact ⟨m0, hm0, hl0⟩
    obtain ⟨blk, ms, ma, _, hma, hblen, hbtake, hrun0⟩ :=
      str_append_view_ok (s := str_zero) (a := e0) rfl rfl hr0 (nextOk_of_all ho)
        (by omega)
    rw [hm0] at hma
    injection hma with hma
    subst hma
    have hz0 : str_zero.len = 0 := rfl
    rw [hz0, Nat.zero_add] at hblen hbtake hrun0
    rw [List.take_zero, List.nil_append] at hbtake
    obtain ⟨g, hg⟩ : ∃ g : Heap, g = ⟨h.bytes ++ [some blk], h.strs, h.oracle.tail,
        .malloc (sizeof_ptr * growCap e0.len) :: h.log⟩ := ⟨_, rfl⟩
    rw [← hg] at hrun0
    have hgb : g.bytes = h.bytes ++ [some blk] := by rw [hg]
    have hgrow := growCap_ge e0.len
    have hsz : sizeof_ptr = 8 := rfl
    rw [hsz] at hblen
    obtain ⟨h', r', hrun, hres⟩ :=
      str_filepath_join_loop_spec hbl hget (elems.len - 1) 1 g
        ⟨e0.len, growCap e0.len, some ⟨.heap h.bytes.length, 0⟩⟩ h.bytes.length blk (by omega)
        (Nat.le_refl 1)
        (by rw [elems_congr (h := h) (by rw [hg])]; exact hel)
        (fun b hb => ho b (by rw [hg] at hb; exact List.mem_of_mem_tail hb))
        (fun p m hm => mem_append_old hgb hm) (Nat.le_refl _) rfl (block_append_new hgb)
        he0 hgrow (by dsimp only; omega) (by dsimp only; omega)
    refine ⟨h', r', ?_, ?_⟩
    · have hk : elems.len = (elems.len - 1) + 1 := by omega
      have hbody : str_filepath_join_body elems 0 h str_zero
          = .ok (g, ⟨e0.len, growCap e0.len, some ⟨.heap h.bytes.length, 0⟩⟩) := by
        rw [join_body_first (loadStr_of_elems hel hss0)]
        exact hrun0
      unfold str_filepath_join
      rw [if_neg (by omega)]
      rw [hk, join_loop_succ hbody]
      exact hrun
    · rw [hres]
      dsimp only
      rw [hbtake]
      match bss, hb0 with
      | [], hb0 => simp at hb0
      | first :: rest, hb0 =>
        simp only [List.getElem?_cons_zero] at hb0
        injection hb0 with hb0
        rw [hb0]
        rfl
  · intro h elems hz
    unfold str_filepath_join
    rw [if_pos (by omega)]

/-- Witness for `str_filepath_join_spec`: joining ["usr", "/bin/", "", "ls"]. -/
theorem str_filepath_join_spec_witness :
    (∀ b ∈ (Heap.init []).oracle, b = true) ∧
    (∃ h' r, str_filepath_join (Heap.init []) ⟨4, 4, some (.static [
        ⟨3, 0, some ⟨.static [117, 115, 114, 0], 0⟩⟩,
        ⟨5, 0, some ⟨.static [47, 98, 105, 110, 47, 0], 0⟩⟩,
        ⟨0, 0, some ⟨.static [0], 0⟩⟩,
        ⟨2, 0, some ⟨.static [108, 115, 0], 0⟩⟩])⟩ = .ok (h', r) ∧
      r.bytes h' = some [117, 115, 114, 47, 98, 105, 110, 47, 108, 115]) :=
  ⟨by decide,
    str_filepath_join_spec.1 (Heap.init []) ⟨4, 4, some (.static [
        ⟨3, 0, some ⟨.static [117, 115, 114, 0], 0⟩⟩,
        ⟨5, 0, some ⟨.static [47, 98, 105, 110, 47, 0], 0⟩⟩,
        ⟨0, 0, some ⟨.static [0], 0⟩⟩,
        ⟨2, 0, some ⟨.static [108, 115, 0], 0⟩⟩])⟩
      [⟨3, 0, some ⟨.static [117, 115, 114, 0], 0⟩⟩,
        ⟨5, 0, some ⟨.static [47, 98, 105, 110, 47, 0], 0⟩⟩,
        ⟨0, 0, some ⟨.static [0], 0⟩⟩,
        ⟨2, 0, some ⟨.static [108, 115, 0], 0⟩⟩]
      [[117, 115, 114], [47, 98, 105, 110, 47], [], [108, 115]]
      (by decide) (by decide) (by decide) (by decide) (by decide) (by decide)⟩

/-! ## The two passes of a split -/

/-- The delimiter test of both passes of a split at an index inside the subject. -/
theorem str_is_equal_part {h : Heap} {s delim : Str} {m md : List Byte}
    (hm : h.mem s.data = .ok m) (hl : s.len ≤ m.length)
    (hmd : h.mem delim.data = .ok md) (hld : delim.len ≤ md.length) {i : Nat}
    (hi : i + delim.len ≤ s.len) :
    str_is_equal h ⟨delim.len, 0, s.data.add i⟩ delim =
      .ok (decide ((m.drop i).take delim.len = md.take delim.len)) := by
  have hmb : h.mem (Str.mk delim.len 0 (s.data.add i)).data = .ok (m.drop i) := mem_add hm i
  exact str_is_equal_same_len hmb hmd (by simp; omega) hld rfl

theorem split_count_stop {h : Heap} {s delim : Str} {k i n : Nat}
    (hi : i + delim.len > s.len) :
    str_split_count_loop h s delim (k + 1) i n = .ok n := by
  rw [str_split_count_loop, if_pos hi]

theorem split_count_step {h : Heap} {s delim : Str} {k i n : Nat} {b : Bool}
    (hi : ¬ (i + delim.len > s.len))
    (he : str_is_equal h ⟨delim.len, 0, s.data.add i⟩ delim = .ok b) :
    str_split_count_loop h s delim (k + 1) i n =
      str_split_count_loop h s delim k (i + 1) (if b then n + 1 else n) := by
  rw [str_split_count_loop, if_neg hi, str_substr_ok (by omega), ok_bind, he, ok_bind]
  cases b <;> rfl

theorem split_emit_stop {s delim : Str} {data : APtr} {k i b n : Nat} {g : Heap}
    (hi : i + delim.len > s.len) :
    str_split_emit_loop s delim data (k + 1) i b n g = .ok (g, b, n) := by
  rw [str_split_emit_loop, if_pos hi]

theorem split_emit_skip {s delim : Str} {data : APtr} {k i b n : Nat} {g : Heap}
    (hi : ¬ (i + delim.len > s.len))
    (he : str_is_equal g ⟨delim.len, 0, s.data.add i⟩ delim = .ok false) :
    str_split_emit_loop s delim data (k + 1) i b n g =
      str_split_emit_loop s delim data k (i + 1) b n g := by
  rw [str_split_emit_loop, if_neg hi, str_substr_ok (by omega), ok_bind, he, ok_bind]
  rfl

theorem split_emit_match {s delim : Str} {data : APtr} {k i b n : Nat} {g g1 : Heap}
    (hi : ¬ (i + delim.len > s.len))
    (he : str_is_equal g ⟨delim.len, 0, s.data.add i⟩ delim = .ok true) (hb : b ≤ i)
    (hst : g.storeStr data n ⟨i - b, 0, s.data.add b⟩ = .ok g1) :
    str_split_emit_loop s delim data (k + 1) i b n g =
      str_split_emit_loop s delim data k (i + 1) (i + 1) (n + 1) g1 := by
  rw [str_split_emit_loop, if_neg hi, str_substr_ok (by omega), ok_bind, he, ok_bind,
    if_pos rfl, str_substr_ok (by omega), ok_bind, hst, ok_bind]

/-- The two loops of `str_split_by_str` from the same index on: the first counts `j` matches,
and the second, given room for `j` more slots, writes exactly `j` segments into the slots
`n .. n + j - 1`, each inside the subject, and leaves the other slots as they were. -/
theorem str_split_loops_agree {s delim : Str} {m md : List Byte} (hl : s.len ≤ m.length)
    (hld : delim.len ≤ md.length) (id : Nat) :
    ∀ (k i b n c : Nat) (h g : Heap) (slots : List Str),
      h.mem s.data = .ok m → h.mem delim.data = .ok md → g.bytes = h.bytes →
      g.strs[id]? = some (some slots) → i + k ≤ s.len → b ≤ i →
      ∃ j, j ≤ k ∧ str_split_count_loop h s delim k i c = .ok (c + j) ∧
        (n + j ≤ slots.length →
          ∃ slots' b', str_split_emit_loop s delim (some (.heap id)) k i b n g =
              .ok ({ g with strs := g.strs.set id (some slots') }, b', n + j) ∧
            b ≤ b' ∧ b' ≤ i + k ∧ slots'.length = slots.length ∧
            (∀ x, x < n → slots'[x]? = slots[x]?) ∧
            (∀ x, n + j ≤ x → slots'[x]? = slots[x]?) ∧
            ∀ x, n ≤ x → x < n + j →
              ∃ bb l, slots'[x]? = some ⟨l, 0, s.data.add bb⟩ ∧ bb + l ≤ s.len) := by
  intro k
  induction k with
  | zero =>
    intro i b n c h g slots _ _ _ hs _ hb
    refine ⟨0, Nat.le_refl 0, rfl, fun _ => ⟨slots, b, ?_, Nat.le_refl b, by omega, rfl,
      fun _ _ => rfl, fun _ _ => rfl, fun x h1 h2 => by omega⟩⟩
    simp [str_split_emit_loop, set_same _ _ _ hs]
  | succ k ih =>
    intro i b n c h g slots hm hmd hgb hs hik hb
    by_cases hi : i + delim.len > s.len
    · refine ⟨0, Nat.zero_le _, split_count_stop hi, fun _ => ⟨slots, b, ?_, Nat.le_refl b,
        by omega, rfl, fun _ _ => rfl, fun _ _ => rfl, fun x h1 h2 => by omega⟩⟩
      rw [split_emit_stop hi, set_same _ _ _ hs]
      rfl
    · have hgm : g.mem s.data = .ok m := (mem_congr_bytes hgb _).trans hm
      have hgmd : g.mem delim.data = .ok md := (mem_congr_bytes hgb _).trans hmd
      have heq := str_is_equal_part hm hl hmd hld (i := i) (by omega)
      have heqg := str_is_equal_part hgm hl hgmd hld (i := i) (by omega)
      by_cases hx : (m.drop i).take delim.len = md.take delim.len
      · -- a match at index i
        rw [decide_eq_true hx] at heq heqg
        obtain ⟨g1, hg1⟩ : ∃ g1 : Heap, g1 =
          { g with strs := g.strs.set id (some (slots.set n ⟨i - b, 0, s.data.add b⟩)) } :=
          ⟨_, rfl⟩
        have hs1 : g1.strs[id]? = some (some (slots.set n ⟨i - b, 0, s.data.add b⟩)) := by
          rw [hg1]
          exact strs_set_get hs _
        have hg1b : g1.bytes = h.bytes := by rw [hg1]; exact hgb
        obtain ⟨j, hjk, hcount, hemit⟩ :=
          ih (i + 1) (i + 1) (n + 1) (c + 1) h g1 _ hm hmd hg1b hs1 (by omega) (Nat.le_refl _)
        refine ⟨j + 1, by omega, ?_, ?_⟩
        · rw [split_count_step hi heq, if_pos rfl, hcount]
          congr 1
          omega
        · intro hroom
          have hn : n < slots.length := by omega
          obtain ⟨slots', b', hrun, hb1, hb2, hlen, hlow, hhigh, hnew⟩ :=
            hemit (by rw [List.length_set]; omega)
          have hst := storeStr_eq hs hn ⟨i - b, 0, s.data.add b⟩
          rw [← hg1] at hst
          refine ⟨slots', b', ?_, by omega, by omega, by rw [hlen, List.length_set], ?_, ?_, ?_⟩
          · rw [split_emit_match hi heqg hb hst, hrun, hg1]
            have e : n + 1 + j = n + (j + 1) := by omega
            rw [e]
            simp only [List.set_set]
          · intro x hxn
            rw [hlow x (by omega), List.getElem?_set_ne (by omega)]
          · intro x hxn
            rw [hhigh x (by omega), List.getElem?_set_ne (by omega)]
          · intro x hx1 hx2
            by_cases hxe : x = n
            · refine ⟨b, i - b, ?_, by omega⟩
              rw [hxe, hlow n (by omega), List.getElem?_set_self hn]
            · exact hnew x (by omega) (by omega)
      · -- no match at index i
        rw [decide_eq_false hx] at heq heqg
        obtain ⟨j, hjk, hcount, hemit⟩ :=
          ih (i + 1) b n c h g slots hm hmd hgb hs (by omega) (by omega)
        refine ⟨j, by omega, ?_, ?_⟩
        · rw [split_count_step hi heq]
          exact hcount
        · intro hroom
          obtain ⟨slots', b', hrun, hb1, hb2, hlen, hlow, hhigh, hnew⟩ := hemit hroom
          refine ⟨slots', b', ?_, hb1, by omega, hlen, hlow, hhigh, hnew⟩
          rw [split_emit_skip hi heqg]
          exact hrun

/-- C21. For every readable subject and every readable delimiter (empty and multi-byte ones
included), under a succeeding allocation, the counting pass of `str_split_by_str` is exact:
with `num` the count of the first pass, one block of `num + 1` slots is allocated, the call
returns (no assertion of `str_substr` fails and no segment is stored outside the block), the
array has `cap = num + 1` and `len = cap`, the block holds exactly `cap` segments, and every
segment is a view `(begin, length)` of the subject with `begin + length ≤ s.len`. -/
theorem str_split_by_str_count_exact (h : Heap) (s delim : Str)
    (hs : h.readable s.data s.len = true) (hd : h.readable delim.data delim.len = true)
    (hn : h.nextOk = true) :
    ∃ num h' arr segs, str_split_count_loop h s delim s.len 0 0 = .ok num ∧
      str_split_by_str h s delim = .ok (h', arr) ∧
      h'.log = .malloc (sizeof_Str * (num + 1)) :: h.log ∧
      arr.cap = num + 1 ∧ arr.len = arr.cap ∧
      h'.elems arr.data = .ok segs ∧ segs.length = arr.cap ∧
      ∀ seg ∈ segs, ∃ b l, seg = ⟨l, 0, s.data.add b⟩ ∧ b + l ≤ s.len := by
  obtain ⟨m, hm, hl⟩ := mem_ok_of_readable hs
  obtain ⟨md, hmd, hld⟩ := mem_ok_of_readable hd
  -- the count of the first pass
  obtain ⟨num, _, hcount0, _⟩ :=
    str_split_loops_agree hl hld 0 s.len 0 0 0 0 h ⟨h.bytes, [some []], h.oracle, h.log⟩ []
      hm hmd rfl rfl (by omega) (Nat.le_refl 0)
  rw [Nat.zero_add] at hcount0
  -- the block of the array
  obtain ⟨slots, hslots⟩ : ∃ slots, slots =
    List.replicate (sizeof_Str * (num + 1) / sizeof_Str) junkStr := ⟨_, rfl⟩
  have hslen : slots.length = num + 1 := by
    rw [hslots]
    simp [sizeof_Str]
  obtain ⟨g, hg⟩ : ∃ g : Heap, g = ⟨h.bytes, h.strs ++ [some slots], h.oracle.tail,
      .malloc (sizeof_Str * (num + 1)) :: h.log⟩ := ⟨_, rfl⟩
  have hgs : g.strs[h.strs.length]? = some (some slots) := by
    rw [hg]
    simp
  obtain ⟨j, _, hcount, hemit⟩ :=
    str_split_loops_agree hl hld h.strs.length s.len 0 0 0 0 h g slots hm hmd (by rw [hg])
      hgs (by omega) (Nat.le_refl 0)
  rw [Nat.zero_add] at hcount
  have hj : j = num := by
    rw [hcount0] at hcount
    injection hcount with e
    exact e.symm
  subst hj
  obtain ⟨slots', b', hrun, _, hb2, hlen, _, _, hnew⟩ := hemit (by omega)
  rw [Nat.zero_add] at hrun hb2
  -- the trailing segment
  have hsub : str_substr s b' (s.len - b') = .ok ⟨s.len - b', 0, s.data.add b'⟩ :=
    str_substr_ok (by omega)
  obtain ⟨g2, hg2⟩ : ∃ g2 : Heap, g2 =
    { g with strs := g.strs.set h.strs.length (some slots') } := ⟨_, rfl⟩
  rw [← hg2] at hrun
  have hg2s : g2.strs[h.strs.length]? = some (some slots') := by
    rw [hg2]
    exact strs_set_get hgs _
  have hstore := storeStr_eq hg2s (n := j) (by omega) ⟨s.len - b', 0, s.data.add b'⟩
  obtain ⟨g3, hg3⟩ : ∃ g3 : Heap, g3 = ⟨g2.bytes,
      g2.strs.set h.strs.length (some (slots'.set j ⟨s.len - b', 0, s.data.add b'⟩)),
      g2.oracle, g2.log⟩ := ⟨_, rfl⟩
  rw [← hg3] at hstore
  have hg3s : g3.strs[h.strs.length]?
      = some (some (slots'.set j ⟨s.len - b', 0, s.data.add b'⟩)) := by
    rw [hg3]
    exact strs_set_get hg2s _
  refine ⟨j, g3, ⟨j + 1, j + 1, some (.heap h.strs.length)⟩,
    slots'.set j ⟨s.len - b', 0, s.data.add b'⟩, hcount0, ?_, ?_, rfl, rfl, ?_, ?_, ?_⟩
  · simp only [str_split_by_str, hcount0, bind, Except.bind, pure, Except.pure,
      mallocStrs_ok hn, ← hslots, ← hg, hrun, hsub, hstore]
  · rw [hg3, hg2, hg]
  · simp only [Heap.elems, hg3s]
  · rw [List.length_set, hlen, hslen]
  · intro seg hseg
    rw [List.mem_iff_getElem?] at hseg
    obtain ⟨x, hx⟩ := hseg
    by_cases hxj : x = j
    · rw [hxj, List.getElem?_set_self (by omega)] at hx
      injection hx with hx
      exact ⟨b', s.len - b', hx.symm, by omega⟩
    · rw [List.getElem?_set_ne (fun e => hxj e.symm)] at hx
      have hxlt : x < slots'.length := by
        by_contra hge
        rw [List.getElem?_eq_none (by omega)] at hx
        simp at hx
      obtain ⟨bb, l, hget, hle⟩ := hnew x (Nat.zero_le _) (by omega)
      rw [hget] at hx
      injection hx with hx
      exact ⟨bb, l, hx.symm, hle⟩

/-- Witness for `str_split_by_str_count_exact`: "aaa" split by "aa", whose occurrences
overlap. -/
theorem str_split_by_str_count_exact_witness :
    Heap.readable (Heap.init []) (some ⟨.static [97, 97, 97, 0], 0⟩) 3 = true ∧
    Heap.readable (Heap.init []) (some ⟨.static [97, 97, 0], 0⟩) 2 = true ∧
    (Heap.init []).nextOk = true ∧
    ∃ num h' arr, str_split_count_loop (Heap.init [])
        ⟨3, 0, some ⟨.static [97, 97, 97, 0], 0⟩⟩ ⟨2, 0, some ⟨.static [97, 97, 0], 0⟩⟩ 3 0 0
          = .ok num ∧
      str_split_by_str (Heap.init [])
        ⟨3, 0, some ⟨.static [97, 97, 97, 0], 0⟩⟩ ⟨2, 0, some ⟨.static [97, 97, 0], 0⟩⟩
          = .ok (h', arr) ∧
      arr.cap = num + 1 ∧ arr.len = arr.cap :=
  ⟨by decide, by decide, by decide,
    let ⟨num, h', arr, _, h1, h2, _, h3, h4, _⟩ := str_split_by_str_count_exact (Heap.init [])
      ⟨3, 0, some ⟨.static [97, 97, 97, 0], 0⟩⟩ ⟨2, 0, some ⟨.static [97, 97, 0], 0⟩⟩
      (by decide) (by decide) (by decide)
    ⟨num, h', arr, h1, h2, h3, h4⟩⟩

end StrH
